import Mathlib

/-!
Verification of the Othello/Reversi game engine of `script.js`.

The JavaScript engine is shallowly embedded.  A board is, as in the
source, an array of rows of cell values (`List (List Nat)`); in-place
array mutation becomes functional update of the nested list, and each
`while` scan along a ray becomes a fuel-indexed recursion (a straight
scan started next to an on-board cell leaves the board after at most
`size` steps, so fuel `size` is never exhausted at any reachable call
site).  JavaScript `Infinity` is modelled by the sentinel `INF`; every
static evaluation is bounded by `240 * size^2 < INF` for the board sizes
the game accepts (6..20).
-/

/-- Cell value `EMPTY = 0` from `script.js`. -/
def EMPTY : Nat := 0

/-- Cell value `BLACK = 1` from `script.js`. -/
def BLACK : Nat := 1

/-- Cell value `WHITE = 2` from `script.js`. -/
def WHITE : Nat := 2

/-- The eight scan directions (`DIRECTIONS` in `script.js`). -/
def DIRECTIONS : List (Int × Int) :=
  [(-1,-1), (-1,0), (-1,1), (0,-1), (0,1), (1,-1), (1,0), (1,1)]

/-- Sentinel standing for JavaScript `Infinity`; all evaluation scores of
accepted board sizes are strictly smaller in magnitude. -/
def INF : Int := 1000000000

/-- A board: an array of rows of cell values, as in `script.js`. -/
abbrev Board : Type := List (List Nat)

/-- Reading `board[r][c]`.  Coordinates are JavaScript numbers (here `Int`);
every read in the engine is guarded by a bounds check, so the default for
an out-of-range access is never observed. -/
def cellAt (b : Board) (r c : Int) : Nat := (b.getD r.toNat []).getD c.toNat EMPTY

/-- Writing `board[r][c] = v` (in-place in the source, functional here). -/
def updateCell (b : Board) (r c : Int) (v : Nat) : Board :=
  b.set r.toNat ((b.getD r.toNat []).set c.toNat v)

/-- A well-formed board of the configured size: `size` rows of `size` cells. -/
def BoardWF (sz : Nat) (b : Board) : Prop :=
  b.length = sz ∧ ∀ row ∈ b, row.length = sz

/-- `in_bounds` of `script.js`. -/
def inBounds (sz : Nat) (r c : Int) : Bool :=
  0 ≤ r && r < (sz : Int) && 0 ≤ c && c < (sz : Int)

/-- `opponent` of `script.js`. -/
def opponent (p : Nat) : Nat := if p = BLACK then WHITE else BLACK

/-- `generate_position_weights` of `script.js`, as the function it tabulates:
corners 120, diagonal-adjacent-to-corner ring -20, other edge 20, interior 1. -/
def position_weights (sz : Nat) (r c : Int) : Int :=
  if (r = 0 ∨ r = (sz : Int) - 1) ∧ (c = 0 ∨ c = (sz : Int) - 1) then 120
  else if (r = 1 ∨ r = (sz : Int) - 2) ∧ (c = 1 ∨ c = (sz : Int) - 2) then -20
  else if r = 0 ∨ r = (sz : Int) - 1 ∨ c = 0 ∨ c = (sz : Int) - 1 then 20
  else 1

/-- The `player_score` accumulator of `evaluate_board` in `script.js`. -/
def player_score (sz : Nat) (b : Board) (player : Nat) : Int :=
  ∑ r ∈ Finset.range sz, ∑ c ∈ Finset.range sz,
    if cellAt b (r : Int) (c : Int) = player then position_weights sz (r : Int) (c : Int) else 0

/-- The `opp_score` accumulator of `evaluate_board` in `script.js`
(the `else if` branch only fires on cells not equal to `player`). -/
def opp_score (sz : Nat) (b : Board) (player : Nat) : Int :=
  ∑ r ∈ Finset.range sz, ∑ c ∈ Finset.range sz,
    if cellAt b (r : Int) (c : Int) = player then 0
    else if cellAt b (r : Int) (c : Int) = opponent player then
      position_weights sz (r : Int) (c : Int)
    else 0

/-- `evaluate_board` of `script.js`. -/
def evaluate_board (sz : Nat) (b : Board) (player : Nat) : Int :=
  player_score sz b player - opp_score sz b player

/-- Number of cells holding value `v` inside the window: the counting loop of
the `black_count` / `white_count` getters of `script.js`. -/
def countCells (sz : Nat) (b : Board) (v : Nat) : Nat :=
  ∑ r ∈ Finset.range sz, ∑ c ∈ Finset.range sz,
    if cellAt b (r : Int) (c : Int) = v then 1 else 0

/-- The `while (in_bounds && board === opp)` scan of `can_flip` in
`script.js`: walks the ray, returning the final position and the
`found_opponent` flag. -/
def scanRun (sz : Nat) (b : Board) (opp : Nat) (dr dc : Int) :
    Nat → Int → Int → Bool → Int × Int × Bool
  | 0, r, c, found => (r, c, found)
  | fuel + 1, r, c, found =>
    if inBounds sz r c ∧ cellAt b r c = opp then
      scanRun sz b opp dr dc fuel (r + dr) (c + dc) true
    else (r, c, found)

/-- `can_flip` of `script.js`. -/
def can_flip (sz : Nat) (b : Board) (row col : Int) (player : Nat) : Bool :=
  if cellAt b row col ≠ EMPTY then false
  else DIRECTIONS.any fun d =>
    let s := scanRun sz b (opponent player) d.1 d.2 sz (row + d.1) (col + d.2) false
    s.2.2 && inBounds sz s.1 s.2.1 && decide (cellAt b s.1 s.2.1 = player)

/-- `valid_moves` of `script.js` at the board level: row-major list of the
empty cells from which `can_flip` succeeds. -/
def valid_movesB (sz : Nat) (b : Board) (player : Nat) : List (Int × Int) :=
  ((List.range sz).map fun (r : Nat) =>
    (List.range sz).filterMap fun (c : Nat) =>
      if cellAt b (r : Int) (c : Int) = EMPTY ∧ can_flip sz b (r : Int) (c : Int) player then
        some ((r : Int), (c : Int))
      else none).flatten

/-- The `while` scan of `flip_discs` in `script.js`: walks the ray collecting
`discs_to_flip`, returning the final position and the collected cells. -/
def collectRun (sz : Nat) (b : Board) (opp : Nat) (dr dc : Int) :
    Nat → Int → Int → List (Int × Int) → Int × Int × List (Int × Int)
  | 0, r, c, acc => (r, c, acc)
  | fuel + 1, r, c, acc =>
    if inBounds sz r c ∧ cellAt b r c = opp then
      collectRun sz b opp dr dc fuel (r + dr) (c + dc) (acc ++ [(r, c)])
    else (r, c, acc)

/-- Write value `v` into every listed cell. -/
def writeCells (b : Board) (l : List (Int × Int)) (v : Nat) : Board :=
  l.foldl (fun b' q => updateCell b' q.1 q.2 v) b

/-- One direction of `flip_discs` in `script.js`: if the collected run is
bounded by a disc of the mover, flip every collected cell. -/
def flipDir (sz : Nat) (b : Board) (row col : Int) (player : Nat) (dr dc : Int) : Board :=
  let s := collectRun sz b (opponent player) dr dc sz (row + dr) (col + dc) []
  if inBounds sz s.1 s.2.1 ∧ cellAt b s.1 s.2.1 = player ∧ s.2.2 ≠ [] then
    writeCells b s.2.2 player
  else b

/-- `flip_discs` of `script.js`: the eight directions processed in order on
the evolving board. -/
def flip_discs (sz : Nat) (b : Board) (row col : Int) (player : Nat) : Board :=
  DIRECTIONS.foldl (fun b' d => flipDir sz b' row col player d.1 d.2) b

/-- `copy_board` of `script.js` (`board.map(row => row.slice())`): a fresh
array with the same rows, i.e. the same value. -/
def copy_board (b : Board) : Board := b

/-- The initial placement of the `OthelloGame` constructor of `script.js`:
an all-empty grid with the four central cells set. -/
def init_board (sz : Nat) : Board :=
  let mid : Int := (sz : Int) / 2
  let empty : Board := List.replicate sz (List.replicate sz EMPTY)
  updateCell (updateCell (updateCell (updateCell empty
    (mid - 1) (mid - 1) WHITE) mid mid WHITE) (mid - 1) mid BLACK) mid (mid - 1) BLACK

/-- The engine state of class `OthelloGame` in `script.js` (the
presentation-only configuration fields `opponent_type`, `player_color`,
`ai_player` are omitted; `position_weights` is kept as the function of the
size it is generated from). -/
structure OthelloGame where
  size : Nat
  board : Board
  current_player : Nat
  last_placed_move : Option (Int × Int)
  game_over : Bool
  ai_depth : Nat
  dynamic_depth : Bool
  move_history : List (Board × Nat)
  move_log : List (Nat × (Int × Int))
  transposition_table : List (List Nat × Int)

/-- The `OthelloGame` constructor of `script.js`. -/
def mkGame (sz : Nat) (ai_depth : Nat) (dynamic_depth : Bool) : OthelloGame :=
  { size := sz
    board := init_board sz
    current_player := BLACK
    last_placed_move := none
    game_over := false
    ai_depth := ai_depth
    dynamic_depth := dynamic_depth
    move_history := [(copy_board (init_board sz), BLACK)]
    move_log := []
    transposition_table := [] }

/-- `valid_moves` of `script.js` on the authoritative board. -/
def valid_moves (g : OthelloGame) (player : Nat) : List (Int × Int) :=
  valid_movesB g.size g.board player

/-- `place_piece` of `script.js`: rejects out-of-bounds or non-flipping
requests, otherwise places, flips, records the move. -/
def place_piece (g : OthelloGame) (row col : Int) (player : Nat) : Bool × OthelloGame :=
  if ¬ (inBounds g.size row col ∧ can_flip g.size g.board row col player) then (false, g)
  else
    let b2 := flip_discs g.size (updateCell g.board row col player) row col player
    (true,
      { g with
        board := b2
        last_placed_move := some (row, col)
        move_history := g.move_history ++ [(copy_board b2, g.current_player)]
        move_log := g.move_log ++ [(player, (row, col))] })

/-- `switch_player` of `script.js`. -/
def switch_player (g : OthelloGame) : OthelloGame :=
  { g with current_player := opponent g.current_player }

/-- `is_game_over` of `script.js`. -/
def is_game_over (g : OthelloGame) : Bool :=
  if (valid_moves g BLACK).length > 0 then false
  else if (valid_moves g WHITE).length > 0 then false
  else true

/-- `has_valid_moves` of `script.js`. -/
def has_valid_moves (g : OthelloGame) (player : Nat) : Bool :=
  (valid_moves g player).length > 0

/-- `undo_move` of `script.js`: pops one history entry and restores board and
player from the entry now at the top (the `getLastD` default is unreachable:
the popped history is nonempty under the length guard). -/
def undo_move (g : OthelloGame) : Bool × OthelloGame :=
  if g.move_history.length > 1 then
    let h := g.move_history.dropLast
    let prev := h.getLastD ([], BLACK)
    let g' :=
      { g with
        move_history := h
        board := copy_board prev.1
        current_player := prev.2
        move_log := g.move_log.dropLast
        last_placed_move := (none : Option (Int × Int)) }
    (true, { g' with game_over := is_game_over g' })
  else (false, g)

/-- The `while` scan of `is_valid_move_in_state` in `script.js`: walk the ray
with the `has_opponent` flag, reporting whether a bounded opponent run is hit. -/
def scanValidState (sz : Nat) (b : Board) (opp player : Nat) (dr dc : Int) :
    Nat → Int → Int → Bool → Bool
  | 0, _, _, _ => false
  | fuel + 1, r, c, has_opponent =>
    if inBounds sz r c then
      if cellAt b r c = opp then
        scanValidState sz b opp player dr dc fuel (r + dr) (c + dc) true
      else if cellAt b r c = player ∧ has_opponent then true
      else false
    else false

/-- `is_valid_move_in_state` of `script.js`. -/
def is_valid_move_in_state (sz : Nat) (b : Board) (row col : Int) (player : Nat) : Bool :=
  if cellAt b row col ≠ EMPTY then false
  else DIRECTIONS.any fun d =>
    scanValidState sz b (opponent player) player d.1 d.2 sz (row + d.1) (col + d.2) false

/-- `has_valid_moves_in_state` of `script.js`. -/
def has_valid_moves_in_state (sz : Nat) (b : Board) (player : Nat) : Bool :=
  (List.range sz).any fun (r : Nat) => (List.range sz).any fun (c : Nat) =>
    is_valid_move_in_state sz b (r : Int) (c : Int) player

/-- `get_valid_moves_in_state` of `script.js` (row-major order). -/
def get_valid_moves_in_state (sz : Nat) (b : Board) (player : Nat) : List (Int × Int) :=
  ((List.range sz).map fun (r : Nat) =>
    (List.range sz).filterMap fun (c : Nat) =>
      if is_valid_move_in_state sz b (r : Int) (c : Int) player then
        some ((r : Int), (c : Int))
      else none).flatten

/-- `is_terminal_state` of `script.js`. -/
def is_terminal_state (sz : Nat) (b : Board) : Bool :=
  !has_valid_moves_in_state sz b BLACK && !has_valid_moves_in_state sz b WHITE

/-- The `while` scan of `make_move_in_state` in `script.js`: walk the ray
collecting `flip_list`; on a bounded nonempty run return it, else nothing. -/
def makeMoveFlipRun (sz : Nat) (b : Board) (opp player : Nat) (dr dc : Int) :
    Nat → Int → Int → List (Int × Int) → List (Int × Int)
  | 0, _, _, _ => []
  | fuel + 1, r, c, flip_list =>
    if inBounds sz r c then
      if cellAt b r c = opp then
        makeMoveFlipRun sz b opp player dr dc fuel (r + dr) (c + dc) (flip_list ++ [(r, c)])
      else if cellAt b r c = player ∧ flip_list ≠ [] then flip_list
      else []
    else []

/-- `make_move_in_state` of `script.js`: place unconditionally, then flip the
bounded runs in the eight directions on the evolving board. -/
def make_move_in_state (sz : Nat) (b : Board) (row col : Int) (player : Nat) : Board :=
  DIRECTIONS.foldl
    (fun b' d =>
      writeCells b'
        (makeMoveFlipRun sz b' (opponent player) player d.1 d.2 sz (row + d.1) (col + d.2) [])
        player)
    (updateCell b row col player)

/-- `hash_board` of `script.js`: the row-major string of cell digits
(`board.map(r => r.join('')).join('')`), modelled as the flattened list of
cell values. -/
def hash_board (b : Board) : List Nat := b.flatten

/-- The transposition table of `script.js`: board hash to cached score.
An update shadows older entries, as assignment does on a JS object. -/
abbrev Table : Type := List (List Nat × Int)

/-- Table lookup (`this.transposition_table[hash]`). -/
def tableGet (t : Table) (k : List Nat) : Option Int :=
  (t.find? fun e => e.1 == k).map (fun e => e.2)

/-- Table assignment (`this.transposition_table[hash] = v`). -/
def tableSet (t : Table) (k : List Nat) (v : Int) : Table := (k, v) :: t

/-- `adjust_depth` of `script.js`; the floating-point fill-ratio thresholds
`< 0.25` and `< 0.75` are the exact rational comparisons `4·n < sz²` and
`4·n < 3·sz²` (both sides are small integers, so the doubles are exact). -/
def adjust_depth (sz : Nat) (b : Board) : Nat :=
  let total_pieces : Nat :=
    ∑ r ∈ Finset.range sz, ∑ c ∈ Finset.range sz,
      if cellAt b (r : Int) (c : Int) ≠ EMPTY then 1 else 0
  if 4 * total_pieces < sz * sz then 2
  else if 4 * total_pieces < 3 * (sz * sz) then 4
  else 6

/-- Stable insertion step: place `m` before the first strictly smaller key. -/
def insertDescBy (w : Int × Int → Int) (m : Int × Int) :
    List (Int × Int) → List (Int × Int)
  | [] => [m]
  | x :: xs => if w x < w m then m :: x :: xs else x :: insertDescBy w m xs

/-- The stable descending sort `moves.sort((m1,m2) => w(m2)-w(m1))` of
`script.js` (JavaScript `Array.prototype.sort` is stable). -/
def sortDescBy (w : Int × Int → Int) (l : List (Int × Int)) : List (Int × Int) :=
  l.foldl (fun acc m => insertDescBy w m acc) []

/-- Stable insertion step: place `m` before the first strictly larger key. -/
def insertAscBy (w : Int × Int → Int) (m : Int × Int) :
    List (Int × Int) → List (Int × Int)
  | [] => [m]
  | x :: xs => if w m < w x then m :: x :: xs else x :: insertAscBy w m xs

/-- The stable ascending sort `moves.sort((m1,m2) => w(m1)-w(m2))` of
`script.js`. -/
def sortAscBy (w : Int × Int → Int) (l : List (Int × Int)) : List (Int × Int) :=
  l.foldl (fun acc m => insertAscBy w m acc) []

/-- The maximizing loop of `minimax` in `script.js`: thread the running
`max_eval` and `alpha` through the sorted moves, breaking on `beta <= alpha`.
The recursive call is abstracted as `recur` (it is `minimax` one ply deeper). -/
def minimaxMaxLoop (recur : Board → Int → Int → Table → Int × Table)
    (sz : Nat) (b : Board) (cur : Nat) :
    List (Int × Int) → Table → Int → Int → Int → Int × Table
  | [], t, _, _, max_eval => (max_eval, t)
  | mv :: rest, t, alpha, beta, max_eval =>
    let temp := make_move_in_state sz (copy_board b) mv.1 mv.2 cur
    let r := recur temp alpha beta t
    let max_eval' := max max_eval r.1
    let alpha' := max alpha r.1
    if beta ≤ alpha' then (max_eval', r.2)
    else minimaxMaxLoop recur sz b cur rest r.2 alpha' beta max_eval'

/-- The minimizing loop of `minimax` in `script.js`. -/
def minimaxMinLoop (recur : Board → Int → Int → Table → Int × Table)
    (sz : Nat) (b : Board) (cur : Nat) :
    List (Int × Int) → Table → Int → Int → Int → Int × Table
  | [], t, _, _, min_eval => (min_eval, t)
  | mv :: rest, t, alpha, beta, min_eval =>
    let temp := make_move_in_state sz (copy_board b) mv.1 mv.2 cur
    let r := recur temp alpha beta t
    let min_eval' := min min_eval r.1
    let beta' := min beta r.1
    if beta' ≤ alpha then (min_eval', r.2)
    else minimaxMinLoop recur sz b cur rest r.2 alpha beta' min_eval'

/-- `minimax` of `script.js`, threading the transposition table.  The
structure follows the source: transposition lookup first, then the
`depth === 0 || is_terminal_state` leaf test, then the pass case, then the
alpha-beta loops over the weight-sorted moves.  The recursion is structural
on `depth` (every recursive call in the source uses `depth - 1`), so the
leaf test is split over the two depth patterns. -/
def minimax (sz player : Nat) : Nat → Board → Bool → Int → Int → Table → Int × Table
  | 0, b, _, _, _, t =>
    let h := hash_board b
    match tableGet t h with
    | some v => (v, t)
    | none =>
      let e := evaluate_board sz b player
      (e, tableSet t h e)
  | depth + 1, b, maximizing, alpha, beta, t =>
    let h := hash_board b
    match tableGet t h with
    | some v => (v, t)
    | none =>
      if is_terminal_state sz b then
        let e := evaluate_board sz b player
        (e, tableSet t h e)
      else
        let current := if maximizing then player else opponent player
        let vm := get_valid_moves_in_state sz b current
        if vm = [] then
          let r := minimax sz player depth b (!maximizing) alpha beta t
          (r.1, tableSet r.2 h r.1)
        else if maximizing then
          let sorted := sortDescBy (fun m => position_weights sz m.1 m.2) vm
          let r := minimaxMaxLoop
            (fun b' a bt t' => minimax sz player depth b' false a bt t')
            sz b current sorted t alpha beta (-INF)
          (r.1, tableSet r.2 h r.1)
        else
          let sorted := sortAscBy (fun m => position_weights sz m.1 m.2) vm
          let r := minimaxMinLoop
            (fun b' a bt t' => minimax sz player depth b' true a bt t')
            sz b current sorted t alpha beta INF
          (r.1, tableSet r.2 h r.1)

/-- The candidate loop of `get_best_move` in `script.js`: per move, consult
the transposition table before searching, keep the strictly best score. -/
def getBestLoop (recur : Board → Int → Int → Table → Int × Table)
    (sz : Nat) (b : Board) (player : Nat) :
    List (Int × Int) → Table → Int → Int → Int → Option (Int × Int) →
    Option (Int × Int) × Table
  | [], t, _, _, _, best_move => (best_move, t)
  | mv :: rest, t, alpha, beta, best_score, best_move =>
    let temp := make_move_in_state sz (copy_board b) mv.1 mv.2 player
    let h := hash_board temp
    let st : Int × Table :=
      match tableGet t h with
      | some v => (v, t)
      | none =>
        let r := recur temp alpha beta t
        (r.1, tableSet r.2 h r.1)
    let bs := if st.1 > best_score then (st.1, some mv) else (best_score, best_move)
    let alpha' := max alpha bs.1
    if beta ≤ alpha' then (bs.2, st.2)
    else getBestLoop recur sz b player rest st.2 alpha' beta bs.1 bs.2

/-- `get_best_move` of `script.js`. -/
def get_best_move (sz ai_depth : Nat) (dynamic_depth : Bool)
    (b : Board) (player : Nat) (t : Table) : Option (Int × Int) × Table :=
  let vm := get_valid_moves_in_state sz b player
  if vm = [] then (none, t)
  else
    let depth := if dynamic_depth then adjust_depth sz b else ai_depth
    let sorted := sortDescBy (fun m => position_weights sz m.1 m.2) vm
    getBestLoop (fun b' a bt t' => minimax sz player (depth - 1) b' false a bt t')
      sz b player sorted t (-INF) INF (-INF) none

/-- Modelled from the spec (§4.2 `minimax`, §8 alpha-beta result
equivalence): the unpruned, unmemoized full minimax reference — same game
rules, same pass handling (a side with no legal move consumes one depth
unit), same leaf evaluation `evaluate_board`, no alpha-beta window and no
transposition table. -/
def specFullMinimax (sz player : Nat) : Nat → Board → Bool → Int
  | 0, b, _ => evaluate_board sz b player
  | depth + 1, b, maximizing =>
    if is_terminal_state sz b then evaluate_board sz b player
    else
      let current := if maximizing then player else opponent player
      let vm := get_valid_moves_in_state sz b current
      if vm = [] then specFullMinimax sz player depth b (!maximizing)
      else if maximizing then
        (vm.map fun mv =>
          specFullMinimax sz player depth
            (make_move_in_state sz (copy_board b) mv.1 mv.2 current) false).foldl max (-INF)
      else
        (vm.map fun mv =>
          specFullMinimax sz player depth
            (make_move_in_state sz (copy_board b) mv.1 mv.2 current) true).foldl min INF

/-!
Heap model for the frame property of the search (claim about `copy_board` /
`make_move_in_state` aliasing): boards live in a store of allocated arrays
addressed by references, `copy_board` allocates a fresh array, and
`make_move_in_state` writes through the reference it is handed — exactly the
JavaScript aliasing discipline.  `minimaxRef` / `getBestLoopRef` /
`get_best_moveRef` are the same functions as `minimax` / `getBestLoop` /
`get_best_move` above, with every board argument passed by reference.
-/

/-- The heap of allocated board arrays. -/
abbrev Store : Type := List Board

/-- Dereference an array reference. -/
def storeGet (s : Store) (ref : Nat) : Board := s.getD ref []

/-- `copy_board` of `script.js` in the heap model: allocate a fresh array
with the same contents and hand back its reference. -/
def copyBoardRef (s : Store) (ref : Nat) : Store × Nat :=
  (s ++ [copy_board (storeGet s ref)], s.length)

/-- `make_move_in_state` of `script.js` in the heap model: mutate the board
behind `ref` in place. -/
def makeMoveRef (sz : Nat) (s : Store) (ref : Nat) (row col : Int) (player : Nat) : Store :=
  s.set ref (make_move_in_state sz (storeGet s ref) row col player)

/-- The maximizing loop of `minimax`, heap version: each move allocates a
fresh copy of the board behind `ref` and mutates only that copy. -/
def minimaxMaxLoopRef (recur : Store → Nat → Int → Int → Table → Int × Store × Table)
    (sz : Nat) (ref : Nat) (cur : Nat) :
    List (Int × Int) → Store → Table → Int → Int → Int → Int × Store × Table
  | [], s, t, _, _, max_eval => (max_eval, s, t)
  | mv :: rest, s, t, alpha, beta, max_eval =>
    let c := copyBoardRef s ref
    let s2 := makeMoveRef sz c.1 c.2 mv.1 mv.2 cur
    let r := recur s2 c.2 alpha beta t
    let max_eval' := max max_eval r.1
    let alpha' := max alpha r.1
    if beta ≤ alpha' then (max_eval', r.2.1, r.2.2)
    else minimaxMaxLoopRef recur sz ref cur rest r.2.1 r.2.2 alpha' beta max_eval'

/-- The minimizing loop of `minimax`, heap version. -/
def minimaxMinLoopRef (recur : Store → Nat → Int → Int → Table → Int × Store × Table)
    (sz : Nat) (ref : Nat) (cur : Nat) :
    List (Int × Int) → Store → Table → Int → Int → Int → Int × Store × Table
  | [], s, t, _, _, min_eval => (min_eval, s, t)
  | mv :: rest, s, t, alpha, beta, min_eval =>
    let c := copyBoardRef s ref
    let s2 := makeMoveRef sz c.1 c.2 mv.1 mv.2 cur
    let r := recur s2 c.2 alpha beta t
    let min_eval' := min min_eval r.1
    let beta' := min beta r.1
    if beta' ≤ alpha then (min_eval', r.2.1, r.2.2)
    else minimaxMinLoopRef recur sz ref cur rest r.2.1 r.2.2 alpha beta' min_eval'

/-- `minimax` of `script.js` in the heap model: identical control flow to
`minimax`, with the board argument passed by reference into the store. -/
def minimaxRef (sz player : Nat) :
    Nat → Store → Nat → Bool → Int → Int → Table → Int × Store × Table
  | 0, s, ref, _, _, _, t =>
    let h := hash_board (storeGet s ref)
    match tableGet t h with
    | some v => (v, s, t)
    | none =>
      let e := evaluate_board sz (storeGet s ref) player
      (e, s, tableSet t h e)
  | depth + 1, s, ref, maximizing, alpha, beta, t =>
    let h := hash_board (storeGet s ref)
    match tableGet t h with
    | some v => (v, s, t)
    | none =>
      if is_terminal_state sz (storeGet s ref) then
        let e := evaluate_board sz (storeGet s ref) player
        (e, s, tableSet t h e)
      else
        let current := if maximizing then player else opponent player
        let vm := get_valid_moves_in_state sz (storeGet s ref) current
        if vm = [] then
          let r := minimaxRef sz player depth s ref (!maximizing) alpha beta t
          (r.1, r.2.1, tableSet r.2.2 h r.1)
        else if maximizing then
          let sorted := sortDescBy (fun m => position_weights sz m.1 m.2) vm
          let r := minimaxMaxLoopRef
            (fun s' ref' a bt t' => minimaxRef sz player depth s' ref' false a bt t')
            sz ref current sorted s t alpha beta (-INF)
          (r.1, r.2.1, tableSet r.2.2 h r.1)
        else
          let sorted := sortAscBy (fun m => position_weights sz m.1 m.2) vm
          let r := minimaxMinLoopRef
            (fun s' ref' a bt t' => minimaxRef sz player depth s' ref' true a bt t')
            sz ref current sorted s t alpha beta INF
          (r.1, r.2.1, tableSet r.2.2 h r.1)

/-- The candidate loop of `get_best_move`, heap version. -/
def getBestLoopRef (recur : Store → Nat → Int → Int → Table → Int × Store × Table)
    (sz : Nat) (ref : Nat) (player : Nat) :
    List (Int × Int) → Store → Table → Int → Int → Int → Option (Int × Int) →
    Option (Int × Int) × Store × Table
  | [], s, t, _, _, _, best_move => (best_move, s, t)
  | mv :: rest, s, t, alpha, beta, best_score, best_move =>
    let c := copyBoardRef s ref
    let s2 := makeMoveRef sz c.1 c.2 mv.1 mv.2 player
    let h := hash_board (storeGet s2 c.2)
    let st : Int × Store × Table :=
      match tableGet t h with
      | some v => (v, s2, t)
      | none =>
        let r := recur s2 c.2 alpha beta t
        (r.1, r.2.1, tableSet r.2.2 h r.1)
    let bs := if st.1 > best_score then (st.1, some mv) else (best_score, best_move)
    let alpha' := max alpha bs.1
    if beta ≤ alpha' then (bs.2, st.2.1, st.2.2)
    else getBestLoopRef recur sz ref player rest st.2.1 st.2.2 alpha' beta bs.1 bs.2

/-- `get_best_move` of `script.js` in the heap model. -/
def get_best_moveRef (sz ai_depth : Nat) (dynamic_depth : Bool)
    (s : Store) (ref : Nat) (player : Nat) (t : Table) :
    Option (Int × Int) × Store × Table :=
  let vm := get_valid_moves_in_state sz (storeGet s ref) player
  if vm = [] then (none, s, t)
  else
    let depth := if dynamic_depth then adjust_depth sz (storeGet s ref) else ai_depth
    let sorted := sortDescBy (fun m => position_weights sz m.1 m.2) vm
    getBestLoopRef (fun s' ref' a bt t' => minimaxRef sz player (depth - 1) s' ref' false a bt t')
      sz ref player sorted s t (-INF) INF (-INF) none

/-! Basic facts about players and the evaluator. -/

lemma opponent_ne (p : Nat) : opponent p ≠ p := by
  unfold opponent
  split
  case isTrue h => subst h; decide
  case isFalse h => exact fun hc => h hc.symm

lemma opponent_mem (p : Nat) : opponent p = BLACK ∨ opponent p = WHITE := by
  unfold opponent; split
  · exact Or.inr rfl
  · exact Or.inl rfl

lemma opponent_opponent {p : Nat} (h : p = BLACK ∨ p = WHITE) : opponent (opponent p) = p := by
  rcases h with h | h <;> subst h <;> decide

lemma opp_score_eq_player_score (sz : Nat) (b : Board) (p : Nat) :
    opp_score sz b p = player_score sz b (opponent p) := by
  unfold opp_score player_score
  refine Finset.sum_congr rfl fun r _ => Finset.sum_congr rfl fun c _ => ?_
  rcases eq_or_ne (cellAt b (r : Int) (c : Int)) p with h | h
  · rw [if_pos h, if_neg (by rw [h]; exact fun hc => opponent_ne p hc.symm)]
  · rw [if_neg h]

/-- C8: for every board and every player in {Black, White}, the static
evaluation is antisymmetric in the player argument:
`evaluate_board b p = - evaluate_board b (opponent p)`. -/
theorem C8_evaluate_board_antisymmetric (sz : Nat) (b : Board) (player : Nat)
    (h : player = BLACK ∨ player = WHITE) :
    evaluate_board sz b player = - evaluate_board sz b (opponent player) := by
  unfold evaluate_board
  rw [opp_score_eq_player_score, opp_score_eq_player_score, opponent_opponent h]
  ring

/-- Witness for C8 at a concrete input: the initial 8×8 board and Black. -/
theorem C8_witness :
    (BLACK = BLACK ∨ BLACK = WHITE) ∧
    evaluate_board 8 (init_board 8) BLACK = - evaluate_board 8 (init_board 8) (opponent BLACK) :=
  ⟨Or.inl rfl, C8_evaluate_board_antisymmetric 8 (init_board 8) BLACK (Or.inl rfl)⟩

/-- C9: on the freshly constructed size-8 game (standard central placement,
Black to move), `valid_moves` for Black returns exactly
`(2,3), (3,2), (4,5), (5,4)` (row-major), whatever the AI configuration. -/
theorem C9_initial_valid_moves (d : Nat) (dd : Bool) :
    (mkGame 8 d dd).current_player = BLACK ∧
    valid_moves (mkGame 8 d dd) BLACK = [(2, 3), (3, 2), (4, 5), (5, 4)] :=
  ⟨rfl, by
    have h : valid_movesB 8 (init_board 8) BLACK = [(2, 3), (3, 2), (4, 5), (5, 4)] := by decide
    exact h⟩

/-- C5: an out-of-bounds or non-flipping request makes `place_piece` return
`false` and leave the whole game state unchanged. -/
theorem C5_place_piece_rejects_unchanged (g : OthelloGame) (row col : Int) (player : Nat)
    (h : inBounds g.size row col = false ∨ can_flip g.size g.board row col player = false) :
    place_piece g row col player = (false, g) := by
  unfold place_piece
  rw [if_pos]
  rintro ⟨h1, h2⟩
  rcases h with h | h
  · rw [h] at h1; exact Bool.false_ne_true h1
  · rw [h] at h2; exact Bool.false_ne_true h2

/-- Witness for C5 at a concrete input: placing on the occupied central cell
(3,3) of the initial 8×8 board is rejected without any state change. -/
theorem C5_witness :
    (inBounds (mkGame 8 2 false).size 3 3 = false ∨
      can_flip (mkGame 8 2 false).size (mkGame 8 2 false).board 3 3 BLACK = false) ∧
    place_piece (mkGame 8 2 false) 3 3 BLACK = (false, mkGame 8 2 false) :=
  ⟨Or.inr (by decide),
    C5_place_piece_rejects_unchanged (mkGame 8 2 false) 3 3 BLACK (Or.inr (by decide))⟩

set_option maxRecDepth 8000 in
/-- C3 (code bug): on the initial 8×8 game, Black legally plays (2,3) and the
turn switches to White; White legally plays (2,2) and the turn switches; one
`undo_move` then reports success but restores `current_player` to Black,
although the player to move before White's move was White. -/
theorem C3_undo_restores_wrong_player :
    (place_piece (mkGame 8 2 false) 2 3 BLACK).1 = true ∧
    (switch_player (place_piece (mkGame 8 2 false) 2 3 BLACK).2).current_player = WHITE ∧
    (place_piece (switch_player (place_piece (mkGame 8 2 false) 2 3 BLACK).2) 2 2 WHITE).1
      = true ∧
    (undo_move (switch_player
      (place_piece (switch_player (place_piece (mkGame 8 2 false) 2 3 BLACK).2) 2 2 WHITE).2)).1
      = true ∧
    (undo_move (switch_player
      (place_piece (switch_player (place_piece (mkGame 8 2 false) 2 3 BLACK).2) 2 2 WHITE).2)).2.current_player
      = BLACK ∧
    BLACK ≠ WHITE := by decide

/-! Equivalence of the two legal-move scans (`can_flip` on the authoritative
board vs `is_valid_move_in_state` on snapshots). -/

lemma inBounds_iff {sz : Nat} {r c : Int} :
    inBounds sz r c = true ↔ 0 ≤ r ∧ r < (sz : Int) ∧ 0 ≤ c ∧ c < (sz : Int) := by
  simp [inBounds, and_assoc]

lemma inBounds_false {sz : Nat} {r c : Int}
    (h : r < 0 ∨ (sz : Int) ≤ r ∨ c < 0 ∨ (sz : Int) ≤ c) : inBounds sz r c = false := by
  rcases Bool.eq_false_or_eq_true (inBounds sz r c) with hb | hb
  · rw [inBounds_iff] at hb; omega
  · exact hb

lemma any_congr {α : Type} {l : List α} {f g : α → Bool}
    (h : ∀ a ∈ l, f a = g a) : l.any f = l.any g := by
  induction l with
  | nil => rfl
  | cons x xs ih =>
    simp only [List.any_cons]
    rw [h x (List.mem_cons_self x xs), ih (fun a ha => h a (List.mem_cons_of_mem x ha))]

/-- The two ray scans agree whenever the walk provably stops before the fuel
runs out. -/
lemma scanValidState_eq_scanRun (sz : Nat) (b : Board) (opp player : Nat) (dr dc : Int) :
    ∀ (fuel : Nat) (r c : Int) (found : Bool),
      (∃ j : Nat, j < fuel ∧
        ¬ (inBounds sz (r + j * dr) (c + j * dc) = true ∧
           cellAt b (r + j * dr) (c + j * dc) = opp)) →
      scanValidState sz b opp player dr dc fuel r c found =
        ((scanRun sz b opp dr dc fuel r c found).2.2 &&
          inBounds sz (scanRun sz b opp dr dc fuel r c found).1
            (scanRun sz b opp dr dc fuel r c found).2.1 &&
          decide (cellAt b (scanRun sz b opp dr dc fuel r c found).1
            (scanRun sz b opp dr dc fuel r c found).2.1 = player)) := by
  intro fuel
  induction fuel with
  | zero => intro r c found h; exact absurd h.choose_spec.1 (Nat.not_lt_zero _)
  | succ fuel ih =>
    intro r c found h
    by_cases hc : inBounds sz r c = true ∧ cellAt b r c = opp
    · have hstep : scanValidState sz b opp player dr dc (fuel + 1) r c found =
          scanValidState sz b opp player dr dc fuel (r + dr) (c + dc) true := by
        simp only [scanValidState]
        rw [if_pos hc.1, if_pos hc.2]
      have hstep2 : scanRun sz b opp dr dc (fuel + 1) r c found =
          scanRun sz b opp dr dc fuel (r + dr) (c + dc) true := by
        simp only [scanRun]
        rw [if_pos hc]
      rw [hstep, hstep2]
      obtain ⟨j, hj, hstop⟩ := h
      have hj0 : j ≠ 0 := by
        rintro rfl
        simp only [Nat.cast_zero, zero_mul, add_zero] at hstop
        exact hstop hc
      obtain ⟨j', rfl⟩ := Nat.exists_eq_succ_of_ne_zero hj0
      refine ih (r + dr) (c + dc) true ⟨j', Nat.lt_of_succ_lt_succ hj, ?_⟩
      have e1 : r + dr + (j' : Int) * dr = r + ((j' + 1 : Nat) : Int) * dr := by
        push_cast; ring
      have e2 : c + dc + (j' : Int) * dc = c + ((j' + 1 : Nat) : Int) * dc := by
        push_cast; ring
      rw [e1, e2]
      exact hstop
    · have hrun : scanRun sz b opp dr dc (fuel + 1) r c found = (r, c, found) := by
        simp only [scanRun]
        rw [if_neg hc]
      rw [hrun]
      by_cases hb : inBounds sz r c = true
      · have hno : ¬ cellAt b r c = opp := fun hcc => hc ⟨hb, hcc⟩
        have hval : scanValidState sz b opp player dr dc (fuel + 1) r c found =
            decide (cellAt b r c = player ∧ found = true) := by
          simp only [scanValidState]
          rw [if_pos hb, if_neg hno]
          by_cases hp : cellAt b r c = player ∧ found = true
          · rw [if_pos hp]; simp [hp]
          · rw [if_neg hp]; simp [hp]
        rw [hval, hb]
        cases found <;> simp
      · have hbf : inBounds sz r c = false := by
          rcases Bool.eq_false_or_eq_true (inBounds sz r c) with h2 | h2
          · exact absurd h2 hb
          · exact h2
        have hval : scanValidState sz b opp player dr dc (fuel + 1) r c found = false := by
          simp only [scanValidState]
          rw [if_neg hb]
        rw [hval, hbf]
        simp

/-- From an on-board origin, a straight-line walk leaves the board within
`size` steps, so every ray scan stops before fuel `size` is exhausted. -/
lemma exists_scan_stop (sz : Nat) (row col dr dc : Int)
    (h : inBounds sz row col = true) (hd : (dr, dc) ∈ DIRECTIONS) :
    ∃ j : Nat, j < sz ∧ inBounds sz (row + dr + j * dr) (col + dc + j * dc) = false := by
  rw [inBounds_iff] at h
  obtain ⟨h1, h2, h3, h4⟩ := h
  simp only [DIRECTIONS, List.mem_cons, List.not_mem_nil, or_false, Prod.mk.injEq] at hd
  rcases hd with h | h | h | h | h | h | h | h <;> obtain ⟨rfl, rfl⟩ := h
  · exact ⟨row.toNat, by omega, inBounds_false (by omega)⟩
  · exact ⟨row.toNat, by omega, inBounds_false (by omega)⟩
  · exact ⟨row.toNat, by omega, inBounds_false (by omega)⟩
  · exact ⟨col.toNat, by omega, inBounds_false (by omega)⟩
  · exact ⟨((sz : Int) - 1 - col).toNat, by omega, inBounds_false (by omega)⟩
  · exact ⟨((sz : Int) - 1 - row).toNat, by omega, inBounds_false (by omega)⟩
  · exact ⟨((sz : Int) - 1 - row).toNat, by omega, inBounds_false (by omega)⟩
  · exact ⟨((sz : Int) - 1 - row).toNat, by omega, inBounds_false (by omega)⟩

/-- On any on-board cell the snapshot validity test of `script.js` agrees
with `can_flip`. -/
lemma is_valid_move_eq_can_flip (sz : Nat) (b : Board) (row col : Int) (player : Nat)
    (h : inBounds sz row col = true) :
    is_valid_move_in_state sz b row col player = can_flip sz b row col player := by
  unfold is_valid_move_in_state can_flip
  by_cases he : cellAt b row col ≠ EMPTY
  · rw [if_pos he, if_pos he]
  · rw [if_neg he, if_neg he]
    refine any_congr fun d hd => ?_
    obtain ⟨j, hj, hstop⟩ :=
      exists_scan_stop sz row col d.1 d.2 h (by rw [Prod.mk.eta]; exact hd)
    exact scanValidState_eq_scanRun sz b (opponent player) player d.1 d.2 sz
      (row + d.1) (col + d.2) false
      ⟨j, hj, fun hh => by rw [hstop] at hh; exact Bool.false_ne_true hh.1⟩

lemma can_flip_empty {sz : Nat} {b : Board} {row col : Int} {player : Nat}
    (h : can_flip sz b row col player = true) : cellAt b row col = EMPTY := by
  by_contra hne
  unfold can_flip at h
  rw [if_pos hne] at h
  exact Bool.false_ne_true h

lemma valid_movesB_eq_nil_iff (sz : Nat) (b : Board) (p : Nat) :
    valid_movesB sz b p = [] ↔
      ∀ r < sz, ∀ c < sz, can_flip sz b (r : Int) (c : Int) p = false := by
  unfold valid_movesB
  rw [List.flatten_eq_nil_iff]
  constructor
  · intro h r hr c hc
    have hmem := h _ (List.mem_map_of_mem _ (List.mem_range.mpr hr))
    rw [List.filterMap_eq_nil_iff] at hmem
    have hc2 := hmem c (List.mem_range.mpr hc)
    by_cases hcond : cellAt b (r : Int) (c : Int) = EMPTY ∧
        can_flip sz b (r : Int) (c : Int) p = true
    · rw [if_pos hcond] at hc2; exact absurd hc2 (Option.some_ne_none _)
    · cases h2 : can_flip sz b (r : Int) (c : Int) p with
      | false => rfl
      | true => exact absurd ⟨can_flip_empty h2, h2⟩ hcond
  · intro h l hl
    obtain ⟨r, hr, rfl⟩ := List.mem_map.mp hl
    rw [List.filterMap_eq_nil_iff]
    intro c hc
    rw [if_neg]
    rintro ⟨he, hcf⟩
    rw [h r (List.mem_range.mp hr) c (List.mem_range.mp hc)] at hcf
    exact Bool.false_ne_true hcf

lemma has_valid_moves_in_state_iff (sz : Nat) (b : Board) (p : Nat) :
    has_valid_moves_in_state sz b p = true ↔
      ∃ r < sz, ∃ c < sz, can_flip sz b (r : Int) (c : Int) p = true := by
  unfold has_valid_moves_in_state
  rw [List.any_eq_true]
  constructor
  · rintro ⟨r, hr, hany⟩
    rw [List.any_eq_true] at hany
    obtain ⟨c, hc, hv⟩ := hany
    have hrn := List.mem_range.mp hr
    have hcn := List.mem_range.mp hc
    rw [is_valid_move_eq_can_flip sz b _ _ p (by rw [inBounds_iff]; omega)] at hv
    exact ⟨r, hrn, c, hcn, hv⟩
  · rintro ⟨r, hr, c, hc, hv⟩
    refine ⟨r, List.mem_range.mpr hr, ?_⟩
    rw [List.any_eq_true]
    refine ⟨c, List.mem_range.mpr hc, ?_⟩
    rw [is_valid_move_eq_can_flip sz b _ _ p (by rw [inBounds_iff]; omega)]
    exact hv

lemma has_valid_moves_false_iff (sz : Nat) (b : Board) (p : Nat) :
    has_valid_moves_in_state sz b p = false ↔ valid_movesB sz b p = [] := by
  rw [valid_movesB_eq_nil_iff, ← Bool.not_eq_true, has_valid_moves_in_state_iff]
  push_neg
  simp [Bool.not_eq_true]

/-- C2: the terminal tests return true exactly when neither Black nor White
has a legal move: `is_game_over` on the authoritative board and
`is_terminal_state` on a snapshot both agree with emptiness of the
`valid_moves` legal-move lists for the two players; in particular a board
where only one side is blocked is not terminal. -/
theorem C2_terminal_iff_both_no_moves (g : OthelloGame) (sz : Nat) (b : Board) :
    (is_game_over g = true ↔ valid_moves g BLACK = [] ∧ valid_moves g WHITE = []) ∧
    (is_terminal_state sz b = true ↔
      valid_movesB sz b BLACK = [] ∧ valid_movesB sz b WHITE = []) := by
  constructor
  · unfold is_game_over valid_moves
    constructor
    · intro h
      by_cases hB : (valid_movesB g.size g.board BLACK).length > 0
      · rw [if_pos hB] at h; exact absurd h Bool.false_ne_true
      · by_cases hW : (valid_movesB g.size g.board WHITE).length > 0
        · rw [if_neg hB, if_pos hW] at h; exact absurd h Bool.false_ne_true
        · exact ⟨List.length_eq_zero.mp (by omega), List.length_eq_zero.mp (by omega)⟩
    · rintro ⟨h1, h2⟩
      rw [if_neg (by rw [h1]; simp), if_neg (by rw [h2]; simp)]
  · unfold is_terminal_state
    rw [Bool.and_eq_true, Bool.not_eq_true', Bool.not_eq_true',
      has_valid_moves_false_iff, has_valid_moves_false_iff]

/-! Cell-level lemmas about board reads and writes. -/

lemma toNat_ne_of_inBounds {sz : Nat} {r c r' c' : Int}
    (h : inBounds sz r c = true) (h' : inBounds sz r' c' = true)
    (hne : (r', c') ≠ (r, c)) : r'.toNat ≠ r.toNat ∨ c'.toNat ≠ c.toNat := by
  rw [inBounds_iff] at h h'
  by_cases hr : r' = r
  · right
    intro hc
    apply hne
    rw [hr]
    have : c' = c := by omega
    rw [this]
  · left; omega

lemma cellAt_updateCell_self {sz : Nat} {b : Board} (hWF : BoardWF sz b) {r c : Int}
    (h : inBounds sz r c = true) (v : Nat) : cellAt (updateCell b r c v) r c = v := by
  rw [inBounds_iff] at h
  have hr : r.toNat < b.length := by rw [hWF.1]; omega
  have hc : c.toNat < (b.getD r.toNat []).length := by
    rw [List.getD_eq_getElem b [] hr, hWF.2 _ (List.getElem_mem hr)]
    omega
  unfold cellAt updateCell
  rw [List.getD_eq_getElem _ [] (by rw [List.length_set]; exact hr),
    List.getElem_set_self (by rw [List.length_set]; exact hr),
    List.getD_eq_getElem _ EMPTY (by rw [List.length_set]; exact hc),
    List.getElem_set_self (by rw [List.length_set]; exact hc)]

lemma cellAt_updateCell_ne {b : Board} {r c r' c' : Int} {v : Nat}
    (h : r'.toNat ≠ r.toNat ∨ c'.toNat ≠ c.toNat) :
    cellAt (updateCell b r c v) r' c' = cellAt b r' c' := by
  unfold cellAt updateCell
  by_cases hrr : r'.toNat = r.toNat
  · have hcc : c'.toNat ≠ c.toNat := by
      rcases h with h | h
      · exact absurd hrr h
      · exact h
    rw [hrr]
    by_cases hr : r.toNat < b.length
    · rw [List.getD_eq_getElem _ [] (by rw [List.length_set]; exact hr),
        List.getElem_set_self (by rw [List.length_set]; exact hr),
        List.getD_eq_getElem b [] hr]
      by_cases hcl : c'.toNat < (b[r.toNat]).length
      · rw [List.getD_eq_getElem _ EMPTY (by rw [List.length_set]; exact hcl),
          List.getElem_set_ne (fun he => hcc he.symm) (by rw [List.length_set]; exact hcl),
          List.getD_eq_getElem _ EMPTY hcl]
      · rw [List.getD_eq_default _ EMPTY (by rw [List.length_set]; omega),
          List.getD_eq_default _ EMPTY (by omega)]
    · rw [List.set_eq_of_length_le (by omega)]
  · by_cases hr' : r'.toNat < b.length
    · rw [List.getD_eq_getElem _ [] (by rw [List.length_set]; exact hr'),
        List.getElem_set_ne (fun he => hrr he.symm) (by rw [List.length_set]; exact hr'),
        List.getD_eq_getElem b [] hr']
    · rw [List.getD_eq_default _ [] (by rw [List.length_set]; omega),
        List.getD_eq_default _ [] (by omega)]

lemma BoardWF.update {sz : Nat} {b : Board} (h : BoardWF sz b) (r c : Int) (v : Nat) :
    BoardWF sz (updateCell b r c v) := by
  constructor
  · rw [updateCell, List.length_set, h.1]
  · intro row hrow
    obtain ⟨j, hj, rfl⟩ := List.mem_iff_getElem.mp hrow
    simp only [updateCell] at hj ⊢
    by_cases hij : r.toNat = j
    · subst hij
      by_cases hr : r.toNat < b.length
      · rw [List.getElem_set_self hj, List.length_set]
        rw [List.getD_eq_getElem b [] hr]
        exact h.2 _ (List.getElem_mem hr)
      · rw [List.length_set] at hj
        exact absurd hj hr
    · rw [List.getElem_set_ne hij hj]
      exact h.2 _ (List.getElem_mem _)

/-! Counting lemmas. -/

lemma sum_balance {n : Nat} (f f' : Nat → Nat) (i : Nat) (hi : i < n)
    (hagree : ∀ j, j < n → j ≠ i → f' j = f j) :
    (∑ j ∈ Finset.range n, f' j) + f i = (∑ j ∈ Finset.range n, f j) + f' i := by
  rw [← Finset.add_sum_erase _ f' (Finset.mem_range.mpr hi),
    ← Finset.add_sum_erase _ f (Finset.mem_range.mpr hi)]
  have he : ∑ j ∈ (Finset.range n).erase i, f' j = ∑ j ∈ (Finset.range n).erase i, f j :=
    Finset.sum_congr rfl fun j hj =>
      hagree j (Finset.mem_range.mp (Finset.mem_of_mem_erase hj)) (Finset.ne_of_mem_erase hj)
  omega

/-- Rewriting the nested counting sum as a sum over the cell grid. -/
lemma countCells_eq_sum_product (sz : Nat) (b : Board) (w : Nat) :
    countCells sz b w = ∑ p ∈ Finset.range sz ×ˢ Finset.range sz,
      if cellAt b (p.1 : Int) (p.2 : Int) = w then 1 else 0 := by
  unfold countCells
  rw [Finset.sum_product]

/-- Changing one on-board cell shifts the count of each value by exactly the
difference of the two indicator values (stated additively). -/
lemma countCells_update_balance {sz : Nat} {b : Board} {r c : Int}
    (hin : inBounds sz r c = true) (v w : Nat) :
    countCells sz (updateCell b r c v) w + (if cellAt b r c = w then 1 else 0) =
    countCells sz b w + (if cellAt (updateCell b r c v) r c = w then 1 else 0) := by
  obtain ⟨h1, h2, h3, h4⟩ := inBounds_iff.mp hin
  have hrn : r.toNat < sz := by omega
  have hcn : c.toNat < sz := by omega
  have hrcast : ((r.toNat : Nat) : Int) = r := Int.toNat_of_nonneg h1
  have hccast : ((c.toNat : Nat) : Int) = c := Int.toNat_of_nonneg h3
  have hp0 : (r.toNat, c.toNat) ∈ Finset.range sz ×ˢ Finset.range sz :=
    Finset.mem_product.mpr ⟨Finset.mem_range.mpr hrn, Finset.mem_range.mpr hcn⟩
  have e1 := Finset.add_sum_erase (Finset.range sz ×ˢ Finset.range sz)
    (fun p : Nat × Nat => if cellAt (updateCell b r c v) (p.1 : Int) (p.2 : Int) = w then 1 else 0)
    hp0
  have e2 := Finset.add_sum_erase (Finset.range sz ×ˢ Finset.range sz)
    (fun p : Nat × Nat => if cellAt b (p.1 : Int) (p.2 : Int) = w then 1 else 0) hp0
  dsimp only at e1 e2
  rw [hrcast, hccast] at e1 e2
  have he : ∑ p ∈ (Finset.range sz ×ˢ Finset.range sz).erase (r.toNat, c.toNat),
      (if cellAt (updateCell b r c v) (p.1 : Int) (p.2 : Int) = w then 1 else 0) =
      ∑ p ∈ (Finset.range sz ×ˢ Finset.range sz).erase (r.toNat, c.toNat),
      (if cellAt b (p.1 : Int) (p.2 : Int) = w then 1 else 0) := by
    refine Finset.sum_congr rfl fun p hp => ?_
    have hne := Finset.ne_of_mem_erase hp
    rw [cellAt_updateCell_ne]
    rcases not_and_or.mp (fun hand : p.1 = r.toNat ∧ p.2 = c.toNat =>
      hne (Prod.ext hand.1 hand.2)) with hd | hd
    · left; rw [Int.toNat_ofNat]; exact hd
    · right; rw [Int.toNat_ofNat]; exact hd
  rw [countCells_eq_sum_product, countCells_eq_sum_product, ← e1, ← e2, he]
  omega

/-! The pointwise flip relation: a board evolves by turning some opponent
discs into the mover's discs, leaving every other cell unchanged. -/

def FlipsTo (sz : Nat) (o p : Nat) (b b' : Board) : Prop :=
  ∀ r c : Int, inBounds sz r c = true →
    cellAt b' r c = cellAt b r c ∨ (cellAt b r c = o ∧ cellAt b' r c = p)

lemma FlipsTo.refl (sz o p : Nat) (b : Board) : FlipsTo sz o p b b :=
  fun _ _ _ => Or.inl rfl

lemma FlipsTo.trans {sz o p : Nat} {b b' b'' : Board} (hop : p ≠ o)
    (h1 : FlipsTo sz o p b b') (h2 : FlipsTo sz o p b' b'') : FlipsTo sz o p b b'' := by
  intro r c hin
  rcases h2 r c hin with h | ⟨ho, hp⟩
  · rcases h1 r c hin with h' | ⟨ho', hp'⟩
    · exact Or.inl (h.trans h')
    · exact Or.inr ⟨ho', h.trans hp'⟩
  · rcases h1 r c hin with h' | ⟨ho', hp'⟩
    · exact Or.inr ⟨h' ▸ ho, hp⟩
    · exact absurd (hp'.symm.trans ho) hop
  
lemma FlipsTo.cellAt_opp {sz o p : Nat} {b b' : Board} (hop : p ≠ o)
    (h : FlipsTo sz o p b b') {r c : Int} (hin : inBounds sz r c = true)
    (ho : cellAt b' r c = o) : cellAt b r c = o := by
  rcases h r c hin with h' | ⟨ho', hp'⟩
  · rw [← h']; exact ho
  · exact absurd (hp'.symm.trans ho) hop

/-- Writing the mover's value into in-bounds opponent cells preserves the
flip relation (and well-formedness). -/
lemma writeCells_flipsTo {sz o p : Nat} {b : Board} :
    ∀ (l : List (Int × Int)) (cur : Board), BoardWF sz cur → FlipsTo sz o p b cur →
      (∀ q ∈ l, inBounds sz q.1 q.2 = true ∧ cellAt b q.1 q.2 = o) →
      FlipsTo sz o p b (writeCells cur l p) ∧ BoardWF sz (writeCells cur l p) := by
  intro l
  induction l with
  | nil => intro cur hWF hrel _; exact ⟨hrel, hWF⟩
  | cons q rest ih =>
    intro cur hWF hrel hl
    have hq := hl q (List.mem_cons_self q rest)
    have hrel' : FlipsTo sz o p b (updateCell cur q.1 q.2 p) := by
      intro r c hin
      by_cases heq : (r, c) = (q.1, q.2)
      · rw [Prod.mk.injEq] at heq
        rw [heq.1, heq.2, cellAt_updateCell_self hWF hq.1]
        exact Or.inr ⟨hq.2, rfl⟩
      · rw [cellAt_updateCell_ne (toNat_ne_of_inBounds hq.1 hin heq)]
        exact hrel r c hin
    have hstep : writeCells cur (q :: rest) p = writeCells (updateCell cur q.1 q.2 p) rest p := rfl
    rw [hstep]
    exact ih (updateCell cur q.1 q.2 p) (hWF.update q.1 q.2 p) hrel'
      (fun q' hq' => hl q' (List.mem_cons_of_mem q hq'))

/-- Every cell collected by the `flip_discs` ray walk is an in-bounds
opponent cell of the walked board. -/
lemma collectRun_mem {sz : Nat} {b : Board} {o : Nat} {dr dc : Int} :
    ∀ (fuel : Nat) (r c : Int) (acc : List (Int × Int)),
      (∀ q ∈ acc, inBounds sz q.1 q.2 = true ∧ cellAt b q.1 q.2 = o) →
      ∀ q ∈ (collectRun sz b o dr dc fuel r c acc).2.2,
        inBounds sz q.1 q.2 = true ∧ cellAt b q.1 q.2 = o := by
  intro fuel
  induction fuel with
  | zero => intro r c acc hacc q hq; exact hacc q hq
  | succ fuel ih =>
    intro r c acc hacc q hq
    by_cases hc : inBounds sz r c = true ∧ cellAt b r c = o
    · rw [show collectRun sz b o dr dc (fuel + 1) r c acc =
          collectRun sz b o dr dc fuel (r + dr) (c + dc) (acc ++ [(r, c)]) from by
            simp only [collectRun]; rw [if_pos hc]] at hq
      refine ih (r + dr) (c + dc) (acc ++ [(r, c)]) ?_ q hq
      intro q' hq'
      rcases List.mem_append.mp hq' with h | h
      · exact hacc q' h
      · rw [List.mem_singleton.mp h]; exact hc
    · rw [show collectRun sz b o dr dc (fuel + 1) r c acc = (r, c, acc) from by
          simp only [collectRun]; rw [if_neg hc]] at hq
      exact hacc q hq

/-- One direction of `flip_discs` preserves the flip relation and
well-formedness. -/
lemma flipDir_flipsTo {sz : Nat} {b cur : Board} {row col : Int} {p : Nat}
    (hop : p ≠ opponent p) (hWF : BoardWF sz cur)
    (hrel : FlipsTo sz (opponent p) p b cur) (dr dc : Int) :
    FlipsTo sz (opponent p) p b (flipDir sz cur row col p dr dc) ∧
    BoardWF sz (flipDir sz cur row col p dr dc) := by
  unfold flipDir
  dsimp only
  split
  · refine writeCells_flipsTo _ cur hWF hrel fun q hq => ?_
    have := collectRun_mem sz (row + dr) (col + dc) [] (by intro q' hq'; cases hq') q hq
    exact ⟨this.1, hrel.cellAt_opp hop this.1 this.2⟩
  · exact ⟨hrel, hWF⟩

lemma countCells_player_le_of_flipsTo {sz o p : Nat} {b b' : Board}
    (hrel : FlipsTo sz o p b b') :
    countCells sz b p ≤ countCells sz b' p := by
  unfold countCells
  refine Finset.sum_le_sum fun r hr => Finset.sum_le_sum fun c hc => ?_
  have hin : inBounds sz (r : Int) (c : Int) = true := by
    rw [inBounds_iff]
    have := Finset.mem_range.mp hr
    have := Finset.mem_range.mp hc
    omega
  rcases hrel _ _ hin with h | ⟨ho', hp'⟩
  · rw [h]
  · rw [hp', if_pos rfl]
    split <;> omega

lemma countCells_opp_ge_of_flipsTo {sz o p : Nat} {b b' : Board}
    (hrel : FlipsTo sz o p b b') (hop : p ≠ o) :
    countCells sz b' o ≤ countCells sz b o := by
  unfold countCells
  refine Finset.sum_le_sum fun r hr => Finset.sum_le_sum fun c hc => ?_
  have hin : inBounds sz (r : Int) (c : Int) = true := by
    rw [inBounds_iff]
    have := Finset.mem_range.mp hr
    have := Finset.mem_range.mp hc
    omega
  rcases hrel _ _ hin with h | ⟨ho', hp'⟩
  · rw [h]
  · rw [hp', ho', if_pos rfl, if_neg hop]
    omega

lemma countCells_bw_of_flipsTo {sz p : Nat} {b b' : Board}
    (hrel : FlipsTo sz (opponent p) p b b') (hp : p = BLACK ∨ p = WHITE) :
    countCells sz b' BLACK + countCells sz b' WHITE =
      countCells sz b BLACK + countCells sz b WHITE := by
  unfold countCells
  rw [← Finset.sum_add_distrib, ← Finset.sum_add_distrib]
  refine Finset.sum_congr rfl fun r hr => ?_
  rw [← Finset.sum_add_distrib, ← Finset.sum_add_distrib]
  refine Finset.sum_congr rfl fun c hc => ?_
  have hin : inBounds sz (r : Int) (c : Int) = true := by
    rw [inBounds_iff]
    have := Finset.mem_range.mp hr
    have := Finset.mem_range.mp hc
    omega
  rcases hrel _ _ hin with h | ⟨ho', hp'⟩
  · rw [h]
  · rw [ho', hp']
    rcases hp with rfl | rfl <;> decide

lemma countCells_opp_lt_of_flipsTo {sz o p : Nat} {b b' : Board}
    (hrel : FlipsTo sz o p b b') (hop : p ≠ o) {r0 c0 : Int}
    (hin0 : inBounds sz r0 c0 = true) (ho0 : cellAt b r0 c0 = o)
    (hp0 : cellAt b' r0 c0 = p) :
    countCells sz b' o < countCells sz b o := by
  obtain ⟨h1, h2, h3, h4⟩ := inBounds_iff.mp hin0
  have hrcast : ((r0.toNat : Nat) : Int) = r0 := Int.toNat_of_nonneg h1
  have hccast : ((c0.toNat : Nat) : Int) = c0 := Int.toNat_of_nonneg h3
  rw [countCells_eq_sum_product, countCells_eq_sum_product]
  refine Finset.sum_lt_sum (fun q hq => ?_) ⟨(r0.toNat, c0.toNat), ?_, ?_⟩
  · obtain ⟨hqr, hqc⟩ := Finset.mem_product.mp hq
    have hin : inBounds sz (q.1 : Int) (q.2 : Int) = true := by
      rw [inBounds_iff]
      have := Finset.mem_range.mp hqr
      have := Finset.mem_range.mp hqc
      omega
    rcases hrel _ _ hin with h | ⟨ho', hp'⟩
    · rw [h]
    · rw [hp', ho', if_pos rfl, if_neg hop]
      omega
  · exact Finset.mem_product.mpr
      ⟨Finset.mem_range.mpr (by omega), Finset.mem_range.mpr (by omega)⟩
  · dsimp only
    rw [hrcast, hccast, hp0, ho0, if_pos rfl, if_neg hop]
    omega

lemma cellAt_writeCells_not_mem {sz p : Nat} :
    ∀ (l : List (Int × Int)) (cur : Board),
      (∀ q' ∈ l, inBounds sz q'.1 q'.2 = true) → ∀ {q : Int × Int},
      inBounds sz q.1 q.2 = true → q ∉ l →
      cellAt (writeCells cur l p) q.1 q.2 = cellAt cur q.1 q.2 := by
  intro l
  induction l with
  | nil => intro cur _ q _ _; rfl
  | cons x rest ih =>
    intro cur hl q hq hnm
    have hstep : writeCells cur (x :: rest) p = writeCells (updateCell cur x.1 x.2 p) rest p := rfl
    rw [hstep, ih (updateCell cur x.1 x.2 p)
      (fun q' hq' => hl q' (List.mem_cons_of_mem x hq')) hq
      (fun hm => hnm (List.mem_cons_of_mem x hm))]
    exact cellAt_updateCell_ne
      (toNat_ne_of_inBounds (hl x (List.mem_cons_self x rest)) hq
        (fun he => hnm (by rw [show q = x from Prod.ext (congrArg Prod.fst he) (congrArg Prod.snd he)]; exact List.mem_cons_self x rest)))

lemma cellAt_writeCells_of_mem {sz p : Nat} :
    ∀ (l : List (Int × Int)) (cur : Board), BoardWF sz cur →
      (∀ q' ∈ l, inBounds sz q'.1 q'.2 = true) → ∀ q ∈ l,
      cellAt (writeCells cur l p) q.1 q.2 = p := by
  intro l
  induction l with
  | nil => intro cur _ _ q hq; cases hq
  | cons x rest ih =>
    intro cur hWF hl q hq
    have hstep : writeCells cur (x :: rest) p = writeCells (updateCell cur x.1 x.2 p) rest p := rfl
    rw [hstep]
    by_cases hqr : q ∈ rest
    · exact ih (updateCell cur x.1 x.2 p) (hWF.update x.1 x.2 p)
        (fun q' hq' => hl q' (List.mem_cons_of_mem x hq')) q hqr
    · have hqx : q = x := by
        rcases List.mem_cons.mp hq with h | h
        · exact h
        · exact absurd h hqr
      subst hqx
      rw [cellAt_writeCells_not_mem rest (updateCell cur q.1 q.2 p)
        (fun q' hq' => hl q' (List.mem_cons_of_mem q hq'))
        (hl q (List.mem_cons_self q rest)) hqr]
      exact cellAt_updateCell_self hWF (hl q (List.mem_cons_self q rest)) p

/-- The condition under which one direction of `flip_discs` flips its run. -/
def flipDirCond (sz : Nat) (b : Board) (row col : Int) (player : Nat) (dr dc : Int) : Prop :=
  inBounds sz (collectRun sz b (opponent player) dr dc sz (row + dr) (col + dc) []).1
      (collectRun sz b (opponent player) dr dc sz (row + dr) (col + dc) []).2.1 = true ∧
    cellAt b (collectRun sz b (opponent player) dr dc sz (row + dr) (col + dc) []).1
      (collectRun sz b (opponent player) dr dc sz (row + dr) (col + dc) []).2.1 = player ∧
    (collectRun sz b (opponent player) dr dc sz (row + dr) (col + dc) []).2.2 ≠ []

lemma flipDir_strict {sz : Nat} {b : Board} {row col : Int} {p : Nat} {dr dc : Int}
    (hWF : BoardWF sz b) (hcond : flipDirCond sz b row col p dr dc) :
    countCells sz (flipDir sz b row col p dr dc) (opponent p) <
      countCells sz b (opponent p) := by
  have hflip : flipDir sz b row col p dr dc =
      writeCells b (collectRun sz b (opponent p) dr dc sz (row + dr) (col + dc) []).2.2 p := by
    unfold flipDir
    dsimp only
    rw [if_pos ⟨hcond.1, hcond.2.1, hcond.2.2⟩]
  have hmem : ∀ q ∈ (collectRun sz b (opponent p) dr dc sz (row + dr) (col + dc) []).2.2,
      inBounds sz q.1 q.2 = true ∧ cellAt b q.1 q.2 = opponent p :=
    fun q hq => collectRun_mem _ _ _ [] (fun q' h' => absurd h' (List.not_mem_nil q')) q hq
  obtain ⟨q0, hq0⟩ := List.exists_mem_of_ne_nil _ hcond.2.2
  have hrel := writeCells_flipsTo
    (collectRun sz b (opponent p) dr dc sz (row + dr) (col + dc) []).2.2 b hWF
    (FlipsTo.refl sz (opponent p) p b) hmem
  have hcell := @cellAt_writeCells_of_mem sz p
    (collectRun sz b (opponent p) dr dc sz (row + dr) (col + dc) []).2.2 b hWF
    (fun q hq => (hmem q hq).1) q0 hq0
  rw [hflip]
  exact countCells_opp_lt_of_flipsTo hrel.1 (Ne.symm (opponent_ne p))
    (hmem q0 hq0).1 (hmem q0 hq0).2 hcell

lemma flip_fold_flipsTo {sz : Nat} {row col : Int} {p : Nat} (ds : List (Int × Int))
    (cur : Board) (hWF : BoardWF sz cur) :
    FlipsTo sz (opponent p) p cur
        (ds.foldl (fun b' d => flipDir sz b' row col p d.1 d.2) cur) ∧
      BoardWF sz (ds.foldl (fun b' d => flipDir sz b' row col p d.1 d.2) cur) := by
  refine List.foldlRecOn (motive := fun x => FlipsTo sz (opponent p) p cur x ∧ BoardWF sz x)
    ds _ cur ⟨FlipsTo.refl sz (opponent p) p cur, hWF⟩ ?_
  rintro b ⟨hrel, hWFb⟩ d _
  exact @flipDir_flipsTo sz cur b row col p (Ne.symm (opponent_ne p)) hWFb hrel d.1 d.2

lemma flip_fold_strict {sz : Nat} {row col : Int} {p : Nat} :
    ∀ (ds : List (Int × Int)) (cur : Board), BoardWF sz cur →
      (∃ d ∈ ds, flipDirCond sz cur row col p d.1 d.2) →
      countCells sz (ds.foldl (fun b' d => flipDir sz b' row col p d.1 d.2) cur) (opponent p) <
        countCells sz cur (opponent p) := by
  intro ds
  induction ds with
  | nil => rintro cur _ ⟨d, hd, _⟩; cases hd
  | cons d0 rest ih =>
    rintro cur hWF ⟨d, hd, hcond⟩
    rw [List.foldl_cons]
    by_cases h0 : flipDirCond sz cur row col p d0.1 d0.2
    · have hstrict := flipDir_strict hWF h0
      have hWF' := (@flipDir_flipsTo sz cur cur row col p (Ne.symm (opponent_ne p)) hWF
        (FlipsTo.refl sz (opponent p) p cur) d0.1 d0.2).2
      have hmono := @flip_fold_flipsTo sz row col p rest _ hWF'
      exact lt_of_le_of_lt (countCells_opp_ge_of_flipsTo hmono.1 (Ne.symm (opponent_ne p))) hstrict
    · have hdr : d ∈ rest := by
        rcases List.mem_cons.mp hd with h | h
        · exact absurd (h ▸ hcond) h0
        · exact h
      rw [show flipDir sz cur row col p d0.1 d0.2 = cur from by
        unfold flipDir
        dsimp only
        rw [if_neg (fun hc => h0 ⟨hc.1, hc.2.1, hc.2.2⟩)]]
      exact ih cur hWF ⟨d, hdr, hcond⟩

/-! Ray-scan congruence lemmas. -/

lemma scanRun_pos {sz : Nat} {b : Board} {o : Nat} {dr dc : Int} :
    ∀ (fuel : Nat) (r c : Int) (found : Bool),
      ∃ k : Nat, (scanRun sz b o dr dc fuel r c found).1 = r + k * dr ∧
        (scanRun sz b o dr dc fuel r c found).2.1 = c + k * dc := by
  intro fuel
  induction fuel with
  | zero => intro r c found; exact ⟨0, by simp [scanRun], by simp [scanRun]⟩
  | succ fuel ih =>
    intro r c found
    by_cases hc : inBounds sz r c = true ∧ cellAt b r c = o
    · rw [show scanRun sz b o dr dc (fuel + 1) r c found =
        scanRun sz b o dr dc fuel (r + dr) (c + dc) true from by
          simp only [scanRun]; rw [if_pos hc]]
      obtain ⟨k, hk1, hk2⟩ := ih (r + dr) (c + dc) true
      refine ⟨k + 1, ?_, ?_⟩
      · rw [hk1]; push_cast; ring
      · rw [hk2]; push_cast; ring
    · rw [show scanRun sz b o dr dc (fuel + 1) r c found = (r, c, found) from by
        simp only [scanRun]; rw [if_neg hc]]
      exact ⟨0, by simp, by simp⟩

lemma scanRun_congr {sz : Nat} {b b' : Board} {o : Nat} {dr dc : Int} :
    ∀ (fuel : Nat) (r c : Int) (found : Bool),
      (∀ k : Nat, inBounds sz (r + k * dr) (c + k * dc) = true →
        cellAt b' (r + k * dr) (c + k * dc) = cellAt b (r + k * dr) (c + k * dc)) →
      scanRun sz b' o dr dc fuel r c found = scanRun sz b o dr dc fuel r c found := by
  intro fuel
  induction fuel with
  | zero => intro r c found _; rfl
  | succ fuel ih =>
    intro r c found hagree
    have h0 : inBounds sz r c = true → cellAt b' r c = cellAt b r c := by
      intro hb
      have := hagree 0
      simp only [Nat.cast_zero, zero_mul, add_zero] at this
      exact this hb
    by_cases hb : inBounds sz r c = true
    · have hcell := h0 hb
      by_cases hcc : cellAt b r c = o
      · rw [show scanRun sz b' o dr dc (fuel + 1) r c found =
            scanRun sz b' o dr dc fuel (r + dr) (c + dc) true from by
              simp only [scanRun]; rw [if_pos ⟨hb, hcell.trans hcc⟩],
          show scanRun sz b o dr dc (fuel + 1) r c found =
            scanRun sz b o dr dc fuel (r + dr) (c + dc) true from by
              simp only [scanRun]; rw [if_pos ⟨hb, hcc⟩]]
        refine ih (r + dr) (c + dc) true fun k hk => ?_
        have e1 : r + dr + (k : Int) * dr = r + ((k + 1 : Nat) : Int) * dr := by push_cast; ring
        have e2 : c + dc + (k : Int) * dc = c + ((k + 1 : Nat) : Int) * dc := by push_cast; ring
        rw [e1, e2] at hk ⊢
        exact hagree (k + 1) hk
      · rw [show scanRun sz b' o dr dc (fuel + 1) r c found = (r, c, found) from by
            simp only [scanRun]; rw [if_neg (fun hh => hcc (hcell.symm.trans hh.2))],
          show scanRun sz b o dr dc (fuel + 1) r c found = (r, c, found) from by
            simp only [scanRun]; rw [if_neg (fun hh => hcc hh.2)]]
    · rw [show scanRun sz b' o dr dc (fuel + 1) r c found = (r, c, found) from by
          simp only [scanRun]; rw [if_neg (fun hh => hb hh.1)],
        show scanRun sz b o dr dc (fuel + 1) r c found = (r, c, found) from by
          simp only [scanRun]; rw [if_neg (fun hh => hb hh.1)]]

lemma collectRun_eq_scanRun {sz : Nat} {b : Board} {o : Nat} {dr dc : Int} :
    ∀ (fuel : Nat) (r c : Int) (acc : List (Int × Int)) (found : Bool),
      (acc = [] ↔ found = false) →
      (collectRun sz b o dr dc fuel r c acc).1 = (scanRun sz b o dr dc fuel r c found).1 ∧
      (collectRun sz b o dr dc fuel r c acc).2.1 = (scanRun sz b o dr dc fuel r c found).2.1 ∧
      ((collectRun sz b o dr dc fuel r c acc).2.2 = [] ↔
        (scanRun sz b o dr dc fuel r c found).2.2 = false) := by
  intro fuel
  induction fuel with
  | zero => intro r c acc found hinv; exact ⟨rfl, rfl, hinv⟩
  | succ fuel ih =>
    intro r c acc found hinv
    by_cases hc : inBounds sz r c = true ∧ cellAt b r c = o
    · rw [show collectRun sz b o dr dc (fuel + 1) r c acc =
          collectRun sz b o dr dc fuel (r + dr) (c + dc) (acc ++ [(r, c)]) from by
            simp only [collectRun]; rw [if_pos hc],
        show scanRun sz b o dr dc (fuel + 1) r c found =
          scanRun sz b o dr dc fuel (r + dr) (c + dc) true from by
            simp only [scanRun]; rw [if_pos hc]]
      exact ih (r + dr) (c + dc) (acc ++ [(r, c)]) true (by simp)
    · rw [show collectRun sz b o dr dc (fuel + 1) r c acc = (r, c, acc) from by
          simp only [collectRun]; rw [if_neg hc],
        show scanRun sz b o dr dc (fuel + 1) r c found = (r, c, found) from by
          simp only [scanRun]; rw [if_neg hc]]
      exact ⟨rfl, rfl, hinv⟩

lemma step_zero {k : Nat} {d x : Int} (h : x + d + (k : Int) * d = x) : d = 0 := by
  have e1 : d + (k : Int) * d = 0 := by linarith
  have e2 : (1 + (k : Int)) * d = 0 := by
    rw [show (1 + (k : Int)) * d = d + (k : Int) * d from by ring]
    exact e1
  rcases mul_eq_zero.mp e2 with h' | h'
  · exfalso
    have hk : (0 : Int) ≤ (k : Int) := Int.ofNat_nonneg k
    linarith
  · exact h'

lemma DIRECTIONS_ne_zero : ∀ d ∈ DIRECTIONS, ¬(d.1 = 0 ∧ d.2 = 0) := by decide

/-- Cells along a ray never coincide with the ray's origin. -/
lemma ray_ne_origin {row col dr dc : Int} {k : Nat} (hd : ¬(dr = 0 ∧ dc = 0)) :
    (row + dr + (k : Int) * dr, col + dc + (k : Int) * dc) ≠ (row, col) := by
  intro he
  rw [Prod.mk.injEq] at he
  exact hd ⟨step_zero he.1, step_zero he.2⟩

/-! Assembling the legal-move soundness facts. -/

lemma can_flip_exists_dir {sz : Nat} {b : Board} {row col : Int} {p : Nat}
    (h : can_flip sz b row col p = true) :
    ∃ d ∈ DIRECTIONS,
      (scanRun sz b (opponent p) d.1 d.2 sz (row + d.1) (col + d.2) false).2.2 = true ∧
      inBounds sz (scanRun sz b (opponent p) d.1 d.2 sz (row + d.1) (col + d.2) false).1
        (scanRun sz b (opponent p) d.1 d.2 sz (row + d.1) (col + d.2) false).2.1 = true ∧
      cellAt b (scanRun sz b (opponent p) d.1 d.2 sz (row + d.1) (col + d.2) false).1
        (scanRun sz b (opponent p) d.1 d.2 sz (row + d.1) (col + d.2) false).2.1 = p := by
  have hemp := can_flip_empty h
  unfold can_flip at h
  rw [if_neg (fun hn => hn hemp)] at h
  obtain ⟨d, hd, hf⟩ := List.any_eq_true.mp h
  dsimp only at hf
  rw [Bool.and_eq_true, Bool.and_eq_true, decide_eq_true_eq] at hf
  exact ⟨d, hd, hf.1.1, hf.1.2, hf.2⟩

/-- After the disc is placed on the (previously empty) origin, any direction
witnessing `can_flip` on the old board satisfies the flip condition of
`flip_discs` on the new board. -/
lemma can_flip_dir_transfer {sz : Nat} {b : Board} {row col : Int} {p w : Nat}
    (hin : inBounds sz row col = true) {d : Int × Int} (hd : d ∈ DIRECTIONS)
    (h1 : (scanRun sz b (opponent p) d.1 d.2 sz (row + d.1) (col + d.2) false).2.2 = true)
    (h2 : inBounds sz (scanRun sz b (opponent p) d.1 d.2 sz (row + d.1) (col + d.2) false).1
      (scanRun sz b (opponent p) d.1 d.2 sz (row + d.1) (col + d.2) false).2.1 = true)
    (h3 : cellAt b (scanRun sz b (opponent p) d.1 d.2 sz (row + d.1) (col + d.2) false).1
      (scanRun sz b (opponent p) d.1 d.2 sz (row + d.1) (col + d.2) false).2.1 = p) :
    flipDirCond sz (updateCell b row col w) row col p d.1 d.2 := by
  have hdz := DIRECTIONS_ne_zero d hd
  have hagree : ∀ k : Nat, inBounds sz (row + d.1 + k * d.1) (col + d.2 + k * d.2) = true →
      cellAt (updateCell b row col w) (row + d.1 + k * d.1) (col + d.2 + k * d.2) =
        cellAt b (row + d.1 + k * d.1) (col + d.2 + k * d.2) := fun k hk =>
    cellAt_updateCell_ne (toNat_ne_of_inBounds hin hk (ray_ne_origin hdz))
  have hscan := @scanRun_congr sz b (updateCell b row col w) (opponent p) d.1 d.2 sz
    (row + d.1) (col + d.2) false hagree
  have hcoll := @collectRun_eq_scanRun sz (updateCell b row col w) (opponent p) d.1 d.2 sz
    (row + d.1) (col + d.2) [] false (by simp)
  obtain ⟨k, hk1, hk2⟩ := @scanRun_pos sz b (opponent p) d.1 d.2 sz
    (row + d.1) (col + d.2) false
  have hterm_ne : ((scanRun sz b (opponent p) d.1 d.2 sz (row + d.1) (col + d.2) false).1,
      (scanRun sz b (opponent p) d.1 d.2 sz (row + d.1) (col + d.2) false).2.1) ≠ (row, col) := by
    rw [hk1, hk2]
    exact ray_ne_origin hdz
  unfold flipDirCond
  rw [hcoll.1, hcoll.2.1, hscan]
  refine ⟨h2, ?_, ?_⟩
  · rw [cellAt_updateCell_ne (toNat_ne_of_inBounds hin h2 hterm_ne)]
    exact h3
  · intro hnil
    have hf := hcoll.2.2.mp hnil
    rw [hscan, h1] at hf
    simp at hf

lemma of_mem_valid_movesB {sz : Nat} {b : Board} {p : Nat} {row col : Int}
    (h : (row, col) ∈ valid_movesB sz b p) :
    inBounds sz row col = true ∧ cellAt b row col = EMPTY ∧
      can_flip sz b row col p = true := by
  unfold valid_movesB at h
  rw [List.mem_flatten] at h
  obtain ⟨l, hl, hml⟩ := h
  obtain ⟨rn, hrn, rfl⟩ := List.mem_map.mp hl
  rw [List.mem_filterMap] at hml
  obtain ⟨cn, hcn, hsome⟩ := hml
  by_cases hcond : cellAt b (rn : Int) (cn : Int) = EMPTY ∧
      can_flip sz b (rn : Int) (cn : Int) p = true
  · rw [if_pos hcond] at hsome
    obtain ⟨h1, h2⟩ := Prod.ext_iff.mp (Option.some.inj hsome)
    dsimp only at h1 h2
    subst h1
    subst h2
    refine ⟨?_, hcond.1, hcond.2⟩
    rw [inBounds_iff]
    have := List.mem_range.mp hrn
    have := List.mem_range.mp hcn
    omega
  · rw [if_neg hcond] at hsome
    exact absurd hsome (by simp)

lemma place_piece_of_valid {g : OthelloGame} {row col : Int} {player : Nat}
    (h1 : inBounds g.size row col = true)
    (h2 : can_flip g.size g.board row col player = true) :
    place_piece g row col player = (true,
      { g with
        board := flip_discs g.size (updateCell g.board row col player) row col player
        last_placed_move := some (row, col)
        move_history := g.move_history ++
          [(copy_board (flip_discs g.size (updateCell g.board row col player) row col player),
            g.current_player)]
        move_log := g.move_log ++ [(player, (row, col))] }) := by
  unfold place_piece
  rw [if_neg (fun hn => hn ⟨h1, h2⟩)]

/-- C6: applying a legal move strictly increases the mover's disc count and
never decreases the total number of discs on the board. -/
theorem C6_place_increases_mover_count (g : OthelloGame) (row col : Int) (player : Nat)
    (hWF : BoardWF g.size g.board) (hp : player = BLACK ∨ player = WHITE)
    (hmem : (row, col) ∈ valid_moves g player) :
    countCells g.size g.board player <
      countCells g.size (place_piece g row col player).2.board player ∧
    countCells g.size g.board BLACK + countCells g.size g.board WHITE ≤
      countCells g.size (place_piece g row col player).2.board BLACK +
        countCells g.size (place_piece g row col player).2.board WHITE := by
  obtain ⟨hin, hemp, hcf⟩ := of_mem_valid_movesB hmem
  rw [place_piece_of_valid hin hcf]
  dsimp only
  have hWF1 : BoardWF g.size (updateCell g.board row col player) :=
    hWF.update row col player
  have hself : cellAt (updateCell g.board row col player) row col = player :=
    cellAt_updateCell_self hWF hin player
  have hEne : EMPTY ≠ player := by rcases hp with rfl | rfl <;> decide
  have hbalP := countCells_update_balance (b := g.board) hin player player
  rw [hemp, hself, if_neg hEne, if_pos rfl] at hbalP
  have hbalB := countCells_update_balance (b := g.board) hin player BLACK
  have hbalW := countCells_update_balance (b := g.board) hin player WHITE
  rw [hemp, hself] at hbalB hbalW
  rw [if_neg (by decide : ¬ (EMPTY = BLACK))] at hbalB
  rw [if_neg (by decide : ¬ (EMPTY = WHITE))] at hbalW
  have hfold := @flip_fold_flipsTo g.size row col player DIRECTIONS
    (updateCell g.board row col player) hWF1
  have hflip_eq : flip_discs g.size (updateCell g.board row col player) row col player =
      DIRECTIONS.foldl (fun b' d => flipDir g.size b' row col player d.1 d.2)
        (updateCell g.board row col player) := rfl
  rw [hflip_eq]
  constructor
  · have hmono := countCells_player_le_of_flipsTo hfold.1
    omega
  · have hbw := countCells_bw_of_flipsTo hfold.1 hp
    have hsum : (if player = BLACK then 1 else 0) + (if player = WHITE then 1 else 0) = 1 := by
      rcases hp with rfl | rfl <;> decide
    omega

/-- Witness for C6: Black's opening move (2,3) on the initial 8×8 game. -/
theorem C6_witness :
    BoardWF (mkGame 8 2 false).size (mkGame 8 2 false).board ∧
    (BLACK = BLACK ∨ BLACK = WHITE) ∧
    (2, 3) ∈ valid_moves (mkGame 8 2 false) BLACK ∧
    (countCells (mkGame 8 2 false).size (mkGame 8 2 false).board BLACK <
      countCells (mkGame 8 2 false).size
        (place_piece (mkGame 8 2 false) 2 3 BLACK).2.board BLACK ∧
    countCells (mkGame 8 2 false).size (mkGame 8 2 false).board BLACK +
        countCells (mkGame 8 2 false).size (mkGame 8 2 false).board WHITE ≤
      countCells (mkGame 8 2 false).size
          (place_piece (mkGame 8 2 false) 2 3 BLACK).2.board BLACK +
        countCells (mkGame 8 2 false).size
          (place_piece (mkGame 8 2 false) 2 3 BLACK).2.board WHITE) :=
  ⟨by unfold BoardWF; decide, Or.inl rfl, by decide,
    C6_place_increases_mover_count (mkGame 8 2 false) 2 3 BLACK (by unfold BoardWF; decide)
      (Or.inl rfl) (by decide)⟩

/-- C1: every coordinate returned by `valid_moves` is an empty cell from
which some direction carries a nonempty bounded opponent run (the
`can_flip` scan finds opponent discs and then a mover's disc), and applying
the move with `place_piece` flips at least one opposing disc: the
opponent's disc count strictly decreases. -/
theorem C1_valid_moves_sound (g : OthelloGame) (row col : Int) (player : Nat)
    (hWF : BoardWF g.size g.board) (hmem : (row, col) ∈ valid_moves g player) :
    cellAt g.board row col = EMPTY ∧
    (∃ d ∈ DIRECTIONS,
      (scanRun g.size g.board (opponent player) d.1 d.2 g.size
        (row + d.1) (col + d.2) false).2.2 = true ∧
      inBounds g.size
        (scanRun g.size g.board (opponent player) d.1 d.2 g.size
          (row + d.1) (col + d.2) false).1
        (scanRun g.size g.board (opponent player) d.1 d.2 g.size
          (row + d.1) (col + d.2) false).2.1 = true ∧
      cellAt g.board
        (scanRun g.size g.board (opponent player) d.1 d.2 g.size
          (row + d.1) (col + d.2) false).1
        (scanRun g.size g.board (opponent player) d.1 d.2 g.size
          (row + d.1) (col + d.2) false).2.1 = player) ∧
    countCells g.size (place_piece g row col player).2.board (opponent player) <
      countCells g.size g.board (opponent player) := by
  obtain ⟨hin, hemp, hcf⟩ := of_mem_valid_movesB hmem
  obtain ⟨d, hd, hs1, hs2, hs3⟩ := can_flip_exists_dir hcf
  refine ⟨hemp, ⟨d, hd, hs1, hs2, hs3⟩, ?_⟩
  rw [place_piece_of_valid hin hcf]
  dsimp only
  have hWF1 : BoardWF g.size (updateCell g.board row col player) :=
    hWF.update row col player
  have hself : cellAt (updateCell g.board row col player) row col = player :=
    cellAt_updateCell_self hWF hin player
  have hbalO := countCells_update_balance (b := g.board) hin player (opponent player)
  rw [hemp, hself, if_neg (fun he => opponent_ne player
      (by rcases opponent_mem player with h | h <;> rw [h] at he ⊢ <;> simp [EMPTY, BLACK, WHITE] at he)),
    if_neg (fun he => opponent_ne player he.symm)] at hbalO
  have hstrict := @flip_fold_strict g.size row col player DIRECTIONS
    (updateCell g.board row col player) hWF1
    ⟨d, hd, can_flip_dir_transfer hin hd hs1 hs2 hs3⟩
  have hflip_eq : flip_discs g.size (updateCell g.board row col player) row col player =
      DIRECTIONS.foldl (fun b' d => flipDir g.size b' row col player d.1 d.2)
        (updateCell g.board row col player) := rfl
  rw [hflip_eq]
  omega

/-- Witness for C1: Black's opening move (2,3) on the initial 8×8 game. -/
theorem C1_witness :
    BoardWF (mkGame 8 2 false).size (mkGame 8 2 false).board ∧
    (2, 3) ∈ valid_moves (mkGame 8 2 false) BLACK ∧
    (cellAt (mkGame 8 2 false).board 2 3 = EMPTY ∧
    (∃ d ∈ DIRECTIONS,
      (scanRun (mkGame 8 2 false).size (mkGame 8 2 false).board (opponent BLACK) d.1 d.2
        (mkGame 8 2 false).size (2 + d.1) (3 + d.2) false).2.2 = true ∧
      inBounds (mkGame 8 2 false).size
        (scanRun (mkGame 8 2 false).size (mkGame 8 2 false).board (opponent BLACK) d.1 d.2
          (mkGame 8 2 false).size (2 + d.1) (3 + d.2) false).1
        (scanRun (mkGame 8 2 false).size (mkGame 8 2 false).board (opponent BLACK) d.1 d.2
          (mkGame 8 2 false).size (2 + d.1) (3 + d.2) false).2.1 = true ∧
      cellAt (mkGame 8 2 false).board
        (scanRun (mkGame 8 2 false).size (mkGame 8 2 false).board (opponent BLACK) d.1 d.2
          (mkGame 8 2 false).size (2 + d.1) (3 + d.2) false).1
        (scanRun (mkGame 8 2 false).size (mkGame 8 2 false).board (opponent BLACK) d.1 d.2
          (mkGame 8 2 false).size (2 + d.1) (3 + d.2) false).2.1 = BLACK) ∧
    countCells (mkGame 8 2 false).size
        (place_piece (mkGame 8 2 false) 2 3 BLACK).2.board (opponent BLACK) <
      countCells (mkGame 8 2 false).size (mkGame 8 2 false).board (opponent BLACK)) :=
  ⟨by unfold BoardWF; decide, by decide,
    C1_valid_moves_sound (mkGame 8 2 false) 2 3 BLACK (by unfold BoardWF; decide) (by decide)⟩

/-! Boundedness of the static evaluation and of every minimax value. -/

/-- All evaluation scores lie within `240·size²`, far below the `INF`
sentinel for the accepted board sizes. -/
def evalBound (sz : Nat) : Int := 240 * (sz : Int) * (sz : Int)

lemma position_weights_bounds (sz : Nat) (r c : Int) :
    -120 ≤ position_weights sz r c ∧ position_weights sz r c ≤ 120 := by
  unfold position_weights
  split
  · norm_num
  · split
    · norm_num
    · split <;> norm_num

lemma player_score_bounds (sz : Nat) (b : Board) (p : Nat) :
    -(120 * (sz : Int) * sz) ≤ player_score sz b p ∧
      player_score sz b p ≤ 120 * (sz : Int) * sz := by
  have hconst : ∀ x : Int,
      (∑ _r ∈ Finset.range sz, ∑ _c ∈ Finset.range sz, x) = sz * sz * x := by
    intro x
    simp only [Finset.sum_const, Finset.card_range, smul_eq_mul]
    ring
  constructor
  · have hle : (∑ _r ∈ Finset.range sz, ∑ _c ∈ Finset.range sz, (-120 : Int)) ≤
        player_score sz b p := by
      unfold player_score
      refine Finset.sum_le_sum fun r _ => Finset.sum_le_sum fun c _ => ?_
      split
      · exact (position_weights_bounds sz _ _).1
      · norm_num
    rw [hconst] at hle
    linarith
  · have hle : player_score sz b p ≤
        ∑ _r ∈ Finset.range sz, ∑ _c ∈ Finset.range sz, (120 : Int) := by
      unfold player_score
      refine Finset.sum_le_sum fun r _ => Finset.sum_le_sum fun c _ => ?_
      split
      · exact (position_weights_bounds sz _ _).2
      · norm_num
    rw [hconst] at hle
    linarith

lemma evaluate_board_bounds (sz : Nat) (b : Board) (p : Nat) :
    -evalBound sz ≤ evaluate_board sz b p ∧ evaluate_board sz b p ≤ evalBound sz := by
  unfold evaluate_board evalBound
  rw [opp_score_eq_player_score]
  have h1 := player_score_bounds sz b p
  have h2 := player_score_bounds sz b (opponent p)
  constructor <;> linarith

lemma evalBound_lt_INF {sz : Nat} (h : sz ≤ 20) : evalBound sz < INF := by
  unfold evalBound INF
  have hsz : (sz : Int) ≤ 20 := by exact_mod_cast h
  have hsznn : (0 : Int) ≤ (sz : Int) := Int.ofNat_nonneg sz
  nlinarith

/-- All cached transposition-table scores are genuine evaluation-range
values (the invariant of the session table). -/
def TableOK (sz : Nat) (t : Table) : Prop :=
  ∀ e ∈ t, -evalBound sz ≤ e.2 ∧ e.2 ≤ evalBound sz

lemma tableGet_mem {t : Table} {k : List Nat} {v : Int} (h : tableGet t k = some v) :
    ∃ e ∈ t, e.2 = v := by
  unfold tableGet at h
  cases hf : t.find? (fun e => e.1 == k) with
  | none => rw [hf] at h; exact Option.noConfusion h
  | some e =>
    rw [hf] at h
    exact ⟨e, List.mem_of_find?_eq_some hf, Option.some.inj h⟩

lemma TableOK.get {sz : Nat} {t : Table} (ht : TableOK sz t) {k : List Nat} {v : Int}
    (h : tableGet t k = some v) : -evalBound sz ≤ v ∧ v ≤ evalBound sz := by
  obtain ⟨e, he, rfl⟩ := tableGet_mem h
  exact ht e he

lemma TableOK.set {sz : Nat} {t : Table} (ht : TableOK sz t) {k : List Nat} {v : Int}
    (h1 : -evalBound sz ≤ v) (h2 : v ≤ evalBound sz) : TableOK sz (tableSet t k v) := by
  intro e he
  rcases List.mem_cons.mp he with rfl | he'
  · exact ⟨h1, h2⟩
  · exact ht e he'

/-! The move sorts are permutations. -/

lemma insertDescBy_perm (w : Int × Int → Int) (m : Int × Int) :
    ∀ l : List (Int × Int), (insertDescBy w m l).Perm (m :: l) := by
  intro l
  induction l with
  | nil => exact List.Perm.refl _
  | cons x xs ih =>
    unfold insertDescBy
    split
    · exact List.Perm.refl _
    · exact (List.Perm.cons x ih).trans (List.Perm.swap m x xs)

lemma insertAscBy_perm (w : Int × Int → Int) (m : Int × Int) :
    ∀ l : List (Int × Int), (insertAscBy w m l).Perm (m :: l) := by
  intro l
  induction l with
  | nil => exact List.Perm.refl _
  | cons x xs ih =>
    unfold insertAscBy
    split
    · exact List.Perm.refl _
    · exact (List.Perm.cons x ih).trans (List.Perm.swap m x xs)

lemma sortFold_perm (ins : (Int × Int) → List (Int × Int) → List (Int × Int))
    (hins : ∀ m acc, (ins m acc).Perm (m :: acc)) :
    ∀ (l acc : List (Int × Int)),
      (l.foldl (fun acc m => ins m acc) acc).Perm (acc ++ l) := by
  intro l
  induction l with
  | nil => intro acc; simp
  | cons m rest ih =>
    intro acc
    rw [List.foldl_cons]
    refine (ih (ins m acc)).trans ?_
    exact (List.Perm.append_right rest (hins m acc)).trans List.perm_middle.symm

lemma sortDescBy_perm (w : Int × Int → Int) (l : List (Int × Int)) :
    (sortDescBy w l).Perm l := by
  have := sortFold_perm (insertDescBy w) (insertDescBy_perm w) l []
  simpa using this

lemma sortAscBy_perm (w : Int × Int → Int) (l : List (Int × Int)) :
    (sortAscBy w l).Perm l := by
  have := sortFold_perm (insertAscBy w) (insertAscBy_perm w) l []
  simpa using this

lemma sortDescBy_ne_nil {w : Int × Int → Int} {l : List (Int × Int)} (h : l ≠ []) :
    sortDescBy w l ≠ [] := by
  intro hnil
  exact h (List.Perm.eq_nil ((sortDescBy_perm w l).symm.trans (hnil ▸ List.Perm.refl _)))

lemma sortAscBy_ne_nil {w : Int × Int → Int} {l : List (Int × Int)} (h : l ≠ []) :
    sortAscBy w l ≠ [] := by
  intro hnil
  exact h (List.Perm.eq_nil ((sortAscBy_perm w l).symm.trans (hnil ▸ List.Perm.refl _)))

lemma evalBound_nonneg (sz : Nat) : 0 ≤ evalBound sz := by
  unfold evalBound
  positivity

lemma minimaxMaxLoop_bounded {sz : Nat} {b : Board} {cur : Nat}
    (recur : Board → Int → Int → Table → Int × Table)
    (hrec : ∀ b' a bt t', TableOK sz t' →
      (-evalBound sz ≤ (recur b' a bt t').1 ∧ (recur b' a bt t').1 ≤ evalBound sz) ∧
      TableOK sz (recur b' a bt t').2) :
    ∀ (l : List (Int × Int)) (t : Table) (alpha beta max_eval : Int),
      TableOK sz t → max_eval ≤ evalBound sz →
      (minimaxMaxLoop recur sz b cur l t alpha beta max_eval).1 ≤ evalBound sz ∧
      (-evalBound sz ≤ (minimaxMaxLoop recur sz b cur l t alpha beta max_eval).1 ∨
        (l = [] ∧ (minimaxMaxLoop recur sz b cur l t alpha beta max_eval).1 = max_eval)) ∧
      TableOK sz (minimaxMaxLoop recur sz b cur l t alpha beta max_eval).2 := by
  intro l
  induction l with
  | nil =>
    intro t alpha beta max_eval ht hme
    exact ⟨hme, Or.inr ⟨rfl, rfl⟩, ht⟩
  | cons mv rest ih =>
    intro t alpha beta max_eval ht hme
    have hr := hrec (make_move_in_state sz (copy_board b) mv.1 mv.2 cur) alpha beta t ht
    have hstep : minimaxMaxLoop recur sz b cur (mv :: rest) t alpha beta max_eval =
        (if beta ≤ max alpha
            (recur (make_move_in_state sz (copy_board b) mv.1 mv.2 cur) alpha beta t).1 then
          (max max_eval (recur (make_move_in_state sz (copy_board b) mv.1 mv.2 cur) alpha beta t).1,
            (recur (make_move_in_state sz (copy_board b) mv.1 mv.2 cur) alpha beta t).2)
        else minimaxMaxLoop recur sz b cur rest
          (recur (make_move_in_state sz (copy_board b) mv.1 mv.2 cur) alpha beta t).2
          (max alpha (recur (make_move_in_state sz (copy_board b) mv.1 mv.2 cur) alpha beta t).1)
          beta
          (max max_eval
            (recur (make_move_in_state sz (copy_board b) mv.1 mv.2 cur) alpha beta t).1)) := rfl
    rw [hstep]
    split
    · refine ⟨?_, Or.inl ?_, hr.2⟩
      · exact max_le hme hr.1.2
      · exact le_trans hr.1.1 (le_max_right _ _)
    · have := ih (recur (make_move_in_state sz (copy_board b) mv.1 mv.2 cur) alpha beta t).2
        (max alpha (recur (make_move_in_state sz (copy_board b) mv.1 mv.2 cur) alpha beta t).1)
        beta
        (max max_eval (recur (make_move_in_state sz (copy_board b) mv.1 mv.2 cur) alpha beta t).1)
        hr.2 (max_le hme hr.1.2)
      refine ⟨this.1, Or.inl ?_, this.2.2⟩
      rcases this.2.1 with h | ⟨_, heq⟩
      · exact h
      · rw [heq]
        exact le_trans hr.1.1 (le_max_right _ _)

lemma minimaxMinLoop_bounded {sz : Nat} {b : Board} {cur : Nat}
    (recur : Board → Int → Int → Table → Int × Table)
    (hrec : ∀ b' a bt t', TableOK sz t' →
      (-evalBound sz ≤ (recur b' a bt t').1 ∧ (recur b' a bt t').1 ≤ evalBound sz) ∧
      TableOK sz (recur b' a bt t').2) :
    ∀ (l : List (Int × Int)) (t : Table) (alpha beta min_eval : Int),
      TableOK sz t → -evalBound sz ≤ min_eval →
      -evalBound sz ≤ (minimaxMinLoop recur sz b cur l t alpha beta min_eval).1 ∧
      ((minimaxMinLoop recur sz b cur l t alpha beta min_eval).1 ≤ evalBound sz ∨
        (l = [] ∧ (minimaxMinLoop recur sz b cur l t alpha beta min_eval).1 = min_eval)) ∧
      TableOK sz (minimaxMinLoop recur sz b cur l t alpha beta min_eval).2 := by
  intro l
  induction l with
  | nil =>
    intro t alpha beta min_eval ht hme
    exact ⟨hme, Or.inr ⟨rfl, rfl⟩, ht⟩
  | cons mv rest ih =>
    intro t alpha beta min_eval ht hme
    have hr := hrec (make_move_in_state sz (copy_board b) mv.1 mv.2 cur) alpha beta t ht
    have hstep : minimaxMinLoop recur sz b cur (mv :: rest) t alpha beta min_eval =
        (if min beta
            (recur (make_move_in_state sz (copy_board b) mv.1 mv.2 cur) alpha beta t).1 ≤ alpha then
          (min min_eval (recur (make_move_in_state sz (copy_board b) mv.1 mv.2 cur) alpha beta t).1,
            (recur (make_move_in_state sz (copy_board b) mv.1 mv.2 cur) alpha beta t).2)
        else minimaxMinLoop recur sz b cur rest
          (recur (make_move_in_state sz (copy_board b) mv.1 mv.2 cur) alpha beta t).2
          alpha
          (min beta (recur (make_move_in_state sz (copy_board b) mv.1 mv.2 cur) alpha beta t).1)
          (min min_eval
            (recur (make_move_in_state sz (copy_board b) mv.1 mv.2 cur) alpha beta t).1)) := rfl
    rw [hstep]
    split
    · refine ⟨le_min hme hr.1.1, Or.inl ?_, hr.2⟩
      exact le_trans (min_le_right _ _) hr.1.2
    · have := ih (recur (make_move_in_state sz (copy_board b) mv.1 mv.2 cur) alpha beta t).2
        alpha
        (min beta (recur (make_move_in_state sz (copy_board b) mv.1 mv.2 cur) alpha beta t).1)
        (min min_eval (recur (make_move_in_state sz (copy_board b) mv.1 mv.2 cur) alpha beta t).1)
        hr.2 (le_min hme hr.1.1)
      refine ⟨this.1, Or.inl ?_, this.2.2⟩
      rcases this.2.1 with h | ⟨_, heq⟩
      · exact h
      · rw [heq]
        exact le_trans (min_le_right _ _) hr.1.2

/-- Every value `minimax` returns or caches stays within the evaluation
range, and the table invariant is preserved. -/
lemma minimax_bounded (sz player : Nat) :
    ∀ (depth : Nat) (b : Board) (maximizing : Bool) (alpha beta : Int) (t : Table),
      TableOK sz t →
      (-evalBound sz ≤ (minimax sz player depth b maximizing alpha beta t).1 ∧
        (minimax sz player depth b maximizing alpha beta t).1 ≤ evalBound sz) ∧
      TableOK sz (minimax sz player depth b maximizing alpha beta t).2 := by
  intro depth
  induction depth with
  | zero =>
    intro b maximizing alpha beta t ht
    simp only [minimax]
    split
    case h_1 v heq => exact ⟨ht.get heq, ht⟩
    case h_2 heq =>
      have he := evaluate_board_bounds sz b player
      exact ⟨he, ht.set he.1 he.2⟩
  | succ depth ih =>
    intro b maximizing alpha beta t ht
    cases maximizing with
    | true =>
      simp only [minimax, Bool.not_true, reduceIte]
      split
      case h_1 v heq => exact ⟨ht.get heq, ht⟩
      case h_2 heq =>
        split
        · have he := evaluate_board_bounds sz b player
          exact ⟨he, ht.set he.1 he.2⟩
        · split
          · have hr := ih b false alpha beta t ht
            exact ⟨hr.1, hr.2.set hr.1.1 hr.1.2⟩
          · have hloop := @minimaxMaxLoop_bounded sz b player
              (fun b' a bt t' => minimax sz player depth b' false a bt t')
              (fun b' a bt t' ht' => ih b' false a bt t' ht')
              (sortDescBy (fun m => position_weights sz m.1 m.2)
                (get_valid_moves_in_state sz b player))
              t alpha beta (-INF) ht
              (le_trans (by unfold INF; norm_num) (evalBound_nonneg sz))
            rcases hloop.2.1 with hlow | ⟨hnil, _⟩
            · exact ⟨⟨hlow, hloop.1⟩, hloop.2.2.set hlow hloop.1⟩
            · exact absurd hnil (sortDescBy_ne_nil (by assumption))
    | false =>
      simp only [minimax, Bool.not_false, Bool.false_eq_true, if_false, reduceIte]
      split
      case h_1 v heq => exact ⟨ht.get heq, ht⟩
      case h_2 heq =>
        split
        · have he := evaluate_board_bounds sz b player
          exact ⟨he, ht.set he.1 he.2⟩
        · split
          · have hr := ih b true alpha beta t ht
            exact ⟨hr.1, hr.2.set hr.1.1 hr.1.2⟩
          · have hloop := @minimaxMinLoop_bounded sz b (opponent player)
              (fun b' a bt t' => minimax sz player depth b' true a bt t')
              (fun b' a bt t' ht' => ih b' true a bt t' ht')
              (sortAscBy (fun m => position_weights sz m.1 m.2)
                (get_valid_moves_in_state sz b (opponent player)))
              t alpha beta INF ht
              (le_trans (neg_nonpos_of_nonneg (evalBound_nonneg sz)) (by unfold INF; norm_num))
            rcases hloop.2.1 with hup | ⟨hnil, _⟩
            · exact ⟨⟨hloop.1, hup⟩, hloop.2.2.set hloop.1 hup⟩
            · exact absurd hnil (sortAscBy_ne_nil (by assumption))

/-- Once a best move is recorded, the candidate loop never returns `none`. -/
lemma getBestLoop_keep {sz : Nat} {b : Board} {player : Nat}
    (recur : Board → Int → Int → Table → Int × Table) :
    ∀ (l : List (Int × Int)) (t : Table) (alpha beta best_score : Int)
      (best_move : Option (Int × Int)), best_move ≠ none →
      (getBestLoop recur sz b player l t alpha beta best_score best_move).1 ≠ none := by
  intro l
  induction l with
  | nil => intro t alpha beta bs bm h; exact h
  | cons mv rest ih =>
    intro t alpha beta bs bm h
    cases hg : tableGet t (hash_board (make_move_in_state sz (copy_board b) mv.1 mv.2 player)) with
    | some v =>
      simp only [getBestLoop, hg]
      by_cases hX : v > bs
      · simp only [if_pos hX]
        split
        · simp
        · exact ih _ _ _ _ _ (by simp)
      · simp only [if_neg hX]
        split
        · exact h
        · exact ih _ _ _ _ _ h
    | none =>
      simp only [getBestLoop, hg]
      by_cases hX : (recur (make_move_in_state sz (copy_board b) mv.1 mv.2 player)
          alpha beta t).1 > bs
      · simp only [if_pos hX]
        split
        · simp
        · exact ih _ _ _ _ _ (by simp)
      · simp only [if_neg hX]
        split
        · exact h
        · exact ih _ _ _ _ _ h

/-- The candidate loop either keeps the incoming best move or answers with a
member of its candidate list. -/
lemma getBestLoop_none_or_mem {sz : Nat} {b : Board} {player : Nat}
    (recur : Board → Int → Int → Table → Int × Table) :
    ∀ (l : List (Int × Int)) (t : Table) (alpha beta best_score : Int)
      (best_move : Option (Int × Int)),
      (getBestLoop recur sz b player l t alpha beta best_score best_move).1 = best_move ∨
      ∃ mv ∈ l, (getBestLoop recur sz b player l t alpha beta best_score best_move).1 = some mv := by
  intro l
  induction l with
  | nil => intro t alpha beta bs bm; exact Or.inl rfl
  | cons mv rest ih =>
    intro t alpha beta bs bm
    cases hg : tableGet t (hash_board (make_move_in_state sz (copy_board b) mv.1 mv.2 player)) with
    | some v =>
      simp only [getBestLoop, hg]
      by_cases hX : v > bs
      · simp only [if_pos hX]
        split
        · exact Or.inr ⟨mv, List.mem_cons_self mv rest, rfl⟩
        · rcases ih t (alpha ⊔ v) beta v (some mv) with hkeep | ⟨mv', hmv', hres⟩
          · exact Or.inr ⟨mv, List.mem_cons_self mv rest, hkeep⟩
          · exact Or.inr ⟨mv', List.mem_cons_of_mem mv hmv', hres⟩
      · simp only [if_neg hX]
        split
        · exact Or.inl rfl
        · rcases ih t (alpha ⊔ bs) beta bs bm with hkeep | ⟨mv', hmv', hres⟩
          · exact Or.inl hkeep
          · exact Or.inr ⟨mv', List.mem_cons_of_mem mv hmv', hres⟩
    | none =>
      simp only [getBestLoop, hg]
      by_cases hX : (recur (make_move_in_state sz (copy_board b) mv.1 mv.2 player)
          alpha beta t).1 > bs
      · simp only [if_pos hX]
        split
        · exact Or.inr ⟨mv, List.mem_cons_self mv rest, rfl⟩
        · rcases ih _ _ _ _ (some mv) with hkeep | ⟨mv', hmv', hres⟩
          · exact Or.inr ⟨mv, List.mem_cons_self mv rest, hkeep⟩
          · exact Or.inr ⟨mv', List.mem_cons_of_mem mv hmv', hres⟩
      · simp only [if_neg hX]
        split
        · exact Or.inl rfl
        · rcases ih _ _ _ _ bm with hkeep | ⟨mv', hmv', hres⟩
          · exact Or.inl hkeep
          · exact Or.inr ⟨mv', List.mem_cons_of_mem mv hmv', hres⟩

/-- On a nonempty candidate list started from `-Infinity` the candidate loop
always selects some move: the first examined score already beats `-INF`. -/
lemma getBestLoop_some {sz : Nat} {b : Board} {player : Nat}
    (recur : Board → Int → Int → Table → Int × Table)
    (hrec : ∀ b' a bt t', TableOK sz t' →
      (-evalBound sz ≤ (recur b' a bt t').1 ∧ (recur b' a bt t').1 ≤ evalBound sz) ∧
      TableOK sz (recur b' a bt t').2)
    (hB : evalBound sz < INF)
    (mv : Int × Int) (rest : List (Int × Int)) (t : Table) (beta : Int)
    (ht : TableOK sz t) :
    (getBestLoop recur sz b player (mv :: rest) t (-INF) beta (-INF) none).1 ≠ none := by
  cases hg : tableGet t (hash_board (make_move_in_state sz (copy_board b) mv.1 mv.2 player)) with
  | some v =>
    have hv := ht.get hg
    have hX : v > -INF := by linarith
    simp only [getBestLoop, hg]
    simp only [if_pos hX]
    split
    · simp
    · exact getBestLoop_keep recur rest _ _ _ _ _ (by simp)
  | none =>
    have hr := (hrec (make_move_in_state sz (copy_board b) mv.1 mv.2 player) (-INF) beta t ht).1
    have hX : (recur (make_move_in_state sz (copy_board b) mv.1 mv.2 player) (-INF) beta t).1
        > -INF := by linarith
    simp only [getBestLoop, hg]
    simp only [if_pos hX]
    split
    · simp
    · exact getBestLoop_keep recur rest _ _ _ _ _ (by simp)

/-- C7: `get_best_move` returns `none` exactly when the player has no legal
move, and otherwise it returns a member of the player's legal-move list.
The size bound is the spec's well-formedness range (boards are 6..20 cells
wide); the table hypothesis is the session invariant — every cached score is
in evaluation range — which `minimax_bounded` shows every search preserves
from the empty table of a fresh session. -/
theorem C7_get_best_move_sound (sz ai_depth : Nat) (dynamic_depth : Bool)
    (b : Board) (player : Nat) (t : Table)
    (hsz : sz ≤ 20) (ht : TableOK sz t) :
    ((get_best_move sz ai_depth dynamic_depth b player t).1 = none ↔
      get_valid_moves_in_state sz b player = []) ∧
    ∀ mv, (get_best_move sz ai_depth dynamic_depth b player t).1 = some mv →
      mv ∈ get_valid_moves_in_state sz b player := by
  by_cases hvm : get_valid_moves_in_state sz b player = []
  · unfold get_best_move
    rw [if_pos hvm]
    exact ⟨⟨fun _ => hvm, fun _ => rfl⟩, fun mv hmv => Option.noConfusion hmv⟩
  · have hne : sortDescBy (fun m => position_weights sz m.1 m.2)
        (get_valid_moves_in_state sz b player) ≠ [] := sortDescBy_ne_nil hvm
    obtain ⟨mv0, rest, hsort⟩ : ∃ mv0 rest,
        sortDescBy (fun m => position_weights sz m.1 m.2)
          (get_valid_moves_in_state sz b player) = mv0 :: rest := by
      cases hs : sortDescBy (fun m => position_weights sz m.1 m.2)
          (get_valid_moves_in_state sz b player) with
      | nil => exact absurd hs hne
      | cons a l => exact ⟨a, l, rfl⟩
    unfold get_best_move
    rw [if_neg hvm]
    dsimp only
    rw [hsort]
    refine ⟨⟨fun hnone => ?_, fun h => absurd h hvm⟩, fun mv hmv => ?_⟩
    · exact absurd hnone (getBestLoop_some _
        (fun b' a bt t' ht' => minimax_bounded sz player _ b' false a bt t' ht')
        (evalBound_lt_INF hsz) mv0 rest t INF ht)
    · rcases getBestLoop_none_or_mem
        (fun b' a bt t' => minimax sz player
          ((if dynamic_depth then adjust_depth sz b else ai_depth) - 1) b' false a bt t')
        (mv0 :: rest) t (-INF) INF (-INF) none with hkeep | ⟨mv', hmv', hres⟩
      · rw [hkeep] at hmv
        exact Option.noConfusion hmv
      · rw [hres] at hmv
        obtain rfl := Option.some.inj hmv
        exact (sortDescBy_perm (fun m => position_weights sz m.1 m.2)
          (get_valid_moves_in_state sz b player)).mem_iff.mp (hsort ▸ hmv')

/-- Witness for C7: the AI query on the fresh size-6 game at depth 2. -/
theorem C7_witness :
    6 ≤ 20 ∧ TableOK 6 ([] : Table) ∧
    (((get_best_move 6 2 false (init_board 6) BLACK []).1 = none ↔
      get_valid_moves_in_state 6 (init_board 6) BLACK = []) ∧
    ∀ mv, (get_best_move 6 2 false (init_board 6) BLACK []).1 = some mv →
      mv ∈ get_valid_moves_in_state 6 (init_board 6) BLACK) :=
  ⟨by decide, fun e he => absurd he (List.not_mem_nil e),
    C7_get_best_move_sound 6 2 false (init_board 6) BLACK [] (by decide)
      (fun e he => absurd he (List.not_mem_nil e))⟩

/-! Claim C4: alpha-beta plus the content-keyed transposition table versus
the unpruned reference search. -/

/-- A concrete size-6 position (Black to move, searched to depth 4) on which
the memoized alpha-beta search and the unpruned reference disagree. -/
def cexBoard : Board :=
  [[0, 2, 0, 2, 1, 1],
   [1, 0, 2, 1, 0, 1],
   [2, 2, 1, 2, 1, 2],
   [2, 2, 2, 2, 1, 1],
   [1, 2, 2, 1, 2, 2],
   [2, 2, 1, 1, 2, 2]]

set_option maxRecDepth 100000 in
/-- Counterexample to C4 as stated: at depth 4 from `cexBoard`, `minimax`
(full window, empty table) returns −182 while the unpruned full search
returns −170 — a value memoized under a narrowed window is replayed at a
node where it is not exact. -/
theorem C4_counterexample :
    (minimax 6 BLACK 4 cexBoard true (-INF) INF []).1 ≠
      specFullMinimax 6 BLACK 4 cexBoard true := by
  decide

/-! Board hashing is injective on well-formed boards, and the game move
preserves well-formedness — the facts behind the amended C4 statement. -/

lemma flatten_inj_rows (sz : Nat) : ∀ (l1 l2 : List (List Nat)),
    (∀ r ∈ l1, r.length = sz) → (∀ r ∈ l2, r.length = sz) →
    l1.length = l2.length → l1.flatten = l2.flatten → l1 = l2 := by
  intro l1
  induction l1 with
  | nil =>
    intro l2 _ _ hlen _
    cases l2 with
    | nil => rfl
    | cons r2 t2 => exact absurd hlen (by simp)
  | cons r1 t1 ih =>
    intro l2 h1 h2 hlen hf
    cases l2 with
    | nil => exact absurd hlen (by simp)
    | cons r2 t2 =>
      simp only [List.flatten_cons] at hf
      have hr : r1.length = r2.length := by
        rw [h1 r1 (List.mem_cons_self r1 t1), h2 r2 (List.mem_cons_self r2 t2)]
      obtain ⟨hre, hte⟩ := List.append_inj hf hr
      have ht : t1 = t2 := ih t2 (fun r hr' => h1 r (List.mem_cons_of_mem r1 hr'))
        (fun r hr' => h2 r (List.mem_cons_of_mem r2 hr'))
        (by simpa using hlen) hte
      rw [hre, ht]

lemma hash_board_inj {sz : Nat} {b1 b2 : Board} (h1 : BoardWF sz b1)
    (h2 : BoardWF sz b2) (h : hash_board b1 = hash_board b2) : b1 = b2 :=
  flatten_inj_rows sz b1 b2 h1.2 h2.2 (h1.1.trans h2.1.symm) h

lemma BoardWF.writeCellsWF {sz : Nat} :
    ∀ (l : List (Int × Int)) {b : Board}, BoardWF sz b → ∀ (v : Nat),
      BoardWF sz (writeCells b l v) := by
  intro l
  induction l with
  | nil => intro b h v; exact h
  | cons q t ih => intro b h v; exact ih (h.update q.1 q.2 v) v

lemma BoardWF.make_move {sz : Nat} {b : Board} (h : BoardWF sz b)
    (row col : Int) (player : Nat) :
    BoardWF sz (make_move_in_state sz b row col player) := by
  unfold make_move_in_state
  have h0 : BoardWF sz (updateCell b row col player) := h.update row col player
  generalize updateCell b row col player = b0 at h0
  generalize DIRECTIONS = ds
  induction ds generalizing b0 with
  | nil => exact h0
  | cons d t ih => exact ih _ (h0.writeCellsWF _ player)

lemma tableGet_mem_eq {t : Table} {k : List Nat} {v : Int}
    (h : tableGet t k = some v) : (k, v) ∈ t := by
  unfold tableGet at h
  cases hf : t.find? (fun e => e.1 == k) with
  | none => rw [hf] at h; exact Option.noConfusion h
  | some e =>
    rw [hf] at h
    have hk : e.1 = k := by simpa using List.find?_some hf
    have hv : e.2 = v := Option.some.inj h
    have he : e = (k, v) := Prod.ext hk hv
    exact he ▸ List.mem_of_find?_eq_some hf

/-- Every table entry is the exact static evaluation of the well-formed board
hashing to its key — the state of the table after depth-limited searches that
only ever cached leaf evaluations. -/
def ExactTable (sz player : Nat) (t : Table) : Prop :=
  ∀ e ∈ t, ∃ b, BoardWF sz b ∧ e.1 = hash_board b ∧ e.2 = evaluate_board sz b player

lemma ExactTable.nil (sz player : Nat) : ExactTable sz player [] :=
  fun e he => absurd he (List.not_mem_nil e)

/-- At depth 0 over an exact table, `minimax` returns the exact static
evaluation and keeps the table exact. -/
lemma minimax_zero_exact {sz player : Nat} {t : Table} (ht : ExactTable sz player t)
    {b : Board} (hb : BoardWF sz b) (maximizing : Bool) (alpha beta : Int) :
    (minimax sz player 0 b maximizing alpha beta t).1 = evaluate_board sz b player ∧
    ExactTable sz player (minimax sz player 0 b maximizing alpha beta t).2 := by
  simp only [minimax]
  cases hg : tableGet t (hash_board b) with
  | some v =>
    obtain ⟨b', hb', hk, hv⟩ := ht _ (tableGet_mem_eq hg)
    have hbb : b = b' := hash_board_inj hb hb' hk
    refine ⟨?_, ht⟩
    show v = evaluate_board sz b player
    have hv' : v = evaluate_board sz b' player := hv
    rw [hv', hbb]
  | none =>
    refine ⟨rfl, fun e he => ?_⟩
    rcases List.mem_cons.mp he with rfl | he'
    · exact ⟨b, hb, rfl, rfl⟩
    · exact ht e he'

lemma foldl_max_perm {l1 l2 : List Int} (h : l1.Perm l2) :
    ∀ a : Int, l1.foldl max a = l2.foldl max a := by
  induction h with
  | nil => intro a; rfl
  | cons x _ ih => intro a; simp only [List.foldl_cons]; exact ih _
  | swap x y l => intro a; simp only [List.foldl_cons]; rw [sup_right_comm]
  | trans _ _ ih1 ih2 => intro a; exact (ih1 a).trans (ih2 a)

lemma foldl_min_perm {l1 l2 : List Int} (h : l1.Perm l2) :
    ∀ a : Int, l1.foldl min a = l2.foldl min a := by
  induction h with
  | nil => intro a; rfl
  | cons x _ ih => intro a; simp only [List.foldl_cons]; exact ih _
  | swap x y l => intro a; simp only [List.foldl_cons]; rw [inf_right_comm]
  | trans _ _ ih1 ih2 => intro a; exact (ih1 a).trans (ih2 a)

/-- Under the full window, the depth-1 maximizing loop never cuts off and
computes the running maximum of the children's exact evaluations. -/
lemma minimaxMaxLoop_exact {sz player : Nat} (hsz : sz ≤ 20) (b : Board) (cur : Nat) :
    ∀ (l : List (Int × Int)) (t : Table) (alpha me : Int),
      ExactTable sz player t → alpha < INF → me < INF →
      (∀ mv ∈ l, BoardWF sz (make_move_in_state sz (copy_board b) mv.1 mv.2 cur)) →
      (minimaxMaxLoop (fun b' a bt t' => minimax sz player 0 b' false a bt t')
          sz b cur l t alpha INF me).1
        = (l.map fun mv => evaluate_board sz
            (make_move_in_state sz (copy_board b) mv.1 mv.2 cur) player).foldl max me := by
  intro l
  induction l with
  | nil => intro t alpha me _ _ _ _; rfl
  | cons mv rest ih =>
    intro t alpha me ht ha hme hwf
    have hz := minimax_zero_exact ht (hwf mv (List.mem_cons_self mv rest)) false alpha INF
    have hstep : minimaxMaxLoop (fun b' a bt t' => minimax sz player 0 b' false a bt t')
        sz b cur (mv :: rest) t alpha INF me =
        (if INF ≤ max alpha (minimax sz player 0
            (make_move_in_state sz (copy_board b) mv.1 mv.2 cur) false alpha INF t).1 then
          (max me (minimax sz player 0
              (make_move_in_state sz (copy_board b) mv.1 mv.2 cur) false alpha INF t).1,
            (minimax sz player 0
              (make_move_in_state sz (copy_board b) mv.1 mv.2 cur) false alpha INF t).2)
        else minimaxMaxLoop (fun b' a bt t' => minimax sz player 0 b' false a bt t')
          sz b cur rest
          (minimax sz player 0
            (make_move_in_state sz (copy_board b) mv.1 mv.2 cur) false alpha INF t).2
          (max alpha (minimax sz player 0
            (make_move_in_state sz (copy_board b) mv.1 mv.2 cur) false alpha INF t).1)
          INF
          (max me (minimax sz player 0
            (make_move_in_state sz (copy_board b) mv.1 mv.2 cur) false alpha INF t).1)) := rfl
    rw [hstep, hz.1]
    have hev := evaluate_board_bounds sz
      (make_move_in_state sz (copy_board b) mv.1 mv.2 cur) player
    have hlt : evaluate_board sz
        (make_move_in_state sz (copy_board b) mv.1 mv.2 cur) player < INF :=
      lt_of_le_of_lt hev.2 (evalBound_lt_INF hsz)
    rw [if_neg (not_le.mpr (max_lt ha hlt))]
    simp only [List.map_cons, List.foldl_cons]
    exact ih _ _ _ hz.2 (max_lt ha hlt) (max_lt hme hlt)
      (fun m hm => hwf m (List.mem_cons_of_mem mv hm))

/-- Under the full window, the depth-1 minimizing loop never cuts off and
computes the running minimum of the children's exact evaluations. -/
lemma minimaxMinLoop_exact {sz player : Nat} (hsz : sz ≤ 20) (b : Board) (cur : Nat) :
    ∀ (l : List (Int × Int)) (t : Table) (beta me : Int),
      ExactTable sz player t → -INF < beta → -INF < me →
      (∀ mv ∈ l, BoardWF sz (make_move_in_state sz (copy_board b) mv.1 mv.2 cur)) →
      (minimaxMinLoop (fun b' a bt t' => minimax sz player 0 b' true a bt t')
          sz b cur l t (-INF) beta me).1
        = (l.map fun mv => evaluate_board sz
            (make_move_in_state sz (copy_board b) mv.1 mv.2 cur) player).foldl min me := by
  intro l
  induction l with
  | nil => intro t beta me _ _ _ _; rfl
  | cons mv rest ih =>
    intro t beta me ht hb hme hwf
    have hz := minimax_zero_exact ht (hwf mv (List.mem_cons_self mv rest)) true (-INF) beta
    have hstep : minimaxMinLoop (fun b' a bt t' => minimax sz player 0 b' true a bt t')
        sz b cur (mv :: rest) t (-INF) beta me =
        (if min beta (minimax sz player 0
            (make_move_in_state sz (copy_board b) mv.1 mv.2 cur) true (-INF) beta t).1 ≤ -INF then
          (min me (minimax sz player 0
              (make_move_in_state sz (copy_board b) mv.1 mv.2 cur) true (-INF) beta t).1,
            (minimax sz player 0
              (make_move_in_state sz (copy_board b) mv.1 mv.2 cur) true (-INF) beta t).2)
        else minimaxMinLoop (fun b' a bt t' => minimax sz player 0 b' true a bt t')
          sz b cur rest
          (minimax sz player 0
            (make_move_in_state sz (copy_board b) mv.1 mv.2 cur) true (-INF) beta t).2
          (-INF)
          (min beta (minimax sz player 0
            (make_move_in_state sz (copy_board b) mv.1 mv.2 cur) true (-INF) beta t).1)
          (min me (minimax sz player 0
            (make_move_in_state sz (copy_board b) mv.1 mv.2 cur) true (-INF) beta t).1)) := rfl
    rw [hstep, hz.1]
    have hev := evaluate_board_bounds sz
      (make_move_in_state sz (copy_board b) mv.1 mv.2 cur) player
    have hgt : -INF < evaluate_board sz
        (make_move_in_state sz (copy_board b) mv.1 mv.2 cur) player := by
      have := evalBound_lt_INF hsz
      linarith
    rw [if_neg (not_le.mpr (lt_min hb hgt))]
    simp only [List.map_cons, List.foldl_cons]
    exact ih _ _ _ hz.2 (lt_min hb hgt) (lt_min hme hgt)
      (fun m hm => hwf m (List.mem_cons_of_mem mv hm))

set_option maxHeartbeats 1000000 in
/-- At depth 1 from an empty table, the memoized alpha-beta search agrees
with the unpruned reference everywhere. -/
lemma minimax_one_full {sz player : Nat} (hsz : sz ≤ 20) {b : Board} (hwf : BoardWF sz b)
    (maximizing : Bool) :
    (minimax sz player (0 + 1) b maximizing (-INF) INF []).1 =
      specFullMinimax sz player (0 + 1) b maximizing := by
  have hININF : (-INF : Int) < INF := by unfold INF; norm_num
  cases maximizing with
  | true =>
    have hstep : minimax sz player (0 + 1) b true (-INF) INF [] =
        (if is_terminal_state sz b then
          (evaluate_board sz b player,
            tableSet [] (hash_board b) (evaluate_board sz b player))
        else if get_valid_moves_in_state sz b player = [] then
          ((minimax sz player 0 b false (-INF) INF []).1,
            tableSet (minimax sz player 0 b false (-INF) INF []).2 (hash_board b)
              (minimax sz player 0 b false (-INF) INF []).1)
        else
          ((minimaxMaxLoop (fun b' a bt t' => minimax sz player 0 b' false a bt t')
              sz b player
              (sortDescBy (fun m => position_weights sz m.1 m.2)
                (get_valid_moves_in_state sz b player)) [] (-INF) INF (-INF)).1,
            tableSet
              (minimaxMaxLoop (fun b' a bt t' => minimax sz player 0 b' false a bt t')
                sz b player
                (sortDescBy (fun m => position_weights sz m.1 m.2)
                  (get_valid_moves_in_state sz b player)) [] (-INF) INF (-INF)).2
              (hash_board b)
              (minimaxMaxLoop (fun b' a bt t' => minimax sz player 0 b' false a bt t')
                sz b player
                (sortDescBy (fun m => position_weights sz m.1 m.2)
                  (get_valid_moves_in_state sz b player)) [] (-INF) INF (-INF)).1)) := rfl
    rw [hstep]
    by_cases hterm : is_terminal_state sz b
    · rw [if_pos hterm]
      simp only [specFullMinimax, hterm, reduceIte]
    · rw [if_neg hterm]
      by_cases hvm : get_valid_moves_in_state sz b player = []
      · rw [if_pos hvm]
        simp only [specFullMinimax, hterm, hvm, reduceIte, Bool.not_true,
          Bool.false_eq_true, if_false]
        exact (minimax_zero_exact (ExactTable.nil sz player) hwf false (-INF) INF).1
      · rw [if_neg hvm]
        simp only [specFullMinimax, hterm, hvm, reduceIte, Bool.false_eq_true, if_false]
        have hL := minimaxMaxLoop_exact hsz b player
          (sortDescBy (fun m => position_weights sz m.1 m.2)
            (get_valid_moves_in_state sz b player)) [] (-INF) (-INF)
          (ExactTable.nil sz player) hININF hININF
          (fun mv _ => hwf.make_move mv.1 mv.2 player)
        have hP := foldl_max_perm
          ((sortDescBy_perm (fun m => position_weights sz m.1 m.2)
            (get_valid_moves_in_state sz b player)).map
            (fun mv => evaluate_board sz
              (make_move_in_state sz (copy_board b) mv.1 mv.2 player) player)) (-INF)
        exact hL.trans hP
  | false =>
    have hstep : minimax sz player (0 + 1) b false (-INF) INF [] =
        (if is_terminal_state sz b then
          (evaluate_board sz b player,
            tableSet [] (hash_board b) (evaluate_board sz b player))
        else if get_valid_moves_in_state sz b (opponent player) = [] then
          ((minimax sz player 0 b true (-INF) INF []).1,
            tableSet (minimax sz player 0 b true (-INF) INF []).2 (hash_board b)
              (minimax sz player 0 b true (-INF) INF []).1)
        else
          ((minimaxMinLoop (fun b' a bt t' => minimax sz player 0 b' true a bt t')
              sz b (opponent player)
              (sortAscBy (fun m => position_weights sz m.1 m.2)
                (get_valid_moves_in_state sz b (opponent player))) [] (-INF) INF INF).1,
            tableSet
              (minimaxMinLoop (fun b' a bt t' => minimax sz player 0 b' true a bt t')
                sz b (opponent player)
                (sortAscBy (fun m => position_weights sz m.1 m.2)
                  (get_valid_moves_in_state sz b (opponent player))) [] (-INF) INF INF).2
              (hash_board b)
              (minimaxMinLoop (fun b' a bt t' => minimax sz player 0 b' true a bt t')
                sz b (opponent player)
                (sortAscBy (fun m => position_weights sz m.1 m.2)
                  (get_valid_moves_in_state sz b (opponent player))) [] (-INF) INF INF).1)) := rfl
    rw [hstep]
    by_cases hterm : is_terminal_state sz b
    · rw [if_pos hterm]
      simp only [specFullMinimax, hterm, reduceIte]
    · rw [if_neg hterm]
      by_cases hvm : get_valid_moves_in_state sz b (opponent player) = []
      · rw [if_pos hvm]
        simp only [specFullMinimax, hterm, hvm, reduceIte, Bool.not_false,
          Bool.false_eq_true, if_false]
        exact (minimax_zero_exact (ExactTable.nil sz player) hwf true (-INF) INF).1
      · rw [if_neg hvm]
        simp only [specFullMinimax, hterm, hvm, reduceIte, Bool.false_eq_true, if_false]
        have hL := minimaxMinLoop_exact hsz b (opponent player)
          (sortAscBy (fun m => position_weights sz m.1 m.2)
            (get_valid_moves_in_state sz b (opponent player))) [] INF INF
          (ExactTable.nil sz player) hININF hININF
          (fun mv _ => hwf.make_move mv.1 mv.2 (opponent player))
        have hP := foldl_min_perm
          ((sortAscBy_perm (fun m => position_weights sz m.1 m.2)
            (get_valid_moves_in_state sz b (opponent player))).map
            (fun mv => evaluate_board sz
              (make_move_in_state sz (copy_board b) mv.1 mv.2 (opponent player)) player)) INF
        exact hL.trans hP

/-! Toward the depth-2 equality with the unpruned reference: one-step
equations for `minimax` and `specFullMinimax` at successor depth (with the
inner depth left symbolic, so the recursive occurrences stay folded). -/

lemma minimax_zero_miss {sz player : Nat} {b : Board} {maximizing : Bool}
    {alpha beta : Int} {t : Table} (hmiss : tableGet t (hash_board b) = none) :
    minimax sz player 0 b maximizing alpha beta t =
      (evaluate_board sz b player,
        tableSet t (hash_board b) (evaluate_board sz b player)) := by
  simp only [minimax, hmiss]

lemma minimax_succ_none {sz player depth : Nat} {b : Board} {maximizing : Bool}
    {alpha beta : Int} {t : Table} (hmiss : tableGet t (hash_board b) = none) :
    minimax sz player (depth + 1) b maximizing alpha beta t =
      (if is_terminal_state sz b then
        (evaluate_board sz b player,
          tableSet t (hash_board b) (evaluate_board sz b player))
      else if get_valid_moves_in_state sz b
          (if maximizing then player else opponent player) = [] then
        ((minimax sz player depth b (!maximizing) alpha beta t).1,
          tableSet (minimax sz player depth b (!maximizing) alpha beta t).2
            (hash_board b) (minimax sz player depth b (!maximizing) alpha beta t).1)
      else if maximizing then
        ((minimaxMaxLoop (fun b' a bt t' => minimax sz player depth b' false a bt t')
            sz b (if maximizing then player else opponent player)
            (sortDescBy (fun m => position_weights sz m.1 m.2)
              (get_valid_moves_in_state sz b
                (if maximizing then player else opponent player)))
            t alpha beta (-INF)).1,
          tableSet
            (minimaxMaxLoop (fun b' a bt t' => minimax sz player depth b' false a bt t')
              sz b (if maximizing then player else opponent player)
              (sortDescBy (fun m => position_weights sz m.1 m.2)
                (get_valid_moves_in_state sz b
                  (if maximizing then player else opponent player)))
              t alpha beta (-INF)).2
            (hash_board b)
            (minimaxMaxLoop (fun b' a bt t' => minimax sz player depth b' false a bt t')
              sz b (if maximizing then player else opponent player)
              (sortDescBy (fun m => position_weights sz m.1 m.2)
                (get_valid_moves_in_state sz b
                  (if maximizing then player else opponent player)))
              t alpha beta (-INF)).1)
      else
        ((minimaxMinLoop (fun b' a bt t' => minimax sz player depth b' true a bt t')
            sz b (if maximizing then player else opponent player)
            (sortAscBy (fun m => position_weights sz m.1 m.2)
              (get_valid_moves_in_state sz b
                (if maximizing then player else opponent player)))
            t alpha beta INF).1,
          tableSet
            (minimaxMinLoop (fun b' a bt t' => minimax sz player depth b' true a bt t')
              sz b (if maximizing then player else opponent player)
              (sortAscBy (fun m => position_weights sz m.1 m.2)
                (get_valid_moves_in_state sz b
                  (if maximizing then player else opponent player)))
              t alpha beta INF).2
            (hash_board b)
            (minimaxMinLoop (fun b' a bt t' => minimax sz player depth b' true a bt t')
              sz b (if maximizing then player else opponent player)
              (sortAscBy (fun m => position_weights sz m.1 m.2)
                (get_valid_moves_in_state sz b
                  (if maximizing then player else opponent player)))
              t alpha beta INF).1)) := by
  simp only [minimax, hmiss]

lemma specFull_succ {sz player depth : Nat} {b : Board} {maximizing : Bool} :
    specFullMinimax sz player (depth + 1) b maximizing =
      (if is_terminal_state sz b then evaluate_board sz b player
      else if get_valid_moves_in_state sz b
          (if maximizing then player else opponent player) = [] then
        specFullMinimax sz player depth b (!maximizing)
      else if maximizing then
        ((get_valid_moves_in_state sz b
            (if maximizing then player else opponent player)).map fun mv =>
          specFullMinimax sz player depth
            (make_move_in_state sz (copy_board b) mv.1 mv.2
              (if maximizing then player else opponent player)) false).foldl max (-INF)
      else
        ((get_valid_moves_in_state sz b
            (if maximizing then player else opponent player)).map fun mv =>
          specFullMinimax sz player depth
            (make_move_in_state sz (copy_board b) mv.1 mv.2
              (if maximizing then player else opponent player)) true).foldl min INF) := by
  simp only [specFullMinimax]

/-! Facts about the snapshot move list needed for the depth-2 argument:
every member sits on an empty in-bounds cell, and the list has no
duplicates. -/

lemma is_valid_move_empty {sz : Nat} {b : Board} {row col : Int} {p : Nat}
    (h : is_valid_move_in_state sz b row col p = true) : cellAt b row col = EMPTY := by
  by_contra hne
  unfold is_valid_move_in_state at h
  rw [if_pos hne] at h
  exact Bool.false_ne_true h

lemma of_mem_get_valid_moves {sz : Nat} {b : Board} {p : Nat} {mv : Int × Int}
    (h : mv ∈ get_valid_moves_in_state sz b p) :
    inBounds sz mv.1 mv.2 = true ∧ cellAt b mv.1 mv.2 = EMPTY := by
  unfold get_valid_moves_in_state at h
  obtain ⟨row, hrow, hmv⟩ := List.mem_flatten.mp h
  obtain ⟨r, hr, rfl⟩ := List.mem_map.mp hrow
  obtain ⟨c, hc, hkeep⟩ := List.mem_filterMap.mp hmv
  by_cases hv : is_valid_move_in_state sz b (r : Int) (c : Int) p = true
  · rw [if_pos hv] at hkeep
    obtain rfl := Option.some.inj hkeep
    dsimp only
    refine ⟨?_, is_valid_move_empty hv⟩
    rw [inBounds_iff]
    have := List.mem_range.mp hr
    have := List.mem_range.mp hc
    omega
  · rw [if_neg hv] at hkeep
    exact Option.noConfusion hkeep

lemma mem_valid_row_fst {sz : Nat} {b : Board} {p : Nat} {r : Nat} {x : Int × Int}
    (hx : x ∈ (List.range sz).filterMap fun (c : Nat) =>
      if is_valid_move_in_state sz b (r : Int) (c : Int) p then
        some ((r : Int), (c : Int))
      else none) : x.1 = (r : Int) := by
  obtain ⟨c, _, hkeep⟩ := List.mem_filterMap.mp hx
  by_cases hv : is_valid_move_in_state sz b (r : Int) (c : Int) p = true
  · rw [if_pos hv] at hkeep
    obtain rfl := Option.some.inj hkeep
    rfl
  · rw [if_neg hv] at hkeep
    exact Option.noConfusion hkeep

lemma get_valid_moves_nodup (sz : Nat) (b : Board) (p : Nat) :
    (get_valid_moves_in_state sz b p).Nodup := by
  unfold get_valid_moves_in_state
  rw [List.nodup_flatten]
  constructor
  · intro l hl
    obtain ⟨r, _, rfl⟩ := List.mem_map.mp hl
    refine List.Nodup.filterMap ?_ (List.nodup_range sz)
    intro c c' x hx hx'
    by_cases hv : is_valid_move_in_state sz b (r : Int) (c : Int) p = true
    · rw [if_pos hv] at hx
      by_cases hv' : is_valid_move_in_state sz b (r : Int) (c' : Int) p = true
      · rw [if_pos hv'] at hx'
        have := (Option.mem_some_iff.mp hx).trans (Option.mem_some_iff.mp hx').symm
        have hc : (c : Int) = (c' : Int) := congrArg Prod.snd this
        exact_mod_cast hc
      · rw [if_neg hv'] at hx'
        exact absurd hx' (Option.not_mem_none x)
    · rw [if_neg hv] at hx
      exact absurd hx (Option.not_mem_none x)
  · rw [List.pairwise_map]
    refine List.Pairwise.imp_of_mem ?_ (List.nodup_range sz)
    intro r r' hr hr' hne x hx hx'
    have h1 := mem_valid_row_fst hx
    have h2 := mem_valid_row_fst hx'
    exact hne (by exact_mod_cast h1.symm.trans h2)

/-! `make_move_in_state` as a flip relation over the placed board: the move
cell gains the mover, every other cell is unchanged or flipped from the
opponent.  This pins down the empty-cell count of every searched child. -/

lemma makeMoveFlipRun_mem {sz : Nat} {b : Board} {o p : Nat} {dr dc : Int} :
    ∀ (fuel : Nat) (r c : Int) (acc : List (Int × Int)),
      (∀ q ∈ acc, inBounds sz q.1 q.2 = true ∧ cellAt b q.1 q.2 = o) →
      ∀ q ∈ makeMoveFlipRun sz b o p dr dc fuel r c acc,
        inBounds sz q.1 q.2 = true ∧ cellAt b q.1 q.2 = o := by
  intro fuel
  induction fuel with
  | zero => intro r c acc _ q hq; cases hq
  | succ fuel ih =>
    intro r c acc hacc q hq
    simp only [makeMoveFlipRun] at hq
    by_cases hin : inBounds sz r c = true
    · rw [if_pos hin] at hq
      by_cases hcell : cellAt b r c = o
      · rw [if_pos hcell] at hq
        refine ih (r + dr) (c + dc) (acc ++ [(r, c)]) ?_ q hq
        intro q' hq'
        rcases List.mem_append.mp hq' with h | h
        · exact hacc q' h
        · rw [List.mem_singleton.mp h]
          exact ⟨hin, hcell⟩
      · rw [if_neg hcell] at hq
        split at hq
        · exact hacc q hq
        · cases hq
    · rw [if_neg hin] at hq
      cases hq

lemma makeMove_fold_flipsTo {sz : Nat} {p : Nat} (hop : p ≠ opponent p)
    (row col : Int) :
    ∀ (ds : List (Int × Int)) (base cur : Board), BoardWF sz cur →
      FlipsTo sz (opponent p) p base cur →
      FlipsTo sz (opponent p) p base
        (ds.foldl (fun b' d => writeCells b'
          (makeMoveFlipRun sz b' (opponent p) p d.1 d.2 sz
            (row + d.1) (col + d.2) []) p) cur) ∧
      BoardWF sz (ds.foldl (fun b' d => writeCells b'
        (makeMoveFlipRun sz b' (opponent p) p d.1 d.2 sz
          (row + d.1) (col + d.2) []) p) cur) := by
  intro ds
  induction ds with
  | nil => intro base cur hWF hrel; exact ⟨hrel, hWF⟩
  | cons d rest ih =>
    intro base cur hWF hrel
    have hcells : ∀ q ∈ makeMoveFlipRun sz cur (opponent p) p d.1 d.2 sz
        (row + d.1) (col + d.2) [],
        inBounds sz q.1 q.2 = true ∧ cellAt base q.1 q.2 = opponent p := by
      intro q hq
      have hc := makeMoveFlipRun_mem sz (row + d.1) (col + d.2) []
        (fun q' hq' => absurd hq' (List.not_mem_nil q')) q hq
      exact ⟨hc.1, hrel.cellAt_opp hop hc.1 hc.2⟩
    have hw := writeCells_flipsTo
      (makeMoveFlipRun sz cur (opponent p) p d.1 d.2 sz (row + d.1) (col + d.2) [])
      cur hWF hrel hcells
    exact ih base _ hw.2 hw.1

lemma make_move_flipsTo {sz : Nat} {b : Board} (hWF : BoardWF sz b) (row col : Int)
    {p : Nat} (hop : p ≠ opponent p) :
    FlipsTo sz (opponent p) p (updateCell b row col p)
      (make_move_in_state sz b row col p) ∧
    BoardWF sz (make_move_in_state sz b row col p) := by
  unfold make_move_in_state
  exact makeMove_fold_flipsTo hop row col DIRECTIONS (updateCell b row col p)
    (updateCell b row col p) (hWF.update row col p)
    (FlipsTo.refl sz (opponent p) p (updateCell b row col p))

lemma countCells_empty_of_flipsTo {sz o p : Nat} {b b' : Board}
    (hrel : FlipsTo sz o p b b') (ho : o ≠ EMPTY) (hp : p ≠ EMPTY) :
    countCells sz b' EMPTY = countCells sz b EMPTY := by
  unfold countCells
  refine Finset.sum_congr rfl fun r hr => Finset.sum_congr rfl fun c hc => ?_
  have hin : inBounds sz (r : Int) (c : Int) = true := by
    rw [inBounds_iff]
    have := Finset.mem_range.mp hr
    have := Finset.mem_range.mp hc
    omega
  rcases hrel _ _ hin with h | ⟨ho', hp'⟩
  · rw [h]
  · rw [ho', hp', if_neg hp, if_neg ho]

lemma make_move_emptyCount {sz : Nat} {b : Board} (hWF : BoardWF sz b) {row col : Int}
    (hin : inBounds sz row col = true) (he : cellAt b row col = EMPTY) {p : Nat}
    (hp : p = BLACK ∨ p = WHITE) :
    countCells sz (make_move_in_state sz b row col p) EMPTY + 1 =
      countCells sz b EMPTY := by
  have hop : p ≠ opponent p := fun hc => opponent_ne p hc.symm
  have hpe : p ≠ EMPTY := by rcases hp with rfl | rfl <;> decide
  have hoe : opponent p ≠ EMPTY := by
    rcases opponent_mem p with h | h <;> rw [h] <;> decide
  have hrel := (make_move_flipsTo hWF row col hop).1
  have hcount := countCells_empty_of_flipsTo hrel hoe hpe
  have hbal := @countCells_update_balance sz b row col hin p EMPTY
  rw [he, cellAt_updateCell_self hWF hin, if_pos rfl, if_neg hpe] at hbal
  omega

lemma cellAt_make_move_self {sz : Nat} {b : Board} (hWF : BoardWF sz b) (row col : Int)
    (hin : inBounds sz row col = true) (p : Nat) :
    cellAt (make_move_in_state sz b row col p) row col = p := by
  have hop : p ≠ opponent p := fun hc => opponent_ne p hc.symm
  rcases (make_move_flipsTo hWF row col hop).1 row col hin with h | ⟨ho', _⟩
  · rw [h, cellAt_updateCell_self hWF hin]
  · rw [cellAt_updateCell_self hWF hin] at ho'
    exact absurd ho' hop

lemma cellAt_make_move_empty_other {sz : Nat} {b : Board} (hWF : BoardWF sz b)
    {row col r c : Int} (hin : inBounds sz row col = true)
    (hin2 : inBounds sz r c = true) (hne : (r, c) ≠ (row, col))
    (he : cellAt b r c = EMPTY) (p : Nat) (hpe : p ≠ EMPTY)
    (hoe : opponent p ≠ EMPTY) :
    cellAt (make_move_in_state sz b row col p) r c = EMPTY := by
  have hop : p ≠ opponent p := fun hc => opponent_ne p hc.symm
  have hbase : cellAt (updateCell b row col p) r c = EMPTY := by
    rw [cellAt_updateCell_ne (toNat_ne_of_inBounds hin hin2 hne)]
    exact he
  rcases (make_move_flipsTo hWF row col hop).1 r c hin2 with h | ⟨ho', _⟩
  · rw [h]
    exact hbase
  · rw [hbase] at ho'
    exact absurd ho'.symm hoe

lemma make_move_ne {sz : Nat} {b : Board} (hWF : BoardWF sz b) {mv mv' : Int × Int}
    (h1 : inBounds sz mv.1 mv.2 = true) (he1 : cellAt b mv.1 mv.2 = EMPTY)
    (h2 : inBounds sz mv'.1 mv'.2 = true) (hne : mv ≠ mv') {p : Nat}
    (hp : p = BLACK ∨ p = WHITE) :
    make_move_in_state sz b mv.1 mv.2 p ≠ make_move_in_state sz b mv'.1 mv'.2 p := by
  intro hcontra
  have hpe : p ≠ EMPTY := by rcases hp with rfl | rfl <;> decide
  have hoe : opponent p ≠ EMPTY := by
    rcases opponent_mem p with h | h <;> rw [h] <;> decide
  have hs : cellAt (make_move_in_state sz b mv.1 mv.2 p) mv.1 mv.2 = p :=
    cellAt_make_move_self hWF mv.1 mv.2 h1 p
  have ho : cellAt (make_move_in_state sz b mv'.1 mv'.2 p) mv.1 mv.2 = EMPTY :=
    cellAt_make_move_empty_other hWF h2 h1
      (fun hq => hne (Prod.ext (congrArg Prod.fst hq) (congrArg Prod.snd hq)))
      he1 p hpe hoe
  rw [hcontra, ho] at hs
  exact hpe hs.symm

/-- The table invariant of a running depth-2 search: every entry is keyed by
the hash of some well-formed board, and entries whose board has fewer than
`n` empty cells (the grandchild layer) hold its exact static evaluation. -/
def TableBelow (sz player n : Nat) (t : Table) : Prop :=
  ∀ e ∈ t, ∃ be, BoardWF sz be ∧ e.1 = hash_board be ∧
    (countCells sz be EMPTY < n → e.2 = evaluate_board sz be player)

lemma TableBelow.empty (sz player n : Nat) : TableBelow sz player n [] :=
  fun e he => absurd he (List.not_mem_nil e)

lemma tableGet_none_iff {t : Table} {k : List Nat} :
    tableGet t k = none ↔ ∀ e ∈ t, e.1 ≠ k := by
  unfold tableGet
  constructor
  · intro h e he hk
    cases hf : t.find? (fun e => e.1 == k) with
    | none =>
      rw [List.find?_eq_none] at hf
      exact hf e he (by simp [hk])
    | some e' =>
      rw [hf] at h
      exact Option.noConfusion h
  · intro h
    cases hf : t.find? (fun e => e.1 == k) with
    | none => rfl
    | some e' =>
      have hp := List.find?_some hf
      have hmem := List.mem_of_find?_eq_some hf
      exact absurd (by simpa using hp) (h e' hmem)

/-- Depth-0 search over a `TableBelow` table on a board of the grandchild
layer: the returned value is the exact evaluation and the only possible new
entry is that board's own exact entry. -/
lemma minimax_zero_below {sz player n : Nat} {t : Table} (ht : TableBelow sz player n t)
    {g : Board} (hg : BoardWF sz g) (hlt : countCells sz g EMPTY < n)
    (maximizing : Bool) (alpha beta : Int) :
    (minimax sz player 0 g maximizing alpha beta t).1 = evaluate_board sz g player ∧
    ∀ e ∈ (minimax sz player 0 g maximizing alpha beta t).2,
      e ∈ t ∨ e = (hash_board g, evaluate_board sz g player) := by
  simp only [minimax]
  cases hget : tableGet t (hash_board g) with
  | some v =>
    obtain ⟨be, hbe, hk, himp⟩ := ht _ (tableGet_mem_eq hget)
    have hgb : g = be := hash_board_inj hg hbe hk
    refine ⟨?_, fun e he => Or.inl he⟩
    show v = evaluate_board sz g player
    have hv : v = evaluate_board sz be player := himp (by rw [← hgb]; exact hlt)
    rw [hv, ← hgb]
  | none =>
    refine ⟨rfl, fun e he => ?_⟩
    rcases List.mem_cons.mp he with rfl | he'
    · exact Or.inr rfl
    · exact Or.inl he'

/-! Elementary facts about running folds of `min` and `max`. -/

lemma foldl_min_le_init : ∀ (l : List Int) (a : Int), l.foldl min a ≤ a := by
  intro l
  induction l with
  | nil => intro a; exact le_refl a
  | cons v rest ih => intro a; exact le_trans (ih (min a v)) (min_le_left a v)

lemma le_foldl_min {c : Int} : ∀ (l : List Int) (a : Int), c ≤ a → (∀ v ∈ l, c ≤ v) →
    c ≤ l.foldl min a := by
  intro l
  induction l with
  | nil => intro a ha _; exact ha
  | cons v rest ih =>
    intro a ha hl
    exact ih (min a v) (le_min ha (hl v (List.mem_cons_self v rest)))
      (fun v' hv' => hl v' (List.mem_cons_of_mem v hv'))

lemma foldl_max_init_le : ∀ (l : List Int) (a : Int), a ≤ l.foldl max a := by
  intro l
  induction l with
  | nil => intro a; exact le_refl a
  | cons v rest ih => intro a; exact le_trans (le_max_left a v) (ih (max a v))

lemma foldl_max_le {c : Int} : ∀ (l : List Int) (a : Int), a ≤ c → (∀ v ∈ l, v ≤ c) →
    l.foldl max a ≤ c := by
  intro l
  induction l with
  | nil => intro a ha _; exact ha
  | cons v rest ih =>
    intro a ha hl
    exact ih (max a v) (max_le ha (hl v (List.mem_cons_self v rest)))
      (fun v' hv' => hl v' (List.mem_cons_of_mem v hv'))

/-- The depth-1 reference value stays within the evaluation range. -/
lemma specFull_one_bounds (sz player : Nat) (b : Board) (m : Bool) :
    -evalBound sz ≤ specFullMinimax sz player (0 + 1) b m ∧
    specFullMinimax sz player (0 + 1) b m ≤ evalBound sz := by
  have hB := evalBound_nonneg sz
  have hIB : (-INF : Int) ≤ 0 := by unfold INF; norm_num
  have hI0 : (0 : Int) ≤ INF := by unfold INF; norm_num
  rw [specFull_succ]
  by_cases hterm : is_terminal_state sz b
  · rw [if_pos hterm]
    exact evaluate_board_bounds sz b player
  · rw [if_neg hterm]
    cases m with
    | true =>
      simp only [reduceIte]
      by_cases hvm : get_valid_moves_in_state sz b player = []
      · rw [if_pos hvm]
        exact evaluate_board_bounds sz b player
      · rw [if_neg hvm]
        cases hl : get_valid_moves_in_state sz b player with
        | nil => exact absurd hl hvm
        | cons mv rest =>
          constructor
          · simp only [specFullMinimax, List.map_cons, List.foldl_cons]
            refine le_trans ?_ (foldl_max_init_le _ _)
            exact le_trans (evaluate_board_bounds sz _ player).1 (le_max_right _ _)
          · refine foldl_max_le _ _ (by linarith) ?_
            intro v hv
            obtain ⟨mv', _, rfl⟩ := List.mem_map.mp hv
            simp only [specFullMinimax]
            exact (evaluate_board_bounds sz _ player).2
    | false =>
      simp only [Bool.false_eq_true, if_false]
      by_cases hvm : get_valid_moves_in_state sz b (opponent player) = []
      · rw [if_pos hvm]
        exact evaluate_board_bounds sz b player
      · rw [if_neg hvm]
        cases hl : get_valid_moves_in_state sz b (opponent player) with
        | nil => exact absurd hl hvm
        | cons mv rest =>
          constructor
          · refine le_foldl_min _ _ (by linarith) ?_
            intro v hv
            obtain ⟨mv', _, rfl⟩ := List.mem_map.mp hv
            simp only [specFullMinimax]
            exact (evaluate_board_bounds sz _ player).1
          · simp only [specFullMinimax, List.map_cons, List.foldl_cons]
            refine le_trans (foldl_min_le_init _ _) ?_
            exact le_trans (min_le_right _ _) (evaluate_board_bounds sz _ player).2

/-- The minimizing loop of a depth-1 node over exact grandchild evaluations:
either it finishes and returns the running minimum of all children, or the
narrowed `alpha` cut it short — and then the result is a fail-low value that
over-approximates the true minimum but stays at or below `alpha`.  The table
only gains grandchild-layer exact entries. -/
lemma minLoopFail {sz player n : Nat} {b1 : Board} {cur : Nat} :
    ∀ (l : List (Int × Int)) (t : Table) (alpha beta me : Int),
      TableBelow sz player n t →
      (∀ mv ∈ l, BoardWF sz (make_move_in_state sz (copy_board b1) mv.1 mv.2 cur) ∧
        countCells sz (make_move_in_state sz (copy_board b1) mv.1 mv.2 cur) EMPTY < n) →
      me ≤ beta →
      ((minimaxMinLoop (fun b' a bt t' => minimax sz player 0 b' true a bt t')
          sz b1 cur l t alpha beta me).1 =
        (l.map fun mv => evaluate_board sz
          (make_move_in_state sz (copy_board b1) mv.1 mv.2 cur) player).foldl min me
       ∨ ((minimaxMinLoop (fun b' a bt t' => minimax sz player 0 b' true a bt t')
            sz b1 cur l t alpha beta me).1 ≤ alpha ∧
          (l.map fun mv => evaluate_board sz
            (make_move_in_state sz (copy_board b1) mv.1 mv.2 cur) player).foldl min me ≤
            (minimaxMinLoop (fun b' a bt t' => minimax sz player 0 b' true a bt t')
              sz b1 cur l t alpha beta me).1)) ∧
      ∀ e ∈ (minimaxMinLoop (fun b' a bt t' => minimax sz player 0 b' true a bt t')
          sz b1 cur l t alpha beta me).2,
        e ∈ t ∨ ∃ be, BoardWF sz be ∧ e.1 = hash_board be ∧
          countCells sz be EMPTY < n ∧ e.2 = evaluate_board sz be player := by
  intro l
  induction l with
  | nil =>
    intro t alpha beta me _ _ _
    exact ⟨Or.inl rfl, fun e he => Or.inl he⟩
  | cons mv rest ih =>
    intro t alpha beta me ht hl hmb
    have hmv := hl mv (List.mem_cons_self mv rest)
    have hz := minimax_zero_below ht hmv.1 hmv.2 true alpha beta
    have hstep : minimaxMinLoop (fun b' a bt t' => minimax sz player 0 b' true a bt t')
        sz b1 cur (mv :: rest) t alpha beta me =
        (if min beta (minimax sz player 0
            (make_move_in_state sz (copy_board b1) mv.1 mv.2 cur) true alpha beta t).1
            ≤ alpha then
          (min me (minimax sz player 0
              (make_move_in_state sz (copy_board b1) mv.1 mv.2 cur) true alpha beta t).1,
            (minimax sz player 0
              (make_move_in_state sz (copy_board b1) mv.1 mv.2 cur) true alpha beta t).2)
        else minimaxMinLoop (fun b' a bt t' => minimax sz player 0 b' true a bt t')
          sz b1 cur rest
          (minimax sz player 0
            (make_move_in_state sz (copy_board b1) mv.1 mv.2 cur) true alpha beta t).2
          alpha
          (min beta (minimax sz player 0
            (make_move_in_state sz (copy_board b1) mv.1 mv.2 cur) true alpha beta t).1)
          (min me (minimax sz player 0
            (make_move_in_state sz (copy_board b1) mv.1 mv.2 cur) true alpha beta t).1)) :=
      rfl
    rw [hstep, hz.1]
    by_cases hcut : min beta (evaluate_board sz
        (make_move_in_state sz (copy_board b1) mv.1 mv.2 cur) player) ≤ alpha
    · rw [if_pos hcut]
      constructor
      · right
        constructor
        · exact le_trans (min_le_min hmb (le_refl _)) hcut
        · simp only [List.map_cons, List.foldl_cons]
          exact foldl_min_le_init _ _
      · intro e he
        rcases hz.2 e he with h | rfl
        · exact Or.inl h
        · exact Or.inr ⟨make_move_in_state sz (copy_board b1) mv.1 mv.2 cur,
            hmv.1, rfl, hmv.2, rfl⟩
    · rw [if_neg hcut]
      have ht2 : TableBelow sz player n (minimax sz player 0
          (make_move_in_state sz (copy_board b1) mv.1 mv.2 cur) true alpha beta t).2 := by
        intro e he
        rcases hz.2 e he with h | rfl
        · exact ht e h
        · exact ⟨make_move_in_state sz (copy_board b1) mv.1 mv.2 cur,
            hmv.1, rfl, fun _ => rfl⟩
      have hih := ih (minimax sz player 0
          (make_move_in_state sz (copy_board b1) mv.1 mv.2 cur) true alpha beta t).2
        alpha
        (min beta (evaluate_board sz
          (make_move_in_state sz (copy_board b1) mv.1 mv.2 cur) player))
        (min me (evaluate_board sz
          (make_move_in_state sz (copy_board b1) mv.1 mv.2 cur) player))
        ht2 (fun mv' h' => hl mv' (List.mem_cons_of_mem mv h'))
        (min_le_min hmb (le_refl _))
      constructor
      · rcases hih.1 with heq | ⟨hle, hge⟩
        · left
          rw [heq]
          simp only [List.map_cons, List.foldl_cons]
        · right
          refine ⟨hle, ?_⟩
          simp only [List.map_cons, List.foldl_cons]
          exact hge
      · intro e he
        rcases hih.2 e he with h | h
        · rcases hz.2 e h with h2 | rfl
          · exact Or.inl h2
          · exact Or.inr ⟨make_move_in_state sz (copy_board b1) mv.1 mv.2 cur,
              hmv.1, rfl, hmv.2, rfl⟩
        · exact Or.inr h

/-- The maximizing loop of a depth-1 node over exact grandchild evaluations:
the dual of `minLoopFail` — a `beta` cutoff yields a fail-high value at or
above `beta` that under-approximates the true maximum. -/
lemma maxLoopFail {sz player n : Nat} {b1 : Board} {cur : Nat} :
    ∀ (l : List (Int × Int)) (t : Table) (alpha beta me : Int),
      TableBelow sz player n t →
      (∀ mv ∈ l, BoardWF sz (make_move_in_state sz (copy_board b1) mv.1 mv.2 cur) ∧
        countCells sz (make_move_in_state sz (copy_board b1) mv.1 mv.2 cur) EMPTY < n) →
      alpha ≤ me →
      ((minimaxMaxLoop (fun b' a bt t' => minimax sz player 0 b' false a bt t')
          sz b1 cur l t alpha beta me).1 =
        (l.map fun mv => evaluate_board sz
          (make_move_in_state sz (copy_board b1) mv.1 mv.2 cur) player).foldl max me
       ∨ (beta ≤ (minimaxMaxLoop (fun b' a bt t' => minimax sz player 0 b' false a bt t')
            sz b1 cur l t alpha beta me).1 ∧
          (minimaxMaxLoop (fun b' a bt t' => minimax sz player 0 b' false a bt t')
            sz b1 cur l t alpha beta me).1 ≤
          (l.map fun mv => evaluate_board sz
            (make_move_in_state sz (copy_board b1) mv.1 mv.2 cur) player).foldl max me)) ∧
      ∀ e ∈ (minimaxMaxLoop (fun b' a bt t' => minimax sz player 0 b' false a bt t')
          sz b1 cur l t alpha beta me).2,
        e ∈ t ∨ ∃ be, BoardWF sz be ∧ e.1 = hash_board be ∧
          countCells sz be EMPTY < n ∧ e.2 = evaluate_board sz be player := by
  intro l
  induction l with
  | nil =>
    intro t alpha beta me _ _ _
    exact ⟨Or.inl rfl, fun e he => Or.inl he⟩
  | cons mv rest ih =>
    intro t alpha beta me ht hl ham
    have hmv := hl mv (List.mem_cons_self mv rest)
    have hz := minimax_zero_below ht hmv.1 hmv.2 false alpha beta
    have hstep : minimaxMaxLoop (fun b' a bt t' => minimax sz player 0 b' false a bt t')
        sz b1 cur (mv :: rest) t alpha beta me =
        (if beta ≤ max alpha (minimax sz player 0
            (make_move_in_state sz (copy_board b1) mv.1 mv.2 cur) false alpha beta t).1
            then
          (max me (minimax sz player 0
              (make_move_in_state sz (copy_board b1) mv.1 mv.2 cur) false alpha beta t).1,
            (minimax sz player 0
              (make_move_in_state sz (copy_board b1) mv.1 mv.2 cur) false alpha beta t).2)
        else minimaxMaxLoop (fun b' a bt t' => minimax sz player 0 b' false a bt t')
          sz b1 cur rest
          (minimax sz player 0
            (make_move_in_state sz (copy_board b1) mv.1 mv.2 cur) false alpha beta t).2
          (max alpha (minimax sz player 0
            (make_move_in_state sz (copy_board b1) mv.1 mv.2 cur) false alpha beta t).1)
          beta
          (max me (minimax sz player 0
            (make_move_in_state sz (copy_board b1) mv.1 mv.2 cur) false alpha beta t).1)) :=
      rfl
    rw [hstep, hz.1]
    by_cases hcut : beta ≤ max alpha (evaluate_board sz
        (make_move_in_state sz (copy_board b1) mv.1 mv.2 cur) player)
    · rw [if_pos hcut]
      constructor
      · right
        constructor
        · exact le_trans hcut (max_le_max ham (le_refl _))
        · simp only [List.map_cons, List.foldl_cons]
          exact foldl_max_init_le _ _
      · intro e he
        rcases hz.2 e he with h | rfl
        · exact Or.inl h
        · exact Or.inr ⟨make_move_in_state sz (copy_board b1) mv.1 mv.2 cur,
            hmv.1, rfl, hmv.2, rfl⟩
    · rw [if_neg hcut]
      have ht2 : TableBelow sz player n (minimax sz player 0
          (make_move_in_state sz (copy_board b1) mv.1 mv.2 cur) false alpha beta t).2 := by
        intro e he
        rcases hz.2 e he with h | rfl
        · exact ht e h
        · exact ⟨make_move_in_state sz (copy_board b1) mv.1 mv.2 cur,
            hmv.1, rfl, fun _ => rfl⟩
      have hih := ih (minimax sz player 0
          (make_move_in_state sz (copy_board b1) mv.1 mv.2 cur) false alpha beta t).2
        (max alpha (evaluate_board sz
          (make_move_in_state sz (copy_board b1) mv.1 mv.2 cur) player))
        beta
        (max me (evaluate_board sz
          (make_move_in_state sz (copy_board b1) mv.1 mv.2 cur) player))
        ht2 (fun mv' h' => hl mv' (List.mem_cons_of_mem mv h'))
        (max_le_max ham (le_refl _))
      constructor
      · rcases hih.1 with heq | ⟨hle, hge⟩
        · left
          rw [heq]
          simp only [List.map_cons, List.foldl_cons]
        · right
          refine ⟨hle, ?_⟩
          simp only [List.map_cons, List.foldl_cons]
          exact hge
      · intro e he
        rcases hih.2 e he with h | h
        · rcases hz.2 e h with h2 | rfl
          · exact Or.inl h2
          · exact Or.inr ⟨make_move_in_state sz (copy_board b1) mv.1 mv.2 cur,
              hmv.1, rfl, hmv.2, rfl⟩
        · exact Or.inr h

/-- A depth-1 minimizing node searched inside a depth-2 maximizing root:
over a `TableBelow` table that misses the node's own key, the returned value
is the exact depth-1 reference value or a fail-low over-approximation at or
below the narrowed `alpha`; the table gains only the node's own key and
grandchild-layer exact entries. -/
lemma minimax_one_ctx_min {sz player : Nat} {b1 : Board} (hwf : BoardWF sz b1)
    {n : Nat} (hn : countCells sz b1 EMPTY = n) {t : Table}
    (ht : TableBelow sz player n t) (hmiss : tableGet t (hash_board b1) = none)
    (alpha : Int) :
    ((minimax sz player (0 + 1) b1 false alpha INF t).1 =
        specFullMinimax sz player (0 + 1) b1 false
      ∨ ((minimax sz player (0 + 1) b1 false alpha INF t).1 ≤ alpha ∧
         specFullMinimax sz player (0 + 1) b1 false ≤
           (minimax sz player (0 + 1) b1 false alpha INF t).1)) ∧
    ∀ e ∈ (minimax sz player (0 + 1) b1 false alpha INF t).2,
      e ∈ t ∨ e.1 = hash_board b1 ∨
        ∃ be, BoardWF sz be ∧ e.1 = hash_board be ∧ countCells sz be EMPTY < n ∧
          e.2 = evaluate_board sz be player := by
  rw [minimax_succ_none hmiss, specFull_succ]
  simp only [Bool.false_eq_true, if_false, Bool.not_false]
  by_cases hterm : is_terminal_state sz b1
  · rw [if_pos hterm, if_pos hterm]
    refine ⟨Or.inl rfl, fun e he => ?_⟩
    rcases List.mem_cons.mp he with rfl | he'
    · exact Or.inr (Or.inl rfl)
    · exact Or.inl he'
  · rw [if_neg hterm, if_neg hterm]
    by_cases hvm : get_valid_moves_in_state sz b1 (opponent player) = []
    · rw [if_pos hvm, if_pos hvm, minimax_zero_miss hmiss]
      refine ⟨Or.inl rfl, fun e he => ?_⟩
      rcases List.mem_cons.mp he with rfl | he'
      · exact Or.inr (Or.inl rfl)
      · rcases List.mem_cons.mp he' with rfl | he''
        · exact Or.inr (Or.inl rfl)
        · exact Or.inl he''
    · rw [if_neg hvm, if_neg hvm]
      have hl : ∀ mv ∈ sortAscBy (fun m => position_weights sz m.1 m.2)
          (get_valid_moves_in_state sz b1 (opponent player)),
          BoardWF sz (make_move_in_state sz (copy_board b1) mv.1 mv.2
            (opponent player)) ∧
          countCells sz (make_move_in_state sz (copy_board b1) mv.1 mv.2
            (opponent player)) EMPTY < n := by
        intro mv hmv
        have hmem : mv ∈ get_valid_moves_in_state sz b1 (opponent player) :=
          (sortAscBy_perm _ _).mem_iff.mp hmv
        have hc := of_mem_get_valid_moves hmem
        refine ⟨hwf.make_move mv.1 mv.2 (opponent player), ?_⟩
        have hcnt : countCells sz (make_move_in_state sz (copy_board b1) mv.1 mv.2
            (opponent player)) EMPTY + 1 = countCells sz b1 EMPTY :=
          make_move_emptyCount hwf hc.1 hc.2 (opponent_mem player)
        omega
      have hloop := minLoopFail (sortAscBy (fun m => position_weights sz m.1 m.2)
          (get_valid_moves_in_state sz b1 (opponent player))) t alpha INF INF
        ht hl (le_refl INF)
      have hperm := foldl_min_perm ((sortAscBy_perm
          (fun m => position_weights sz m.1 m.2)
          (get_valid_moves_in_state sz b1 (opponent player))).map
          (fun mv => evaluate_board sz
            (make_move_in_state sz (copy_board b1) mv.1 mv.2 (opponent player))
            player)) INF
      simp only [specFullMinimax]
      constructor
      · rcases hloop.1 with heq | ⟨hle, hge⟩
        · exact Or.inl (heq.trans hperm)
        · exact Or.inr ⟨hle, hperm ▸ hge⟩
      · intro e he
        rcases List.mem_cons.mp he with rfl | he'
        · exact Or.inr (Or.inl rfl)
        · rcases hloop.2 e he' with h | h
          · exact Or.inl h
          · exact Or.inr (Or.inr h)

/-- A depth-1 maximizing node searched inside a depth-2 minimizing root: the
dual of `minimax_one_ctx_min` with a fail-high value at or above the
narrowed `beta`. -/
lemma minimax_one_ctx_max {sz player : Nat}
    (hp : player = BLACK ∨ player = WHITE) {b1 : Board} (hwf : BoardWF sz b1)
    {n : Nat} (hn : countCells sz b1 EMPTY = n) {t : Table}
    (ht : TableBelow sz player n t) (hmiss : tableGet t (hash_board b1) = none)
    (beta : Int) :
    ((minimax sz player (0 + 1) b1 true (-INF) beta t).1 =
        specFullMinimax sz player (0 + 1) b1 true
      ∨ (beta ≤ (minimax sz player (0 + 1) b1 true (-INF) beta t).1 ∧
         (minimax sz player (0 + 1) b1 true (-INF) beta t).1 ≤
           specFullMinimax sz player (0 + 1) b1 true)) ∧
    ∀ e ∈ (minimax sz player (0 + 1) b1 true (-INF) beta t).2,
      e ∈ t ∨ e.1 = hash_board b1 ∨
        ∃ be, BoardWF sz be ∧ e.1 = hash_board be ∧ countCells sz be EMPTY < n ∧
          e.2 = evaluate_board sz be player := by
  rw [minimax_succ_none hmiss, specFull_succ]
  simp only [reduceIte, Bool.not_true]
  by_cases hterm : is_terminal_state sz b1
  · rw [if_pos hterm, if_pos hterm]
    refine ⟨Or.inl rfl, fun e he => ?_⟩
    rcases List.mem_cons.mp he with rfl | he'
    · exact Or.inr (Or.inl rfl)
    · exact Or.inl he'
  · rw [if_neg hterm, if_neg hterm]
    by_cases hvm : get_valid_moves_in_state sz b1 player = []
    · rw [if_pos hvm, if_pos hvm, minimax_zero_miss hmiss]
      refine ⟨Or.inl rfl, fun e he => ?_⟩
      rcases List.mem_cons.mp he with rfl | he'
      · exact Or.inr (Or.inl rfl)
      · rcases List.mem_cons.mp he' with rfl | he''
        · exact Or.inr (Or.inl rfl)
        · exact Or.inl he''
    · rw [if_neg hvm, if_neg hvm]
      have hl : ∀ mv ∈ sortDescBy (fun m => position_weights sz m.1 m.2)
          (get_valid_moves_in_state sz b1 player),
          BoardWF sz (make_move_in_state sz (copy_board b1) mv.1 mv.2 player) ∧
          countCells sz (make_move_in_state sz (copy_board b1) mv.1 mv.2 player)
            EMPTY < n := by
        intro mv hmv
        have hmem : mv ∈ get_valid_moves_in_state sz b1 player :=
          (sortDescBy_perm _ _).mem_iff.mp hmv
        have hc := of_mem_get_valid_moves hmem
        refine ⟨hwf.make_move mv.1 mv.2 player, ?_⟩
        have hcnt : countCells sz (make_move_in_state sz (copy_board b1) mv.1 mv.2
            player) EMPTY + 1 = countCells sz b1 EMPTY :=
          make_move_emptyCount hwf hc.1 hc.2 hp
        omega
      have hloop := maxLoopFail (sortDescBy (fun m => position_weights sz m.1 m.2)
          (get_valid_moves_in_state sz b1 player)) t (-INF) beta (-INF)
        ht hl (le_refl (-INF))
      have hperm := foldl_max_perm ((sortDescBy_perm
          (fun m => position_weights sz m.1 m.2)
          (get_valid_moves_in_state sz b1 player)).map
          (fun mv => evaluate_board sz
            (make_move_in_state sz (copy_board b1) mv.1 mv.2 player) player)) (-INF)
      simp only [specFullMinimax]
      constructor
      · rcases hloop.1 with heq | ⟨hle, hge⟩
        · exact Or.inl (heq.trans hperm)
        · exact Or.inr ⟨hle, hperm ▸ hge⟩
      · intro e he
        rcases List.mem_cons.mp he with rfl | he'
        · exact Or.inr (Or.inl rfl)
        · rcases hloop.2 e he' with h | h
          · exact Or.inl h
          · exact Or.inr (Or.inr h)

/-- The root maximizing loop of a depth-2 search: with the full window, a
table that is exact on the grandchild layer and misses every child's key,
and pairwise-distinct children, the loop computes the running maximum of the
children's exact depth-1 reference values — fail-low children cannot raise
the running maximum, so cutoffs inside the children never change the root
value. -/
lemma maxLoop2 {sz player : Nat} (hsz : sz ≤ 20) {b : Board} {n : Nat} :
    ∀ (l : List (Int × Int)) (t : Table) (alpha me : Int),
      TableBelow sz player n t →
      (∀ mv ∈ l, BoardWF sz (make_move_in_state sz (copy_board b) mv.1 mv.2 player) ∧
        countCells sz (make_move_in_state sz (copy_board b) mv.1 mv.2 player)
          EMPTY = n ∧
        tableGet t (hash_board
          (make_move_in_state sz (copy_board b) mv.1 mv.2 player)) = none) →
      l.Pairwise (fun a b' => make_move_in_state sz (copy_board b) a.1 a.2 player ≠
        make_move_in_state sz (copy_board b) b'.1 b'.2 player) →
      alpha = me → me < INF →
      (minimaxMaxLoop (fun b' a bt t' => minimax sz player (0 + 1) b' false a bt t')
          sz b player l t alpha INF me).1 =
        (l.map fun mv => specFullMinimax sz player (0 + 1)
          (make_move_in_state sz (copy_board b) mv.1 mv.2 player) false).foldl max me := by
  intro l
  induction l with
  | nil => intro t alpha me _ _ _ _ _; rfl
  | cons mv rest ih =>
    intro t alpha me ht hl hpw ham hme
    have hmv := hl mv (List.mem_cons_self mv rest)
    have hctx := minimax_one_ctx_min hmv.1 hmv.2.1 ht hmv.2.2 alpha
    have hstep : minimaxMaxLoop
        (fun b' a bt t' => minimax sz player (0 + 1) b' false a bt t')
        sz b player (mv :: rest) t alpha INF me =
        (if INF ≤ max alpha (minimax sz player (0 + 1)
            (make_move_in_state sz (copy_board b) mv.1 mv.2 player)
            false alpha INF t).1 then
          (max me (minimax sz player (0 + 1)
              (make_move_in_state sz (copy_board b) mv.1 mv.2 player)
              false alpha INF t).1,
            (minimax sz player (0 + 1)
              (make_move_in_state sz (copy_board b) mv.1 mv.2 player)
              false alpha INF t).2)
        else minimaxMaxLoop
          (fun b' a bt t' => minimax sz player (0 + 1) b' false a bt t')
          sz b player rest
          (minimax sz player (0 + 1)
            (make_move_in_state sz (copy_board b) mv.1 mv.2 player)
            false alpha INF t).2
          (max alpha (minimax sz player (0 + 1)
            (make_move_in_state sz (copy_board b) mv.1 mv.2 player)
            false alpha INF t).1)
          INF
          (max me (minimax sz player (0 + 1)
            (make_move_in_state sz (copy_board b) mv.1 mv.2 player)
            false alpha INF t).1)) := rfl
    rw [hstep]
    have hspec := specFull_one_bounds sz player
      (make_move_in_state sz (copy_board b) mv.1 mv.2 player) false
    have hBINF := evalBound_lt_INF hsz
    have haINF : alpha < INF := by rw [ham]; exact hme
    have hRlt : (minimax sz player (0 + 1)
        (make_move_in_state sz (copy_board b) mv.1 mv.2 player)
        false alpha INF t).1 < INF := by
      rcases hctx.1 with heq | ⟨hle, _⟩
      · rw [heq]
        exact lt_of_le_of_lt hspec.2 hBINF
      · exact lt_of_le_of_lt hle haINF
    rw [if_neg (not_le.mpr (max_lt haINF hRlt))]
    have ht2 : TableBelow sz player n (minimax sz player (0 + 1)
        (make_move_in_state sz (copy_board b) mv.1 mv.2 player)
        false alpha INF t).2 := by
      intro e he
      rcases hctx.2 e he with h | h | h
      · exact ht e h
      · exact ⟨make_move_in_state sz (copy_board b) mv.1 mv.2 player, hmv.1, h,
          fun hlt => absurd (hmv.2.1 ▸ hlt) (lt_irrefl n)⟩
      · obtain ⟨be, h1, h2, h3, h4⟩ := h
        exact ⟨be, h1, h2, fun _ => h4⟩
    have hl' : ∀ mv' ∈ rest,
        BoardWF sz (make_move_in_state sz (copy_board b) mv'.1 mv'.2 player) ∧
        countCells sz (make_move_in_state sz (copy_board b) mv'.1 mv'.2 player)
          EMPTY = n ∧
        tableGet (minimax sz player (0 + 1)
            (make_move_in_state sz (copy_board b) mv.1 mv.2 player)
            false alpha INF t).2
          (hash_board (make_move_in_state sz (copy_board b) mv'.1 mv'.2 player)) =
          none := by
      intro mv' h'
      have hx := hl mv' (List.mem_cons_of_mem mv h')
      refine ⟨hx.1, hx.2.1, ?_⟩
      rw [tableGet_none_iff]
      intro e he hk
      rcases hctx.2 e he with h1 | h1 | h1
      · exact (tableGet_none_iff.mp hx.2.2) e h1 hk
      · have hcc : make_move_in_state sz (copy_board b) mv.1 mv.2 player =
            make_move_in_state sz (copy_board b) mv'.1 mv'.2 player :=
          hash_board_inj hmv.1 hx.1 (h1.symm.trans hk)
        exact (List.pairwise_cons.mp hpw).1 mv' h' hcc
      · obtain ⟨be, hbe, hkey, hcnt, _⟩ := h1
        have hbc : be = make_move_in_state sz (copy_board b) mv'.1 mv'.2 player :=
          hash_board_inj hbe hx.1 (hkey.symm.trans hk)
        rw [hbc, hx.2.1] at hcnt
        exact lt_irrefl n hcnt
    have hih := ih (minimax sz player (0 + 1)
        (make_move_in_state sz (copy_board b) mv.1 mv.2 player)
        false alpha INF t).2
      (max alpha (minimax sz player (0 + 1)
        (make_move_in_state sz (copy_board b) mv.1 mv.2 player)
        false alpha INF t).1)
      (max me (minimax sz player (0 + 1)
        (make_move_in_state sz (copy_board b) mv.1 mv.2 player)
        false alpha INF t).1)
      ht2 hl' (List.pairwise_cons.mp hpw).2 (by rw [ham]) (max_lt hme hRlt)
    simp only [List.map_cons, List.foldl_cons]
    rcases hctx.1 with heq | ⟨hle, hge⟩
    · rw [hih, heq]
    · rw [hih, max_eq_left (ham ▸ hle), max_eq_left (le_trans hge (ham ▸ hle))]

/-- The root minimizing loop of a depth-2 search — the dual of `maxLoop2`:
fail-high children cannot lower the running minimum. -/
lemma minLoop2 {sz player : Nat} (hsz : sz ≤ 20)
    (hp : player = BLACK ∨ player = WHITE) {b : Board} {n : Nat} :
    ∀ (l : List (Int × Int)) (t : Table) (beta me : Int),
      TableBelow sz player n t →
      (∀ mv ∈ l, BoardWF sz (make_move_in_state sz (copy_board b) mv.1 mv.2
          (opponent player)) ∧
        countCells sz (make_move_in_state sz (copy_board b) mv.1 mv.2
          (opponent player)) EMPTY = n ∧
        tableGet t (hash_board (make_move_in_state sz (copy_board b) mv.1 mv.2
          (opponent player))) = none) →
      l.Pairwise (fun a b' =>
        make_move_in_state sz (copy_board b) a.1 a.2 (opponent player) ≠
        make_move_in_state sz (copy_board b) b'.1 b'.2 (opponent player)) →
      beta = me → -INF < me →
      (minimaxMinLoop (fun b' a bt t' => minimax sz player (0 + 1) b' true a bt t')
          sz b (opponent player) l t (-INF) beta me).1 =
        (l.map fun mv => specFullMinimax sz player (0 + 1)
          (make_move_in_state sz (copy_board b) mv.1 mv.2 (opponent player))
          true).foldl min me := by
  intro l
  induction l with
  | nil => intro t beta me _ _ _ _ _; rfl
  | cons mv rest ih =>
    intro t beta me ht hl hpw hbm hme
    have hmv := hl mv (List.mem_cons_self mv rest)
    have hctx := minimax_one_ctx_max hp hmv.1 hmv.2.1 ht hmv.2.2 beta
    have hstep : minimaxMinLoop
        (fun b' a bt t' => minimax sz player (0 + 1) b' true a bt t')
        sz b (opponent player) (mv :: rest) t (-INF) beta me =
        (if min beta (minimax sz player (0 + 1)
            (make_move_in_state sz (copy_board b) mv.1 mv.2 (opponent player))
            true (-INF) beta t).1 ≤ -INF then
          (min me (minimax sz player (0 + 1)
              (make_move_in_state sz (copy_board b) mv.1 mv.2 (opponent player))
              true (-INF) beta t).1,
            (minimax sz player (0 + 1)
              (make_move_in_state sz (copy_board b) mv.1 mv.2 (opponent player))
              true (-INF) beta t).2)
        else minimaxMinLoop
          (fun b' a bt t' => minimax sz player (0 + 1) b' true a bt t')
          sz b (opponent player) rest
          (minimax sz player (0 + 1)
            (make_move_in_state sz (copy_board b) mv.1 mv.2 (opponent player))
            true (-INF) beta t).2
          (-INF)
          (min beta (minimax sz player (0 + 1)
            (make_move_in_state sz (copy_board b) mv.1 mv.2 (opponent player))
            true (-INF) beta t).1)
          (min me (minimax sz player (0 + 1)
            (make_move_in_state sz (copy_board b) mv.1 mv.2 (opponent player))
            true (-INF) beta t).1)) := rfl
    rw [hstep]
    have hspec := specFull_one_bounds sz player
      (make_move_in_state sz (copy_board b) mv.1 mv.2 (opponent player)) true
    have hBINF := evalBound_lt_INF hsz
    have hbINF : -INF < beta := by rw [hbm]; exact hme
    have hRgt : -INF < (minimax sz player (0 + 1)
        (make_move_in_state sz (copy_board b) mv.1 mv.2 (opponent player))
        true (-INF) beta t).1 := by
      rcases hctx.1 with heq | ⟨hle, _⟩
      · rw [heq]
        have : -INF < -evalBound sz := by linarith
        exact lt_of_lt_of_le this hspec.1
      · exact lt_of_lt_of_le hbINF hle
    rw [if_neg (not_le.mpr (lt_min hbINF hRgt))]
    have ht2 : TableBelow sz player n (minimax sz player (0 + 1)
        (make_move_in_state sz (copy_board b) mv.1 mv.2 (opponent player))
        true (-INF) beta t).2 := by
      intro e he
      rcases hctx.2 e he with h | h | h
      · exact ht e h
      · exact ⟨make_move_in_state sz (copy_board b) mv.1 mv.2 (opponent player),
          hmv.1, h, fun hlt => absurd (hmv.2.1 ▸ hlt) (lt_irrefl n)⟩
      · obtain ⟨be, h1, h2, h3, h4⟩ := h
        exact ⟨be, h1, h2, fun _ => h4⟩
    have hl' : ∀ mv' ∈ rest,
        BoardWF sz (make_move_in_state sz (copy_board b) mv'.1 mv'.2
          (opponent player)) ∧
        countCells sz (make_move_in_state sz (copy_board b) mv'.1 mv'.2
          (opponent player)) EMPTY = n ∧
        tableGet (minimax sz player (0 + 1)
            (make_move_in_state sz (copy_board b) mv.1 mv.2 (opponent player))
            true (-INF) beta t).2
          (hash_board (make_move_in_state sz (copy_board b) mv'.1 mv'.2
            (opponent player))) = none := by
      intro mv' h'
      have hx := hl mv' (List.mem_cons_of_mem mv h')
      refine ⟨hx.1, hx.2.1, ?_⟩
      rw [tableGet_none_iff]
      intro e he hk
      rcases hctx.2 e he with h1 | h1 | h1
      · exact (tableGet_none_iff.mp hx.2.2) e h1 hk
      · have hcc : make_move_in_state sz (copy_board b) mv.1 mv.2 (opponent player) =
            make_move_in_state sz (copy_board b) mv'.1 mv'.2 (opponent player) :=
          hash_board_inj hmv.1 hx.1 (h1.symm.trans hk)
        exact (List.pairwise_cons.mp hpw).1 mv' h' hcc
      · obtain ⟨be, hbe, hkey, hcnt, _⟩ := h1
        have hbc : be = make_move_in_state sz (copy_board b) mv'.1 mv'.2
            (opponent player) :=
          hash_board_inj hbe hx.1 (hkey.symm.trans hk)
        rw [hbc, hx.2.1] at hcnt
        exact lt_irrefl n hcnt
    have hih := ih (minimax sz player (0 + 1)
        (make_move_in_state sz (copy_board b) mv.1 mv.2 (opponent player))
        true (-INF) beta t).2
      (min beta (minimax sz player (0 + 1)
        (make_move_in_state sz (copy_board b) mv.1 mv.2 (opponent player))
        true (-INF) beta t).1)
      (min me (minimax sz player (0 + 1)
        (make_move_in_state sz (copy_board b) mv.1 mv.2 (opponent player))
        true (-INF) beta t).1)
      ht2 hl' (List.pairwise_cons.mp hpw).2 (by rw [hbm]) (lt_min hme hRgt)
    simp only [List.map_cons, List.foldl_cons]
    rcases hctx.1 with heq | ⟨hle, hge⟩
    · rw [hih, heq]
    · rw [hih, min_eq_left (hbm ▸ hle), min_eq_left (le_trans (hbm ▸ hle) hge)]

/-- At depth 2 from an empty table, the memoized alpha-beta search agrees
with the unpruned reference everywhere: the root sees pairwise-distinct
children whose keys cannot be cached yet, grandchild lookups only ever hit
exact static evaluations, and fail-low/fail-high child values never displace
the root's running optimum. -/
lemma minimax_two_full {sz player : Nat} (hsz : sz ≤ 20)
    (hp : player = BLACK ∨ player = WHITE) {b : Board} (hwf : BoardWF sz b)
    (maximizing : Bool) :
    (minimax sz player (0 + 1 + 1) b maximizing (-INF) INF []).1 =
      specFullMinimax sz player (0 + 1 + 1) b maximizing := by
  have hmiss : tableGet ([] : Table) (hash_board b) = none := rfl
  have hININF : (-INF : Int) < INF := by unfold INF; norm_num
  rw [minimax_succ_none hmiss, specFull_succ]
  cases maximizing with
  | true =>
    simp only [reduceIte, Bool.not_true]
    by_cases hterm : is_terminal_state sz b
    · rw [if_pos hterm, if_pos hterm]
    · rw [if_neg hterm, if_neg hterm]
      by_cases hvm : get_valid_moves_in_state sz b player = []
      · rw [if_pos hvm, if_pos hvm]
        exact minimax_one_full hsz hwf false
      · rw [if_neg hvm, if_neg hvm]
        have hsymm : Symmetric (fun a b' : Int × Int =>
            make_move_in_state sz (copy_board b) a.1 a.2 player ≠
            make_move_in_state sz (copy_board b) b'.1 b'.2 player) :=
          fun _ _ h hc => h hc.symm
        have hpw_vm : (get_valid_moves_in_state sz b player).Pairwise
            (fun a b' => make_move_in_state sz (copy_board b) a.1 a.2 player ≠
              make_move_in_state sz (copy_board b) b'.1 b'.2 player) := by
          refine List.Pairwise.imp_of_mem ?_ (get_valid_moves_nodup sz b player)
          intro a a' ha ha' hne
          have hca := of_mem_get_valid_moves ha
          have hca' := of_mem_get_valid_moves ha'
          exact make_move_ne hwf hca.1 hca.2 hca'.1 hne hp
        have hpw := (List.Perm.pairwise_iff (fun hc => hsymm hc)
          (sortDescBy_perm (fun m => position_weights sz m.1 m.2)
            (get_valid_moves_in_state sz b player))).mpr hpw_vm
        have hl : ∀ mv ∈ sortDescBy (fun m => position_weights sz m.1 m.2)
            (get_valid_moves_in_state sz b player),
            BoardWF sz (make_move_in_state sz (copy_board b) mv.1 mv.2 player) ∧
            countCells sz (make_move_in_state sz (copy_board b) mv.1 mv.2 player)
              EMPTY = countCells sz b EMPTY - 1 ∧
            tableGet ([] : Table) (hash_board
              (make_move_in_state sz (copy_board b) mv.1 mv.2 player)) = none := by
          intro mv hmv
          have hmem := (sortDescBy_perm _ _).mem_iff.mp hmv
          have hc := of_mem_get_valid_moves hmem
          refine ⟨hwf.make_move mv.1 mv.2 player, ?_, rfl⟩
          have hcnt : countCells sz (make_move_in_state sz (copy_board b) mv.1 mv.2
              player) EMPTY + 1 = countCells sz b EMPTY :=
            make_move_emptyCount hwf hc.1 hc.2 hp
          omega
        have hloop := maxLoop2 hsz (sortDescBy (fun m => position_weights sz m.1 m.2)
            (get_valid_moves_in_state sz b player)) [] (-INF) (-INF)
          (TableBelow.empty sz player (countCells sz b EMPTY - 1)) hl hpw rfl hININF
        have hperm := foldl_max_perm ((sortDescBy_perm
            (fun m => position_weights sz m.1 m.2)
            (get_valid_moves_in_state sz b player)).map
            (fun mv => specFullMinimax sz player (0 + 1)
              (make_move_in_state sz (copy_board b) mv.1 mv.2 player) false)) (-INF)
        exact hloop.trans hperm
  | false =>
    simp only [Bool.false_eq_true, if_false, Bool.not_false]
    by_cases hterm : is_terminal_state sz b
    · rw [if_pos hterm, if_pos hterm]
    · rw [if_neg hterm, if_neg hterm]
      by_cases hvm : get_valid_moves_in_state sz b (opponent player) = []
      · rw [if_pos hvm, if_pos hvm]
        exact minimax_one_full hsz hwf true
      · rw [if_neg hvm, if_neg hvm]
        have hsymm : Symmetric (fun a b' : Int × Int =>
            make_move_in_state sz (copy_board b) a.1 a.2 (opponent player) ≠
            make_move_in_state sz (copy_board b) b'.1 b'.2 (opponent player)) :=
          fun _ _ h hc => h hc.symm
        have hpw_vm : (get_valid_moves_in_state sz b (opponent player)).Pairwise
            (fun a b' =>
              make_move_in_state sz (copy_board b) a.1 a.2 (opponent player) ≠
              make_move_in_state sz (copy_board b) b'.1 b'.2 (opponent player)) := by
          refine List.Pairwise.imp_of_mem ?_
            (get_valid_moves_nodup sz b (opponent player))
          intro a a' ha ha' hne
          have hca := of_mem_get_valid_moves ha
          have hca' := of_mem_get_valid_moves ha'
          exact make_move_ne hwf hca.1 hca.2 hca'.1 hne (opponent_mem player)
        have hpw := (List.Perm.pairwise_iff (fun hc => hsymm hc)
          (sortAscBy_perm (fun m => position_weights sz m.1 m.2)
            (get_valid_moves_in_state sz b (opponent player)))).mpr hpw_vm
        have hl : ∀ mv ∈ sortAscBy (fun m => position_weights sz m.1 m.2)
            (get_valid_moves_in_state sz b (opponent player)),
            BoardWF sz (make_move_in_state sz (copy_board b) mv.1 mv.2
              (opponent player)) ∧
            countCells sz (make_move_in_state sz (copy_board b) mv.1 mv.2
              (opponent player)) EMPTY = countCells sz b EMPTY - 1 ∧
            tableGet ([] : Table) (hash_board
              (make_move_in_state sz (copy_board b) mv.1 mv.2
                (opponent player))) = none := by
          intro mv hmv
          have hmem := (sortAscBy_perm _ _).mem_iff.mp hmv
          have hc := of_mem_get_valid_moves hmem
          refine ⟨hwf.make_move mv.1 mv.2 (opponent player), ?_, rfl⟩
          have hcnt : countCells sz (make_move_in_state sz (copy_board b) mv.1 mv.2
              (opponent player)) EMPTY + 1 = countCells sz b EMPTY :=
            make_move_emptyCount hwf hc.1 hc.2 (opponent_mem player)
          omega
        have hloop := minLoop2 hsz hp (sortAscBy
            (fun m => position_weights sz m.1 m.2)
            (get_valid_moves_in_state sz b (opponent player))) [] INF INF
          (TableBelow.empty sz player (countCells sz b EMPTY - 1)) hl hpw rfl
          (by unfold INF; norm_num)
        have hperm := foldl_min_perm ((sortAscBy_perm
            (fun m => position_weights sz m.1 m.2)
            (get_valid_moves_in_state sz b (opponent player))).map
            (fun mv => specFullMinimax sz player (0 + 1)
              (make_move_in_state sz (copy_board b) mv.1 mv.2 (opponent player))
              true)) INF
        exact hloop.trans hperm

/-- C4 (amended): started from an empty transposition table with the full
(-Infinity, +Infinity) window, `minimax` returns the same value as the
unpruned full search of the same depth for every spec-sized well-formed
board, both players and either flag, at every depth ≤ 2.  At depth 2 the
equality survives pruning and memoization: the root's children are pairwise
distinct and cannot be cached yet, every grandchild lookup replays an exact
static evaluation, and a window cutoff inside a child only yields a
fail-low/fail-high value that never displaces the root's running optimum.
Beyond depth 2 the equality is no longer universal: a value memoized under a
narrowed window can be replayed at a node where it is not exact — see the
Lean-checked depth-4 counterexample `C4_counterexample`. -/
theorem C4_minimax_matches_full_at_shallow_depth
    (sz player depth : Nat) (b : Board) (maximizing : Bool)
    (hsz : sz ≤ 20) (hp : player = BLACK ∨ player = WHITE)
    (hwf : BoardWF sz b) (hd : depth ≤ 2) :
    (minimax sz player depth b maximizing (-INF) INF []).1 =
      specFullMinimax sz player depth b maximizing := by
  cases depth with
  | zero =>
    exact (minimax_zero_exact (ExactTable.nil sz player) hwf maximizing (-INF) INF).1
  | succ d =>
    cases d with
    | zero => exact minimax_one_full hsz hwf maximizing
    | succ d2 =>
      have hd2 : d2 = 0 := by omega
      subst hd2
      exact minimax_two_full hsz hp hwf maximizing

/-- Witness for C4 (amended) at a concrete input: the fresh size-6 board,
Black to move, depth 2. -/
theorem C4_witness :
    6 ≤ 20 ∧ (BLACK = BLACK ∨ BLACK = WHITE) ∧ BoardWF 6 (init_board 6) ∧ 2 ≤ 2 ∧
    (minimax 6 BLACK 2 (init_board 6) true (-INF) INF []).1 =
      specFullMinimax 6 BLACK 2 (init_board 6) true :=
  ⟨by decide, Or.inl rfl, by unfold BoardWF; decide, by decide,
    C4_minimax_matches_full_at_shallow_depth 6 BLACK 2 (init_board 6) true
      (by decide) (Or.inl rfl) (by unfold BoardWF; decide) (by decide)⟩

/-! Claim C10: the search never mutates the caller's board — frame lemmas
for the heap model. -/

lemma storeGet_append {s : Store} (x : Board) {i : Nat} (h : i < s.length) :
    storeGet (s ++ [x]) i = storeGet s i := by
  unfold storeGet
  rw [List.getD_eq_getElem _ [] (by rw [List.length_append]; omega),
    List.getElem_append_left h, List.getD_eq_getElem s [] h]

lemma storeGet_set_ne {s : Store} {j : Nat} (b : Board) {i : Nat} (h : i ≠ j) :
    storeGet (s.set j b) i = storeGet s i := by
  unfold storeGet
  by_cases hi : i < s.length
  · rw [List.getD_eq_getElem _ [] (by rw [List.length_set]; exact hi),
      List.getElem_set_ne (fun he => h he.symm) (by rw [List.length_set]; exact hi),
      List.getD_eq_getElem s [] hi]
  · rw [List.getD_eq_default _ [] (by rw [List.length_set]; omega),
      List.getD_eq_default _ [] (by omega)]

/-- A store transformer that only grows the heap and leaves every already
allocated array untouched. -/
def StoreFrame (s s' : Store) : Prop :=
  s.length ≤ s'.length ∧ ∀ i, i < s.length → storeGet s' i = storeGet s i

lemma StoreFrame.rfl (s : Store) : StoreFrame s s :=
  ⟨le_refl _, fun _ _ => Eq.refl _⟩

lemma StoreFrame.comp {s1 s2 s3 : Store} (h1 : StoreFrame s1 s2)
    (h2 : StoreFrame s2 s3) : StoreFrame s1 s3 :=
  ⟨le_trans h1.1 h2.1, fun i hi => (h2.2 i (lt_of_lt_of_le hi h1.1)).trans (h1.2 i hi)⟩

/-- The copy-then-move idiom of the search allocates a fresh array and writes
only through the fresh reference. -/
lemma copy_then_move_frame (sz : Nat) (s : Store) (ref : Nat) (r c : Int) (cur : Nat) :
    StoreFrame s (makeMoveRef sz (copyBoardRef s ref).1 (copyBoardRef s ref).2 r c cur) := by
  constructor
  · simp only [makeMoveRef, copyBoardRef, List.length_set, List.length_append,
      List.length_cons, List.length_nil]
    omega
  · intro i hi
    simp only [makeMoveRef, copyBoardRef]
    rw [storeGet_set_ne _ (by omega), storeGet_append _ hi]

lemma minimaxMaxLoopRef_frame {sz ref cur : Nat}
    (recur : Store → Nat → Int → Int → Table → Int × Store × Table)
    (hrec : ∀ s' ref' a bt t', StoreFrame s' (recur s' ref' a bt t').2.1) :
    ∀ (l : List (Int × Int)) (s : Store) (t : Table) (alpha beta me : Int),
      StoreFrame s (minimaxMaxLoopRef recur sz ref cur l s t alpha beta me).2.1 := by
  intro l
  induction l with
  | nil => intro s t alpha beta me; exact StoreFrame.rfl s
  | cons mv rest ih =>
    intro s t alpha beta me
    have h1 := copy_then_move_frame sz s ref mv.1 mv.2 cur
    have h2 := hrec (makeMoveRef sz (copyBoardRef s ref).1 (copyBoardRef s ref).2
      mv.1 mv.2 cur) (copyBoardRef s ref).2 alpha beta t
    simp only [minimaxMaxLoopRef]
    split
    · exact h1.comp h2
    · exact (h1.comp h2).comp (ih _ _ _ _ _)

lemma minimaxMinLoopRef_frame {sz ref cur : Nat}
    (recur : Store → Nat → Int → Int → Table → Int × Store × Table)
    (hrec : ∀ s' ref' a bt t', StoreFrame s' (recur s' ref' a bt t').2.1) :
    ∀ (l : List (Int × Int)) (s : Store) (t : Table) (alpha beta me : Int),
      StoreFrame s (minimaxMinLoopRef recur sz ref cur l s t alpha beta me).2.1 := by
  intro l
  induction l with
  | nil => intro s t alpha beta me; exact StoreFrame.rfl s
  | cons mv rest ih =>
    intro s t alpha beta me
    have h1 := copy_then_move_frame sz s ref mv.1 mv.2 cur
    have h2 := hrec (makeMoveRef sz (copyBoardRef s ref).1 (copyBoardRef s ref).2
      mv.1 mv.2 cur) (copyBoardRef s ref).2 alpha beta t
    simp only [minimaxMinLoopRef]
    split
    · exact h1.comp h2
    · exact (h1.comp h2).comp (ih _ _ _ _ _)

/-- `minimaxRef` only allocates: every array reachable before the call holds
the same board afterwards. -/
lemma minimaxRef_frame (sz player : Nat) :
    ∀ (depth : Nat) (s : Store) (ref : Nat) (maximizing : Bool) (alpha beta : Int)
      (t : Table),
      StoreFrame s (minimaxRef sz player depth s ref maximizing alpha beta t).2.1 := by
  intro depth
  induction depth with
  | zero =>
    intro s ref maximizing alpha beta t
    simp only [minimaxRef]
    split
    case h_1 v heq => exact StoreFrame.rfl s
    case h_2 heq => exact StoreFrame.rfl s
  | succ depth ih =>
    intro s ref maximizing alpha beta t
    cases maximizing with
    | true =>
      simp only [minimaxRef, Bool.not_true, reduceIte]
      split
      case h_1 v heq => exact StoreFrame.rfl s
      case h_2 heq =>
        split
        · exact StoreFrame.rfl s
        · split
          · exact ih s ref false alpha beta t
          · exact minimaxMaxLoopRef_frame _
              (fun s' ref' a bt t' => ih s' ref' false a bt t') _ s t alpha beta (-INF)
    | false =>
      simp only [minimaxRef, Bool.not_false, Bool.false_eq_true, if_false, reduceIte]
      split
      case h_1 v heq => exact StoreFrame.rfl s
      case h_2 heq =>
        split
        · exact StoreFrame.rfl s
        · split
          · exact ih s ref true alpha beta t
          · exact minimaxMinLoopRef_frame _
              (fun s' ref' a bt t' => ih s' ref' true a bt t') _ s t alpha beta INF

lemma getBestLoopRef_frame {sz ref player : Nat}
    (recur : Store → Nat → Int → Int → Table → Int × Store × Table)
    (hrec : ∀ s' ref' a bt t', StoreFrame s' (recur s' ref' a bt t').2.1) :
    ∀ (l : List (Int × Int)) (s : Store) (t : Table) (alpha beta bs : Int)
      (bm : Option (Int × Int)),
      StoreFrame s (getBestLoopRef recur sz ref player l s t alpha beta bs bm).2.1 := by
  intro l
  induction l with
  | nil => intro s t alpha beta bs bm; exact StoreFrame.rfl s
  | cons mv rest ih =>
    intro s t alpha beta bs bm
    have h1 := copy_then_move_frame sz s ref mv.1 mv.2 player
    have h2 := hrec (makeMoveRef sz (copyBoardRef s ref).1 (copyBoardRef s ref).2
      mv.1 mv.2 player) (copyBoardRef s ref).2 alpha beta t
    cases hg : tableGet t (hash_board (storeGet
        (makeMoveRef sz (copyBoardRef s ref).1 (copyBoardRef s ref).2 mv.1 mv.2 player)
        (copyBoardRef s ref).2)) with
    | some v =>
      simp only [getBestLoopRef, hg]
      split <;> (try split) <;>
        first
          | exact h1
          | exact h1.comp (ih _ _ _ _ _ _)
    | none =>
      simp only [getBestLoopRef, hg]
      split <;> (try split) <;>
        first
          | exact h1.comp h2
          | exact (h1.comp h2).comp (ih _ _ _ _ _ _)

/-- `get_best_moveRef` only allocates as well. -/
lemma get_best_moveRef_frame (sz ai_depth : Nat) (dynamic_depth : Bool)
    (s : Store) (ref : Nat) (player : Nat) (t : Table) :
    StoreFrame s (get_best_moveRef sz ai_depth dynamic_depth s ref player t).2.1 := by
  simp only [get_best_moveRef]
  by_cases hvm : get_valid_moves_in_state sz (storeGet s ref) player = []
  · rw [if_pos hvm]
    exact StoreFrame.rfl s
  · rw [if_neg hvm]
    exact getBestLoopRef_frame
      (fun s' ref' a bt t' => minimaxRef sz player
        ((if dynamic_depth then adjust_depth sz (storeGet s ref) else ai_depth) - 1)
        s' ref' false a bt t')
      (fun s' ref' a bt t' => minimaxRef_frame sz player
        ((if dynamic_depth then adjust_depth sz (storeGet s ref) else ai_depth) - 1)
        s' ref' false a bt t')
      _ s t (-INF) INF (-INF) none

/-- C10: the search never mutates the board handed to it — in the heap model
(arrays in a store, boards passed by reference, `copy_board` allocating and
`make_move_in_state` writing in place), both `minimax` and `get_best_move`
leave the caller's array, and every other already allocated array, holding
exactly the board it held before the call: every child position is explored
on a fresh `copy_board` copy and only that copy is written. -/
theorem C10_search_preserves_caller_board
    (sz player ai_depth depth : Nat) (dynamic_depth : Bool) (s : Store) (ref : Nat)
    (maximizing : Bool) (alpha beta : Int) (t : Table) (h : ref < s.length) :
    storeGet (minimaxRef sz player depth s ref maximizing alpha beta t).2.1 ref
        = storeGet s ref ∧
    storeGet (get_best_moveRef sz ai_depth dynamic_depth s ref player t).2.1 ref
        = storeGet s ref :=
  ⟨(minimaxRef_frame sz player depth s ref maximizing alpha beta t).2 ref h,
   (get_best_moveRef_frame sz ai_depth dynamic_depth s ref player t).2 ref h⟩

/-- Witness for C10: depth-1 search and best-move query on a one-board heap
holding the fresh size-6 board. -/
theorem C10_witness :
    0 < ([init_board 6] : Store).length ∧
    storeGet (minimaxRef 6 BLACK 1 [init_board 6] 0 true (-INF) INF []).2.1 0
        = storeGet [init_board 6] 0 ∧
    storeGet (get_best_moveRef 6 1 false [init_board 6] 0 BLACK []).2.1 0
        = storeGet [init_board 6] 0 :=
  ⟨by decide,
   (C10_search_preserves_caller_board 6 BLACK 1 1 false [init_board 6] 0 true
      (-INF) INF [] (by decide)).1,
   (C10_search_preserves_caller_board 6 BLACK 1 1 false [init_board 6] 0 true
      (-INF) INF [] (by decide)).2⟩
